import Mathlib

/-!
Adventure game: room-graph generator and player.

A shallow embedding of `waltsara.buildrooms.c` (the generator) and
`waltsara.adventure.c` (the player), with the properties of the
room graph, of the room file format and of the navigation loop.

Conventions of the embedding:

* a C string is the list of the characters before its terminating NUL; files
  and the standard input are lists of characters other than NUL;
* `rand()` is an oracle: every function that draws random numbers takes the
  list of the values `rand()` returns, in order, and gives back the unread
  rest; a retry loop that is still running when the list is exhausted yields
  `none`;
* a write or read outside an array is not given a meaning: the operation
  yields `none`, except where the source itself reads past an array
  (the candidate array of the generator), where the value read is a parameter;
* `int` counters are unbounded naturals (no room count or step count of the
  program comes near `INT_MAX`).
-/

namespace Adventure

/-! ## Data model (shared by both programs) -/

/-- C string: the characters in front of the terminating NUL. -/
abbrev CStr := List Char

abbrev MAX_ROOM_NAME_LENGTH : Nat := 32
abbrev NUM_REQUIRED_ROOMS : Nat := 7
abbrev MAX_ROOM_COUNT : Nat := 10
abbrev MIN_ROOM_CONNECTIONS : Nat := 3
abbrev MAX_ROOM_CONNECTIONS : Nat := 6

/-- Enumeration `Type` of the source (renamed: `Type` is reserved). -/
inductive RoomType where
  | START_ROOM
  | MID_ROOM
  | END_ROOM
  deriving DecidableEq, Repr

/-- Struct `Room`: a name, six connection slots, the number of slots in use
and the role of the room. -/
structure Room where
  name : CStr
  connections : Fin MAX_ROOM_CONNECTIONS → CStr
  connectCount : Nat
  roomType : RoomType

/-- Struct `Graph`: a fixed array of seven rooms. -/
structure Graph where
  rooms : Fin NUM_REQUIRED_ROOMS → Room

/-- The connection list of a room: the first `connectCount` slots, in slot
order. These are the slots every loop of the source walks
(`for (i = 0; i < connectCount; i++) ... connections[i]`); with a count above
6 the list ends at the last slot. -/
def connList (r : Room) : List CStr :=
  (List.ofFn r.connections).take r.connectCount

/-- Assignment `g->rooms[i] = r`. -/
def Graph.setRoom (g : Graph) (i : Fin NUM_REQUIRED_ROOMS) (r : Room) : Graph :=
  { rooms := Function.update g.rooms i r }

/-! ## Generator: `waltsara.buildrooms.c` -/

/-- The loop of `isGraphFull`, started at the rooms still to visit with the
current value of `result`: it stops as soon as `result` is false. -/
def isGraphFullLoop (g : Graph) : List (Fin NUM_REQUIRED_ROOMS) → Bool → Bool
  | [], result => result
  | i :: rest, result =>
    if result then
      let numRooms := (g.rooms i).connectCount
      isGraphFullLoop g rest
        (decide (numRooms ≤ MAX_ROOM_CONNECTIONS) && decide (numRooms ≥ MIN_ROOM_CONNECTIONS))
    else result

/-- Function `isGraphFull`. -/
def isGraphFull (g : Graph) : Bool :=
  isGraphFullLoop g (List.finRange NUM_REQUIRED_ROOMS) true

/-- Function `GetRandomRoom`: the index `rand() % NUM_REQUIRED_ROOMS`, for the
value `r` that `rand()` returned. The room pointer of the source is the
index into `g->rooms`. -/
def GetRandomRoom (r : Nat) : Fin NUM_REQUIRED_ROOMS :=
  ⟨r % NUM_REQUIRED_ROOMS, Nat.mod_lt r (by decide)⟩

/-- Function `IsConnected`: is the name of `dest` (`to` in the source) in one of the first
`connectCount` slots of `frm`. -/
def IsConnected (frm dest : Room) : Bool :=
  (connList frm).any (fun c => decide (dest.name = c))

/-- Function `CanAddConnectionFrom`. -/
def CanAddConnectionFrom (r : Room) : Bool :=
  r.connectCount != MAX_ROOM_CONNECTIONS

/-- Function `ConnectRoom`: copy the name of `b` into slot `connectCount` of
`a` and increment `connectCount`. Slot 6 and beyond do not exist. -/
def ConnectRoom (a b : Room) : Option Room :=
  let numConnectionsA := a.connectCount
  if h : numConnectionsA < MAX_ROOM_CONNECTIONS then
    some { a with
      connections := Function.update a.connections ⟨numConnectionsA, h⟩ b.name
      connectCount := numConnectionsA + 1 }
  else none

/-- Function `IsSameRoom`: the names compare equal. -/
def IsSameRoom (a b : Room) : Bool :=
  decide (a.name = b.name)

/-- First loop of `AddRandomConnection`: draw rooms until one can take a
connection. -/
def pickFirstRoom (g : Graph) : List Nat → Option (Fin NUM_REQUIRED_ROOMS × List Nat)
  | [] => none
  | r :: rs =>
    let a := GetRandomRoom r
    if CanAddConnectionFrom (g.rooms a) then some (a, rs) else pickFirstRoom g rs

/-- Second loop of `AddRandomConnection` (a do-while): draw rooms while the
room drawn is full, is `a`, or is already in the list of `a`. -/
def pickSecondRoom (g : Graph) (a : Fin NUM_REQUIRED_ROOMS) :
    List Nat → Option (Fin NUM_REQUIRED_ROOMS × List Nat)
  | [] => none
  | r :: rs =>
    let b := GetRandomRoom r
    if !CanAddConnectionFrom (g.rooms b) || IsSameRoom (g.rooms a) (g.rooms b)
        || IsConnected (g.rooms a) (g.rooms b) then
      pickSecondRoom g a rs
    else some (b, rs)

/-- Function `AddRandomConnection`: both loops, then `ConnectRoom(a, b)` and
`ConnectRoom(b, a)` on the rooms of the graph. -/
def AddRandomConnection (g : Graph) (rs : List Nat) : Option (Graph × List Nat) :=
  match pickFirstRoom g rs with
  | none => none
  | some (a, rs1) =>
    match pickSecondRoom g a rs1 with
    | none => none
    | some (b, rs2) =>
      match ConnectRoom (g.rooms a) (g.rooms b) with
      | none => none
      | some ra =>
        let g1 := g.setRoom a ra
        match ConnectRoom (g1.rooms b) (g1.rooms a) with
        | none => none
        | some rb => some (g1.setRoom b rb, rs2)

/-- The loop `while (!isGraphFull(&graph)) AddRandomConnection(&graph);` of
`main`, run for at most `fuel` calls. -/
def buildConnections : Nat → Graph → List Nat → Option (Graph × List Nat)
  | 0, g, rs => if isGraphFull g then some (g, rs) else none
  | fuel + 1, g, rs =>
    if isGraphFull g then some (g, rs)
    else
      match AddRandomConnection g rs with
      | none => none
      | some (g1, rs1) => buildConnections fuel g1 rs1

/-- The ten candidate names of `main`. -/
def roomNames : List CStr :=
  ["Conservatory".toList, "Lounge".toList, "Kitchen".toList, "Library".toList,
   "Hall".toList, "Study".toList, "Ballroom".toList, "DiningRoom".toList,
   "BilliardRoom".toList, "Courtyard".toList]

/-- What `memset(..., 0, sizeof(Room))` leaves: empty strings, count 0 and
the type with value 0. -/
def zeroRoom : Room :=
  { name := [], connections := fun _ => [], connectCount := 0,
    roomType := RoomType.START_ROOM }

/-- The first loop of `main`: `allRooms[i]` is a middle room without
connections carrying the i-th name. The connection slots of the local
`Room r` are never written; `stack` is what they hold. -/
def initAllRooms (stack : Fin MAX_ROOM_CONNECTIONS → CStr) : List Room :=
  roomNames.map (fun n =>
    { name := n, connections := stack, connectCount := 0, roomType := RoomType.MID_ROOM })

/-- The inner loop `while (idx <= numAllRooms) { allRooms[idx] = allRooms[idx+1]; idx++; }`,
unrolled `k` times. `past` is the value read at `allRooms[10]`, behind the
array. -/
def collapse (past : Room) : Nat → List Room → Nat → List Room
  | 0, allRooms, _ => allRooms
  | k + 1, allRooms, idx =>
    collapse past k (allRooms.set idx (allRooms.getD (idx + 1) past)) (idx + 1)

/-- State of the selection loop of `main`. -/
structure Selection where
  graph : Graph
  allRooms : List Room
  numUsedRooms : Nat
  numAllRooms : Nat

/-- One iteration of the selection loop, for the value `r` of `rand()`. -/
def selectStep (past : Room) (s : Selection) (r : Nat) : Selection :=
  let idx := r % s.numAllRooms
  let graph :=
    if h : s.numUsedRooms < NUM_REQUIRED_ROOMS then
      s.graph.setRoom ⟨s.numUsedRooms, h⟩ (s.allRooms.getD idx past)
    else s.graph
  let allRooms := s.allRooms.set idx zeroRoom
  let numAllRooms := s.numAllRooms - 1
  let numUsedRooms := s.numUsedRooms + 1
  { graph := graph
    allRooms := collapse past (numAllRooms + 1 - idx) allRooms idx
    numUsedRooms := numUsedRooms
    numAllRooms := numAllRooms }

/-- The selection loop `for (i = 0; i < NUM_REQUIRED_ROOMS; i++)`, with `k`
iterations left. -/
def selectLoop (past : Room) : Nat → Selection → List Nat → Option (Selection × List Nat)
  | 0, s, rs => some (s, rs)
  | _ + 1, _, [] => none
  | k + 1, s, r :: rs => selectLoop past k (selectStep past s r) rs

/-- The do-while of `main` that draws the start and the end room until they
differ. -/
def pickStartEnd (g : Graph) :
    List Nat → Option (Fin NUM_REQUIRED_ROOMS × Fin NUM_REQUIRED_ROOMS × List Nat)
  | [] => none
  | [_] => none
  | r1 :: r2 :: rs =>
    let start := GetRandomRoom r1
    let «end» := GetRandomRoom r2
    if IsSameRoom (g.rooms start) (g.rooms «end») then pickStartEnd g rs
    else some (start, «end», rs)

/-- Assignment `p->roomType = t` for the room at index `p`. -/
def setRoomType (g : Graph) (p : Fin NUM_REQUIRED_ROOMS) (t : RoomType) : Graph :=
  g.setRoom p { g.rooms p with roomType := t }

/-- The generator `main` up to the graph it writes to disk: selection of seven
rooms, start and end room, connections. -/
def generate (fuel : Nat) (stack : Fin MAX_ROOM_CONNECTIONS → CStr) (past : Room)
    (rs : List Nat) : Option Graph :=
  let s0 : Selection :=
    { graph := { rooms := fun _ => zeroRoom }
      allRooms := initAllRooms stack
      numUsedRooms := 0
      numAllRooms := MAX_ROOM_COUNT }
  match selectLoop past NUM_REQUIRED_ROOMS s0 rs with
  | none => none
  | some (s, rs1) =>
    match pickStartEnd s.graph rs1 with
    | none => none
    | some (start, «end», rs2) =>
      let g1 := setRoomType s.graph start RoomType.START_ROOM
      let g2 := setRoomType g1 «end» RoomType.END_ROOM
      match buildConnections fuel g2 rs2 with
      | none => none
      | some (g3, _) => some g3

/-! ## Graph states of the construction -/

/-- Initial state of the construction: seven rooms with pairwise distinct
names and no connections. -/
def Initial (g : Graph) : Prop :=
  Function.Injective (fun i => (g.rooms i).name) ∧ ∀ i, (g.rooms i).connectCount = 0

/-- Graph states reached from `g0` by completed `AddRandomConnection` calls,
whatever the random values. -/
inductive Reachable (g0 : Graph) : Graph → Prop where
  | init : Reachable g0 g0
  | step {g g1 : Graph} {rs rs1 : List Nat} :
      Reachable g0 g → AddRandomConnection g rs = some (g1, rs1) → Reachable g0 g1

/-- Room `j` is in the connection list of room `i`. -/
def Edge (g : Graph) (i j : Fin NUM_REQUIRED_ROOMS) : Prop :=
  (g.rooms j).name ∈ connList (g.rooms i)

instance (g : Graph) (i j : Fin NUM_REQUIRED_ROOMS) : Decidable (Edge g i j) := by
  unfold Edge
  infer_instance

/-- The structural invariant of the construction. -/
structure Inv (g : Graph) : Prop where
  names : Function.Injective (fun i => (g.rooms i).name)
  count_le : ∀ i, (g.rooms i).connectCount ≤ MAX_ROOM_CONNECTIONS
  nodup : ∀ i, (connList (g.rooms i)).Nodup
  irrefl : ∀ i, (g.rooms i).name ∉ connList (g.rooms i)
  symm : ∀ i j, (g.rooms j).name ∈ connList (g.rooms i) ↔
    (g.rooms i).name ∈ connList (g.rooms j)
  closed : ∀ i, ∀ n ∈ connList (g.rooms i), ∃ j, (g.rooms j).name = n

/-- One completed call of `AddRandomConnection`, seen from outside: two rooms
`a` and `b` with different names, each with a count other than 6 and `b` not in
the list of `a`, each get the name of the other appended; nothing else
changes. -/
structure Connects (g g1 : Graph) (a b : Fin NUM_REQUIRED_ROOMS) : Prop where
  ne : a ≠ b
  name_ne : (g.rooms a).name ≠ (g.rooms b).name
  room_a : (g.rooms a).connectCount ≠ MAX_ROOM_CONNECTIONS
  room_b : (g.rooms b).connectCount ≠ MAX_ROOM_CONNECTIONS
  lt_a : (g.rooms a).connectCount < MAX_ROOM_CONNECTIONS
  lt_b : (g.rooms b).connectCount < MAX_ROOM_CONNECTIONS
  fresh : (g.rooms b).name ∉ connList (g.rooms a)
  name_eq : ∀ i, (g1.rooms i).name = (g.rooms i).name
  type_eq : ∀ i, (g1.rooms i).roomType = (g.rooms i).roomType
  list_a : connList (g1.rooms a) = connList (g.rooms a) ++ [(g.rooms b).name]
  list_b : connList (g1.rooms b) = connList (g.rooms b) ++ [(g.rooms a).name]
  count_a : (g1.rooms a).connectCount = (g.rooms a).connectCount + 1
  count_b : (g1.rooms b).connectCount = (g.rooms b).connectCount + 1
  other : ∀ i, i ≠ a → i ≠ b → g1.rooms i = g.rooms i


/-! ## Room files: written by the generator, read by the player -/

/-- The tag the generator writes for a room type. -/
def roomTypeTag : RoomType → CStr
  | RoomType.START_ROOM => "START_ROOM".toList
  | RoomType.MID_ROOM => "MID_ROOM".toList
  | RoomType.END_ROOM => "END_ROOM".toList

/-- The loop `for (j = 1; j <= connectCount; j++) fprintf(theFile, "CONNECTION %d: %s\n", j, connections[j-1])`
of the generator, over the connections still to write, the next one being
number `j`. -/
def connectionLines : List CStr → Nat → List Char
  | [], _ => []
  | c :: cs, j =>
    "CONNECTION ".toList ++ (Nat.repr j).toList ++ ": ".toList ++ c ++ ['\n']
      ++ connectionLines cs (j + 1)

/-- The text the generator writes into the file of one room (`main`, lines
159 to 180): the name line, the connection lines, the type line. -/
def writeRoomFile (r : Room) : List Char :=
  "ROOM NAME: ".toList ++ r.name ++ ['\n']
    ++ connectionLines (connList r) 1
    ++ "ROOM TYPE: ".toList ++ roomTypeTag r.roomType ++ ['\n']

/-- The characters `fgets` stores when it may still store `n` characters:
it stops behind a newline, at the end of the stream, or when `n` are stored.
The second component is the unread rest of the stream. -/
def fgetsChars : Nat → List Char → List Char × List Char
  | 0, s => ([], s)
  | _ + 1, [] => ([], [])
  | n + 1, c :: s =>
    if c = '\n' then ([c], s)
    else ((c :: (fgetsChars n s).1), (fgetsChars n s).2)

/-- Library function `fgets(line, size, stream)`: `none` is NULL (end of
stream), otherwise the line stored and the rest of the stream. -/
def fgets (size : Nat) (stream : List Char) : Option (CStr × List Char) :=
  if stream = [] then none else some (fgetsChars (size - 1) stream)

/-- Does `s` start with `p`. -/
def startsWith : CStr → CStr → Bool
  | _, [] => true
  | [], _ :: _ => false
  | c :: s, d :: p => decide (c = d) && startsWith s p

/-- Library function `strstr(haystack, needle)`, as the test `!= NULL`. -/
def strstr : CStr → CStr → Bool
  | [], needle => needle.isEmpty
  | c :: s, needle => startsWith (c :: s) needle || strstr s needle

/-- The body of the loop of `InitializeRoom` for one line `raw` as `fgets`
stored it; `roomCount` is the local counter of the source. Reading
`&line[11]` or `&line[14]` behind the end of the line, copying a string that
does not fit the 32 bytes of a name, and writing a seventh connection slot
are not given a meaning. -/
def InitializeRoomLine (room : Room) (roomCount : Nat) (raw : CStr) : Option (Room × Nat) :=
  let line := raw.dropLast
  if strstr line "NAME".toList then
    if 11 ≤ line.length ∧ (line.drop 11).length < MAX_ROOM_NAME_LENGTH then
      some ({ room with name := line.drop 11 }, roomCount)
    else none
  else if strstr line "CONNECTION".toList then
    if h : roomCount < MAX_ROOM_CONNECTIONS ∧ 14 ≤ line.length ∧
        (line.drop 14).length < MAX_ROOM_NAME_LENGTH then
      some ({ room with
                connections := Function.update room.connections ⟨roomCount, h.1⟩ (line.drop 14)
                connectCount := roomCount + 1 },
            roomCount + 1)
    else none
  else if strstr line "END_ROOM".toList then
    some ({ room with roomType := RoomType.END_ROOM }, roomCount)
  else if strstr line "MID_ROOM".toList then
    some ({ room with roomType := RoomType.MID_ROOM }, roomCount)
  else if strstr line "START_ROOM".toList then
    some ({ room with roomType := RoomType.START_ROOM }, roomCount)
  else some (room, roomCount)

/-- The loop `while (fgets(line, 80, f) != NULL)` of `InitializeRoom`, run
for at most `fuel` lines. -/
def InitializeRoomLoop : Nat → Room → Nat → List Char → Option Room
  | 0, room, _, stream => if stream = [] then some room else none
  | fuel + 1, room, roomCount, stream =>
    match fgets 80 stream with
    | none => some room
    | some (raw, rest) =>
      match InitializeRoomLine room roomCount raw with
      | none => none
      | some (room1, roomCount1) => InitializeRoomLoop fuel room1 roomCount1 rest

/-- Function `InitializeRoom`, on the contents of the file. `room` is what
the room of the graph holds before (the graph of the player is not
initialised). Every `fgets` that succeeds takes at least one character, so
one unit of fuel per character is enough. -/
def InitializeRoom (room : Room) (file : List Char) : Option Room :=
  InitializeRoomLoop file.length room 0 file

/-! ## Player: `waltsara.adventure.c` -/

/-- Function `GetRoomFromName`: the first room with that name; `none` is
NULL. -/
def GetRoomFromName (g : Graph) (name : CStr) : Option (Fin NUM_REQUIRED_ROOMS) :=
  (List.finRange NUM_REQUIRED_ROOMS).find? (fun i => decide (name = (g.rooms i).name))

/-- The string the loop of `GetPossibleConnections` builds: each name
followed by ", ", the last one by ".". -/
def joinConnections : List CStr → CStr
  | [] => []
  | [c] => c ++ ".".toList
  | c :: d :: cs => c ++ ", ".toList ++ joinConnections (d :: cs)

/-- Function `GetPossibleConnections`; the result has to fit the 256 bytes
allocated for it. -/
def GetPossibleConnections (r : Room) : Option CStr :=
  let result := joinConnections (connList r)
  if result.length < 256 then some result else none

/-- All the tokens that `strtok(s, delims)` followed by `strtok(NULL, delims)`
calls return, in order; `acc` is the token being read. -/
def strtokAll (delims : List Char) : CStr → CStr → List CStr
  | [], acc => if acc = [] then [] else [acc]
  | c :: cs, acc =>
    if delims.contains c then
      if acc = [] then strtokAll delims cs [] else acc :: strtokAll delims cs []
    else strtokAll delims cs (acc ++ [c])

/-- Navigation state of the game loop: the current room (`none` is NULL), the
step counter, the path record and the size of the buffer that holds it. -/
structure NavState where
  cur : Option (Fin NUM_REQUIRED_ROOMS)
  steps : Nat
  pathTaken : CStr
  bufferSize : Nat

/-- One iteration of the game loop of `main`, for the result `input` of
`fgets(line, 33, stdin)`. Only the navigation state is kept; what is printed
is not. The `time` branch leaves the navigation state alone: it talks to
the time thread and prints the file. -/
def gameIteration (g : Graph) (st : NavState) (input : Option CStr) : Option NavState :=
  match st.cur with
  | none => none
  | some c =>
    match GetPossibleConnections (g.rooms c) with
    | none => none
    | some connections =>
      match input with
      | none => some st
      | some raw =>
        let line := raw.dropLast
        let validName := (strtokAll " ,.".toList connections []).find? (fun t => decide (line = t))
        if validName.isSome then
          let bufferSize :=
            if st.pathTaken.length + line.length + 2 > st.bufferSize then st.bufferSize + 100
            else st.bufferSize
          match GetRoomFromName g line with
          | none => none
          | some c1 =>
            let pathTaken := st.pathTaken ++ (g.rooms c1).name ++ ['\n']
            if pathTaken.length < bufferSize then
              some { cur := some c1, steps := st.steps + 1, pathTaken := pathTaken,
                     bufferSize := bufferSize }
            else none
        else if line = "time".toList then some st
        else some st

/-- One iteration of the game loop reading from `stdin`: the new state and
the unread rest of `stdin`. -/
def gameStep (g : Graph) (st : NavState) (stdin : List Char) : Option (NavState × List Char) :=
  match fgets (MAX_ROOM_NAME_LENGTH + 1) stdin with
  | none => (gameIteration g st none).map (fun st1 => (st1, stdin))
  | some (raw, rest) => (gameIteration g st (some raw)).map (fun st1 => (st1, rest))

/-- A name the tokenizer and the line reader give back unchanged: not empty,
at most 30 characters, without blank, comma, period or newline. The ten
candidate names are of this kind. -/
def PlainName (n : CStr) : Prop :=
  n ≠ [] ∧ n.length ≤ 30 ∧ ∀ c ∈ n, c ∉ [' ', ',', '.', '\n']

instance (n : CStr) : Decidable (PlainName n) := by
  unfold PlainName
  infer_instance

/-! ## Sample graphs -/

/-- A start of the construction: the first seven candidate names, no
connections, empty slots. -/
def sampleStart : Graph :=
  { rooms := fun i =>
      { name := roomNames.getD i.val [], connections := fun _ => [], connectCount := 0,
        roomType := RoomType.MID_ROOM } }

/-- Random values that build a ring of the seven rooms and four chords. -/
def samplePicks : List Nat :=
  [0, 1, 1, 2, 2, 3, 3, 4, 4, 5, 5, 6, 6, 0, 0, 3, 1, 4, 2, 5, 6, 1]

/-- The graph the construction loop ends with on `samplePicks`. -/
def sampleFull : Graph :=
  ((buildConnections 30 sampleStart samplePicks).getD (sampleStart, [])).1

/-- Number of rooms of the graph with the given type. -/
def countType (g : Graph) (t : RoomType) : Nat :=
  (Finset.univ.filter (fun i => (g.rooms i).roomType = t)).card

/-- Random values for a whole run of the generator: seven for the selection,
two for the start and end room, then `samplePicks`. -/
def sampleRun : List Nat :=
  [3, 3, 3, 0, 0, 0, 0, 2, 5] ++ samplePicks

/-- The graph the generator ends with on `sampleRun`. -/
def sampleGenerated : Graph :=
  (generate 30 (fun _ => []) zeroRoom sampleRun).getD sampleStart

/-- A navigation state in the first room of `sampleFull` whose path record
(19 entries of four characters and a newline) fills 95 of the 100 bytes of
its buffer, so that the next move has to grow the buffer. -/
def sampleNav : NavState :=
  { cur := some 0, steps := 19,
    pathTaken := (List.replicate 19 ("Hall".toList ++ ['\n'])).flatten,
    bufferSize := 100 }

/-- The state of `main` in front of the selection loop: an all-zero graph,
the ten candidates, no room used. -/
def selectStart (stack : Fin MAX_ROOM_CONNECTIONS → CStr) : Selection :=
  { graph := { rooms := fun _ => zeroRoom }
    allRooms := initAllRooms stack
    numUsedRooms := 0
    numAllRooms := MAX_ROOM_COUNT }

/-- No name occurs twice among the candidates still in `allRooms` and the
rooms already in the graph. -/
structure Distinct (past : Room) (s : Selection) : Prop where
  cand : ∀ j1 j2, j1 < s.numAllRooms → j2 < s.numAllRooms →
    (s.allRooms.getD j1 past).name = (s.allRooms.getD j2 past).name → j1 = j2
  cross : ∀ j (i : Fin NUM_REQUIRED_ROOMS), j < s.numAllRooms → i.val < s.numUsedRooms →
    (s.allRooms.getD j past).name ≠ (s.graph.rooms i).name
  used : ∀ i1 i2 : Fin NUM_REQUIRED_ROOMS, i1.val < s.numUsedRooms → i2.val < s.numUsedRooms →
    (s.graph.rooms i1).name = (s.graph.rooms i2).name → i1 = i2

/-- The two rooms a call of `AddRandomConnection` settles on: the results of
its two loops. -/
def chosenPair (g : Graph) (rs : List Nat) :
    Option (Fin NUM_REQUIRED_ROOMS × Fin NUM_REQUIRED_ROOMS) :=
  match pickFirstRoom g rs with
  | none => none
  | some (a, rs1) =>
    match pickSecondRoom g a rs1 with
    | none => none
    | some (b, _) => some (a, b)

/-- Graph states reached from `g0` by completed `AddRandomConnection` calls,
with the pairs of rooms the calls connected, in the order of the calls. -/
inductive ReachableBy (g0 : Graph) :
    List (Fin NUM_REQUIRED_ROOMS × Fin NUM_REQUIRED_ROOMS) → Graph → Prop where
  | init : ReachableBy g0 [] g0
  | step {log : List (Fin NUM_REQUIRED_ROOMS × Fin NUM_REQUIRED_ROOMS)} {g g1 : Graph}
      {rs rs1 : List Nat} {a b : Fin NUM_REQUIRED_ROOMS} :
      ReachableBy g0 log g → AddRandomConnection g rs = some (g1, rs1) →
      chosenPair g rs = some (a, b) → ReachableBy g0 (log ++ [(a, b)]) g1

/-- The names the calls of a history added to the list of room `i`, in the
order of the calls: the name of `b` for a call that connected `(i, b)`, the
name of `a` for a call that connected `(a, i)`. -/
def addedNames (g0 : Graph) (i : Fin NUM_REQUIRED_ROOMS) :
    List (Fin NUM_REQUIRED_ROOMS × Fin NUM_REQUIRED_ROOMS) → List CStr
  | [] => []
  | (a, b) :: log =>
    (if i = a then [(g0.rooms b).name] else if i = b then [(g0.rooms a).name] else [])
      ++ addedNames g0 i log

/-- The number of connection slots in use in the whole graph. -/
def totalConnections (g : Graph) : Nat :=
  ∑ i, (g.rooms i).connectCount

/-- The graph after one call on `sampleStart` that connects rooms 0 and 1. -/
def sampleOne : Graph :=
  ((AddRandomConnection sampleStart [0, 1]).getD (sampleStart, [])).1

/-- The graph after a second call, which connects rooms 1 and 2. -/
def sampleTwo : Graph :=
  ((AddRandomConnection sampleOne [8, 2]).getD (sampleOne, [])).1

/-- A name the tokenizer gives back unchanged: not empty and without blank,
comma or period. -/
def TokenName (n : CStr) : Prop :=
  n ≠ [] ∧ ∀ c ∈ n, c ∉ [' ', ',', '.']

instance (n : CStr) : Decidable (TokenName n) := by
  unfold TokenName
  infer_instance

/-- Function `GetStartRoom`: the first room of type `START_ROOM`; `none` is
NULL. -/
def GetStartRoom (g : Graph) : Option (Fin NUM_REQUIRED_ROOMS) :=
  (List.finRange NUM_REQUIRED_ROOMS).find?
    (fun i => decide ((g.rooms i).roomType = RoomType.START_ROOM))

/-- Function `GetEndRoom`: the first room of type `END_ROOM`; `none` is
NULL. -/
def GetEndRoom (g : Graph) : Option (Fin NUM_REQUIRED_ROOMS) :=
  (List.finRange NUM_REQUIRED_ROOMS).find?
    (fun i => decide ((g.rooms i).roomType = RoomType.END_ROOM))

/-- The graph `g` of the player holds the rooms of the generated graph `gen`:
`InitializeGraph` fills `rooms[0]`, `rooms[1]`, ... from the seven room files
in the order `readdir` returns them, and each file gives back the name, the
connection list and the type of its room. -/
def LoadedFrom (gen g : Graph) : Prop :=
  ∃ σ : Equiv.Perm (Fin NUM_REQUIRED_ROOMS), ∀ i,
    (g.rooms i).name = (gen.rooms (σ i)).name ∧
    connList (g.rooms i) = connList (gen.rooms (σ i)) ∧
    (g.rooms i).roomType = (gen.rooms (σ i)).roomType

/-- A name the game loop can take as input: it comes back unchanged from the
tokenizer, fits the 32 bytes of a name and holds no newline. -/
def InputName (n : CStr) : Prop :=
  TokenName n ∧ n.length < MAX_ROOM_NAME_LENGTH ∧ '\n' ∉ n

instance (n : CStr) : Decidable (InputName n) := by
  unfold InputName
  infer_instance

/-- Lines 173 to 195 of `main`, for the current room `r` and the line `raw`
as `fgets` stored it: the last character of the line is cut off, and the
tokens of the connection string are compared with the line until one is
equal (`validName != NULL`, the line is taken as a move: `true`) or none is
left (`false`). `none`: the connection string does not fit its buffer. -/
def acceptsLine (r : Room) (raw : CStr) : Option Bool :=
  match GetPossibleConnections r with
  | none => none
  | some connections =>
    some ((strtokAll " ,.".toList connections []).find?
      (fun t => decide (raw.dropLast = t))).isSome

/-- The same for the line that `fgets(line, 33, stdin)` reads from `stdin`;
when `fgets` returns NULL nothing is compared. -/
def acceptsInput (r : Room) (stdin : List Char) : Option Bool :=
  match fgets (MAX_ROOM_NAME_LENGTH + 1) stdin with
  | none => some false
  | some (raw, _) => acceptsLine r raw

/-- A name of 31 characters, the longest that fits the 32 bytes of a name. -/
def longName : CStr := List.replicate 31 'a'

/-- A graph whose room 0 has the single connection `longName`, the name of
room 1. -/
def longGraph : Graph :=
  { rooms := fun i =>
      if i = 0 then
        { name := "Lounge".toList, connections := fun _ => longName, connectCount := 1,
          roomType := RoomType.START_ROOM }
      else if i = 1 then
        { name := longName, connections := fun _ => "Lounge".toList, connectCount := 1,
          roomType := RoomType.END_ROOM }
      else
        { name := roomNames.getD i.val [], connections := fun _ => [], connectCount := 0,
          roomType := RoomType.MID_ROOM } }

/-- The game loop `while (cur != end)` of `main`, run for at most `fuel`
iterations: the state and the unread input when the loop is left. -/
def gameLoop (g : Graph) (fin : Option (Fin NUM_REQUIRED_ROOMS)) :
    Nat → NavState → List Char → Option (NavState × List Char)
  | 0, st, stdin => if st.cur = fin then some (st, stdin) else none
  | fuel + 1, st, stdin =>
    if st.cur = fin then some (st, stdin)
    else
      match gameStep g st stdin with
      | none => none
      | some (st1, rest) => gameLoop g fin fuel st1 rest

/-- The player `main` from the loaded graph to the end of the game loop: the
loop starts in the start room with no steps, an empty path record and a
buffer of 100 bytes. -/
def playGame (fuel : Nat) (g : Graph) (stdin : List Char) : Option (NavState × List Char) :=
  gameLoop g (GetEndRoom g) fuel
    { cur := GetStartRoom g, steps := 0, pathTaken := [], bufferSize := 100 } stdin

/-- The names `names` lead from room `cur` to room `fin`: each name is a
connection name of the room reached so far and the name of the next room, and
`fin` is entered with the last name and not before. -/
def LeadsTo (g : Graph) (fin : Fin NUM_REQUIRED_ROOMS) :
    Fin NUM_REQUIRED_ROOMS → List CStr → Prop
  | cur, [] => cur = fin
  | cur, n :: ns =>
    cur ≠ fin ∧ n ∈ connList (g.rooms cur) ∧ ∃ j, (g.rooms j).name = n ∧ LeadsTo g fin j ns

/-- The text a player types for a sequence of names: each name on a line of
its own. -/
def inputLines (names : List CStr) : List Char :=
  (names.map (fun n => n ++ ['\n'])).flatten

/-- A graph with a name that holds a blank: the start room `Lounge` is
connected with the end room `End Room`. -/
def blankGraph : Graph :=
  { rooms := fun i =>
      if i = 0 then
        { name := "Lounge".toList, connections := fun _ => "End Room".toList, connectCount := 1,
          roomType := RoomType.START_ROOM }
      else if i = 1 then
        { name := "End Room".toList, connections := fun _ => "Lounge".toList, connectCount := 1,
          roomType := RoomType.END_ROOM }
      else
        { name := roomNames.getD i.val [], connections := fun _ => [], connectCount := 0,
          roomType := RoomType.MID_ROOM } }

/-- In the words of the specification: a name declaration, `ROOM NAME: `
followed by the name. -/
def IsNameDeclaration (line : CStr) : Prop :=
  ∃ name : CStr, line = "ROOM NAME: ".toList ++ name

/-- In the words of the specification: a numbered connection declaration,
`CONNECTION `, a number, `: ` and the name. -/
def IsConnectionDeclaration (line : CStr) : Prop :=
  ∃ (n : Nat) (name : CStr),
    line = "CONNECTION ".toList ++ (Nat.repr n).toList ++ ": ".toList ++ name

/-- In the words of the specification: a role declaration, `ROOM TYPE: `
followed by one of the three tags. -/
def IsRoleDeclaration (line : CStr) : Prop :=
  ∃ t : RoomType, line = "ROOM TYPE: ".toList ++ roomTypeTag t

/-! ## Time thread: the timestamp -/

/-- The fields of `struct tm` that the format of `WriteTime` uses: minute,
hour (0 to 23), day of the month (1 to 31), month (0 to 11), years since
1900, day of the week (0 is Sunday) and day of the year (0 to 365). -/
structure Tm where
  tm_min : Nat
  tm_hour : Nat
  tm_mday : Nat
  tm_mon : Nat
  tm_year : Nat
  tm_wday : Nat
  tm_yday : Nat

/-- A number in two columns, filled with `fill` on the left. -/
def twoColumns (fill : Char) (n : Nat) : CStr :=
  if n < 10 then fill :: (Nat.repr n).toList else (Nat.repr n).toList

/-- Conversion `%A` of `strftime`: the full name of the day of the week. -/
def weekdayName (wday : Nat) : CStr :=
  (["Sunday", "Monday", "Tuesday", "Wednesday", "Thursday", "Friday", "Saturday"].getD
    wday "?").toList

/-- Conversion `%B` of `strftime`: the full name of the month. -/
def monthName (mon : Nat) : CStr :=
  (["January", "February", "March", "April", "May", "June", "July", "August", "September",
    "October", "November", "December"].getD mon "?").toList

/-- The number of days of a calendar year. -/
def daysInYear (year : Nat) : Nat :=
  if year % 4 = 0 ∧ (year % 100 ≠ 0 ∨ year % 400 = 0) then 366 else 365

/-- Conversion `%G` of `strftime`: the year of the ISO 8601 week the day is
in, which is the calendar year of the Thursday of that week (weeks run from
Monday to Sunday). -/
def isoWeekYear (tm : Tm) : Nat :=
  let year := tm.tm_year + 1900
  let sinceMonday := (tm.tm_wday + 6) % 7
  if tm.tm_yday + 3 < sinceMonday then year - 1
  else if daysInYear year ≤ tm.tm_yday + 3 - sinceMonday then year + 1
  else year

/-- The call `strftime(buffer, 80, "%I:%M%P, %A, %B %e, %G\n", timeinfo)` of
`WriteTime`: `%I` is the hour on the 12-hour clock in two digits, `%M` the
minute in two digits, `%P` is `am` or `pm`, `%e` the day of the month in two
columns with a blank in front of a single digit, `%G` the ISO 8601
week-based year. -/
def formatTime (tm : Tm) : CStr :=
  twoColumns '0' (if tm.tm_hour % 12 = 0 then 12 else tm.tm_hour % 12) ++ ":".toList
    ++ twoColumns '0' tm.tm_min
    ++ (if tm.tm_hour < 12 then "am".toList else "pm".toList) ++ ", ".toList
    ++ weekdayName tm.tm_wday ++ ", ".toList
    ++ monthName tm.tm_mon ++ " ".toList
    ++ twoColumns ' ' tm.tm_mday ++ ", ".toList
    ++ (Nat.repr (isoWeekYear tm)).toList ++ "\n".toList

/-- Local time 2021-01-01 00:00, a Friday. -/
def newYear2021 : Tm :=
  { tm_min := 0, tm_hour := 0, tm_mday := 1, tm_mon := 0, tm_year := 121, tm_wday := 5,
    tm_yday := 0 }

/-- Local time 2024-12-31 23:59, a Tuesday, day 366 of a leap year. -/
def newYearsEve2024 : Tm :=
  { tm_min := 59, tm_hour := 23, tm_mday := 31, tm_mon := 11, tm_year := 124, tm_wday := 2,
    tm_yday := 365 }

/-! ## Time thread: the handshake with the game loop

The two threads as a transition system. A step is one statement of one
thread; the steps of the two threads interleave in any order.
`pthread_mutex_lock` is a step that can be taken only when the mutex is free.
`pthread_cond_wait` releases the mutex and blocks; the thread goes on, with
the mutex taken again, at any later moment at which the mutex is free, which
covers a wake-up by `pthread_cond_signal` at any time and a spurious
wake-up. -/

/-- Where the time thread stands in `WriteTime`: the statement it executes
next. -/
inductive WorkerPc where
  | lock
  | check
  | waiting
  | testGameDone
  | format
  | fopen
  | fputs
  | fclose
  | clearDoTime
  | setTimeDone
  | unlock
  | signal
  | exited
  deriving DecidableEq, Repr

/-- Where the main thread stands: in the game loop outside the `time`
branch (`playing`), in the `time` branch (lines 218 to 233), or behind the
game loop (lines 252 to 256). -/
inductive MainPc where
  | playing
  | setDoTime
  | signal
  | check
  | waiting
  | fopen
  | fgets
  | fclose
  | clearTimeDone
  | unlock
  | print
  | setGameDone
  | endUnlock
  | endSignal
  | join
  | finished
  deriving DecidableEq, Repr

/-- The two threads. -/
inductive Thread where
  | main
  | worker
  deriving DecidableEq, Repr

/-- What the game loop does next when it is outside the `time` branch. -/
inductive Input where
  | time
  | other
  | atEnd
  deriving DecidableEq, Repr

/-- The shared state: the statement each thread is at, the holder of
`timeMutex`, the three flags, and the file `currentTime.txt`: whether the
time thread has it open for writing and the number of the request whose time
it holds (0 when it holds none). `requests` counts the requests issued,
`writes` the timestamps written and closed, `lastRead` is the number of the
request whose time the main thread read last. -/
structure TimeState where
  mainPc : MainPc
  workerPc : WorkerPc
  mutex : Option Thread
  doTime : Bool
  timeDone : Bool
  gameDone : Bool
  fileOpen : Bool
  fileStamp : Nat
  requests : Nat
  writes : Nat
  lastRead : Nat
  deriving DecidableEq

/-- The state when the time thread has been created: all flags false. -/
def timeStart : TimeState :=
  { mainPc := MainPc.playing, workerPc := WorkerPc.lock, mutex := none, doTime := false,
    timeDone := false, gameDone := false, fileOpen := false, fileStamp := 0, requests := 0,
    writes := 0, lastRead := 0 }

/-- One statement of `WriteTime`; `none` when the thread is blocked or has
ended. -/
def workerStep (s : TimeState) : Option TimeState :=
  match s.workerPc with
  | WorkerPc.lock =>
    if s.mutex = none then some { s with mutex := some Thread.worker, workerPc := WorkerPc.check }
    else none
  | WorkerPc.check =>
    if s.doTime = false ∧ s.gameDone = false then
      some { s with mutex := none, workerPc := WorkerPc.waiting }
    else some { s with workerPc := WorkerPc.testGameDone }
  | WorkerPc.waiting =>
    if s.mutex = none then some { s with mutex := some Thread.worker, workerPc := WorkerPc.check }
    else none
  | WorkerPc.testGameDone =>
    if s.gameDone then some { s with workerPc := WorkerPc.exited }
    else some { s with workerPc := WorkerPc.format }
  | WorkerPc.format => some { s with workerPc := WorkerPc.fopen }
  | WorkerPc.fopen =>
    some { s with fileOpen := true, fileStamp := 0, workerPc := WorkerPc.fputs }
  | WorkerPc.fputs => some { s with workerPc := WorkerPc.fclose }
  | WorkerPc.fclose =>
    some { s with fileOpen := false, fileStamp := s.requests, writes := s.writes + 1,
                  workerPc := WorkerPc.clearDoTime }
  | WorkerPc.clearDoTime => some { s with doTime := false, workerPc := WorkerPc.setTimeDone }
  | WorkerPc.setTimeDone => some { s with timeDone := true, workerPc := WorkerPc.unlock }
  | WorkerPc.unlock => some { s with mutex := none, workerPc := WorkerPc.signal }
  | WorkerPc.signal => some { s with workerPc := WorkerPc.lock }
  | WorkerPc.exited => none

/-- One statement of the main thread; `inp` is what the game loop meets when
it is outside the `time` branch. `none` when the thread is blocked or has
ended. -/
def mainStep (inp : Input) (s : TimeState) : Option TimeState :=
  match s.mainPc with
  | MainPc.playing =>
    match inp with
    | Input.other => some s
    | Input.time =>
      if s.mutex = none then some { s with mutex := some Thread.main, mainPc := MainPc.setDoTime }
      else none
    | Input.atEnd =>
      if s.mutex = none then
        some { s with mutex := some Thread.main, mainPc := MainPc.setGameDone }
      else none
  | MainPc.setDoTime =>
    some { s with doTime := true, requests := s.requests + 1, mainPc := MainPc.signal }
  | MainPc.signal => some { s with mainPc := MainPc.check }
  | MainPc.check =>
    if s.timeDone = false then some { s with mutex := none, mainPc := MainPc.waiting }
    else some { s with mainPc := MainPc.fopen }
  | MainPc.waiting =>
    if s.mutex = none then some { s with mutex := some Thread.main, mainPc := MainPc.check }
    else none
  | MainPc.fopen => some { s with mainPc := MainPc.fgets }
  | MainPc.fgets => some { s with lastRead := s.fileStamp, mainPc := MainPc.fclose }
  | MainPc.fclose => some { s with mainPc := MainPc.clearTimeDone }
  | MainPc.clearTimeDone => some { s with timeDone := false, mainPc := MainPc.unlock }
  | MainPc.unlock => some { s with mutex := none, mainPc := MainPc.print }
  | MainPc.print => some { s with mainPc := MainPc.playing }
  | MainPc.setGameDone => some { s with gameDone := true, mainPc := MainPc.endUnlock }
  | MainPc.endUnlock => some { s with mutex := none, mainPc := MainPc.endSignal }
  | MainPc.endSignal => some { s with mainPc := MainPc.join }
  | MainPc.join =>
    if s.workerPc = WorkerPc.exited then some { s with mainPc := MainPc.finished } else none
  | MainPc.finished => none

/-- One step of the program: a statement of the time thread or of the main
thread. -/
def TimeStep (s s1 : TimeState) : Prop :=
  workerStep s = some s1 ∨ ∃ inp, mainStep inp s = some s1

/-- The states the two threads reach, in any interleaving. -/
inductive TimeReachable : TimeState → Prop where
  | start : TimeReachable timeStart
  | step {s s1 : TimeState} : TimeReachable s → TimeStep s s1 → TimeReachable s1

/-- The time thread is between `fopen` and `fclose`: it writes the file. -/
def WorkerPc.writing (pc : WorkerPc) : Bool :=
  pc = WorkerPc.fputs ∨ pc = WorkerPc.fclose

/-- The time thread is at a statement it executes with the mutex held. -/
def WorkerPc.holds (pc : WorkerPc) : Bool :=
  pc ≠ WorkerPc.lock ∧ pc ≠ WorkerPc.waiting ∧ pc ≠ WorkerPc.signal

/-- The time thread is handling a request: from the formatting of the time to
the unlocking of the mutex. -/
def WorkerPc.serving (pc : WorkerPc) : Bool :=
  pc = WorkerPc.format ∨ pc = WorkerPc.fopen ∨ pc = WorkerPc.fputs ∨ pc = WorkerPc.fclose ∨
    pc = WorkerPc.clearDoTime ∨ pc = WorkerPc.setTimeDone ∨ pc = WorkerPc.unlock

/-- The main thread is at a statement it executes with the mutex held. -/
def MainPc.holds (pc : MainPc) : Bool :=
  pc = MainPc.setDoTime ∨ pc = MainPc.signal ∨ pc = MainPc.check ∨ pc = MainPc.fopen ∨
    pc = MainPc.fgets ∨ pc = MainPc.fclose ∨ pc = MainPc.clearTimeDone ∨ pc = MainPc.unlock ∨
    pc = MainPc.setGameDone ∨ pc = MainPc.endUnlock

/-- The main thread has seen `timeDone` true and reads the file. -/
def MainPc.reading (pc : MainPc) : Bool :=
  pc = MainPc.fopen ∨ pc = MainPc.fgets ∨ pc = MainPc.fclose

/-- The main thread has issued a request and has not yet seen it served. -/
def MainPc.requesting (pc : MainPc) : Bool :=
  pc = MainPc.signal ∨ pc = MainPc.check ∨ pc = MainPc.waiting

/-- The main thread is behind the game loop, `gameDone` set. -/
def MainPc.ended (pc : MainPc) : Bool :=
  pc = MainPc.endUnlock ∨ pc = MainPc.endSignal ∨ pc = MainPc.join ∨ pc = MainPc.finished

/-- The invariant of the handshake. -/
structure TimeInv (s : TimeState) : Prop where
  mutexWorker : s.mutex = some Thread.worker ↔ s.workerPc.holds = true
  mutexMain : s.mutex = some Thread.main ↔ s.mainPc.holds = true
  serving : s.workerPc.serving = true → s.mainPc = MainPc.waiting ∧ s.gameDone = false
  toWrite : (s.workerPc = WorkerPc.format ∨ s.workerPc = WorkerPc.fopen ∨
      s.workerPc = WorkerPc.fputs ∨ s.workerPc = WorkerPc.fclose) →
    s.doTime = true ∧ s.timeDone = false
  written : s.workerPc = WorkerPc.clearDoTime → s.doTime = true ∧ s.timeDone = false
  cleared : s.workerPc = WorkerPc.setTimeDone → s.doTime = false ∧ s.timeDone = false
  done : s.workerPc = WorkerPc.unlock → s.doTime = false ∧ s.timeDone = true
  passed : s.workerPc = WorkerPc.testGameDone → s.doTime = true ∨ s.gameDone = true
  fileOpen : s.fileOpen = true ↔ s.workerPc.writing = true
  doTime : s.doTime = true → s.timeDone = false ∧ s.mainPc.requesting = true
  timeDone : s.timeDone = true →
    (s.mainPc = MainPc.check ∨ s.mainPc = MainPc.waiting ∨ s.mainPc.reading = true ∨
      s.mainPc = MainPc.clearTimeDone) ∧ s.fileStamp = s.requests
  requesting : s.mainPc.requesting = true →
    s.doTime = true ∨ s.timeDone = true ∨ s.workerPc = WorkerPc.setTimeDone
  reading : (s.mainPc.reading = true ∨ s.mainPc = MainPc.clearTimeDone) → s.timeDone = true
  gameDone : s.gameDone = true ↔ s.mainPc.ended = true
  count : s.requests =
    s.writes + (if s.doTime = true ∧ s.workerPc ≠ WorkerPc.clearDoTime then 1 else 0)
  stamp : s.fileStamp = s.writes ∨ (s.fileStamp = 0 ∧ s.workerPc.writing = true)
  lastRead : s.lastRead ≤ s.writes

/-- A run under a schedule: for each step the thread that takes it, `none`
for the time thread and `some inp` for the main thread with what the game
loop meets. -/
def runSchedule : List (Option Input) → TimeState → Option TimeState
  | [], s => some s
  | none :: rest, s => (workerStep s).bind (runSchedule rest)
  | some inp :: rest, s => (mainStep inp s).bind (runSchedule rest)

/-- A schedule that takes one `time` request through: the main thread issues
the request and waits, the time thread serves it, the main thread wakes up
and opens the file. -/
def sampleSchedule : List (Option Input) :=
  [some Input.time, some Input.other, some Input.other, some Input.other,
   none, none, none, none, none, none, none, none, none, none,
   some Input.other, some Input.other]

/-- The state at the end of `sampleSchedule`. -/
def sampleTimeState : TimeState :=
  (runSchedule sampleSchedule timeStart).getD timeStart

/-! ## Accesses of the selection loop to the candidate array -/

/-- An access of the selection loop to an element of `allRooms`, with the
index of the element. -/
inductive Access where
  | read (index : Nat)
  | write (index : Nat)
  deriving DecidableEq, Repr

/-- The index of the element an access goes to. -/
def Access.index : Access → Nat
  | Access.read i => i
  | Access.write i => i

/-- The accesses of the inner loop
`while (idx <= numAllRooms) { memcpy(&allRooms[idx], &allRooms[idx+1], ...); idx++; }`,
for at most `fuel` passes: each pass reads `allRooms[idx+1]` and writes
`allRooms[idx]`. -/
def collapseAccesses (numAllRooms : Nat) : Nat → Nat → List Access
  | 0, _ => []
  | fuel + 1, idx =>
    if idx ≤ numAllRooms then
      Access.read (idx + 1) :: Access.write idx :: collapseAccesses numAllRooms fuel (idx + 1)
    else []

/-- The accesses to `allRooms` in one iteration of the selection loop, for
the value `r` of `rand()`: the `memcpy` into the graph reads `allRooms[idx]`,
the `memset` writes it, and the inner loop runs with the decremented
`numAllRooms`; it ends after at most `numAllRooms + 1` passes. -/
def selectStepAccesses (s : Selection) (r : Nat) : List Access :=
  let idx := r % s.numAllRooms
  let numAllRooms := s.numAllRooms - 1
  Access.read idx :: Access.write idx :: collapseAccesses numAllRooms (numAllRooms + 1) idx

/-- The accesses to `allRooms` in the selection loop with `k` iterations
left, in the order of the program. -/
def selectLoopAccesses (past : Room) : Nat → Selection → List Nat → List Access
  | 0, _, _ => []
  | _ + 1, _, [] => []
  | k + 1, s, r :: rs =>
    selectStepAccesses s r ++ selectLoopAccesses past k (selectStep past s r) rs

/-! ## Properties of the generator -/

/-- Writing slot `n` and taking `n + 1` slots appends to the first `n`. -/
theorem take_ofFn_update (f : Fin MAX_ROOM_CONNECTIONS → CStr) (n : Nat)
    (h : n < MAX_ROOM_CONNECTIONS) (x : CStr) :
    (List.ofFn (Function.update f ⟨n, h⟩ x)).take (n + 1) = (List.ofFn f).take n ++ [x] := by
  have h6 : n < 6 := h
  interval_cases n <;> simp [List.ofFn_succ, Function.update, Fin.ext_iff]

theorem connList_length (r : Room) (h : r.connectCount ≤ MAX_ROOM_CONNECTIONS) :
    (connList r).length = r.connectCount := by
  simp [connList, h]

/-- What a successful `ConnectRoom` does to the room. -/
theorem ConnectRoom_some {a b a1 : Room} (h : ConnectRoom a b = some a1) :
    a.connectCount < MAX_ROOM_CONNECTIONS ∧ a1.name = a.name ∧ a1.roomType = a.roomType ∧
      a1.connectCount = a.connectCount + 1 ∧ connList a1 = connList a ++ [b.name] := by
  unfold ConnectRoom at h
  simp only at h
  split at h
  · rename_i hlt
    injection h with h
    subst h
    refine ⟨hlt, rfl, rfl, rfl, ?_⟩
    simp only [connList]
    exact take_ofFn_update a.connections a.connectCount hlt b.name
  · exact absurd h (by simp)

theorem ConnectRoom_isSome {a : Room} (b : Room) (h : a.connectCount < MAX_ROOM_CONNECTIONS) :
    ∃ a1, ConnectRoom a b = some a1 := by
  unfold ConnectRoom
  simp only [h, dite_true]
  exact ⟨_, rfl⟩

theorem pickFirstRoom_some {g : Graph} :
    ∀ {rs : List Nat} {a : Fin NUM_REQUIRED_ROOMS} {rs1 : List Nat},
      pickFirstRoom g rs = some (a, rs1) → CanAddConnectionFrom (g.rooms a) = true
  | [], _, _, h => by simp [pickFirstRoom] at h
  | r :: rs, a, rs1, h => by
    unfold pickFirstRoom at h
    simp only at h
    split at h
    · rename_i hc
      injection h with h
      injection h with h1 h2
      subst h1
      exact hc
    · exact pickFirstRoom_some h

theorem pickSecondRoom_some {g : Graph} {a : Fin NUM_REQUIRED_ROOMS} :
    ∀ {rs : List Nat} {b : Fin NUM_REQUIRED_ROOMS} {rs2 : List Nat},
      pickSecondRoom g a rs = some (b, rs2) →
        CanAddConnectionFrom (g.rooms b) = true ∧ IsSameRoom (g.rooms a) (g.rooms b) = false ∧
          IsConnected (g.rooms a) (g.rooms b) = false
  | [], _, _, h => by simp [pickSecondRoom] at h
  | r :: rs, b, rs2, h => by
    unfold pickSecondRoom at h
    simp only at h
    split at h
    · exact pickSecondRoom_some h
    · rename_i hc
      injection h with h
      injection h with h1 h2
      subst h1
      simp only [Bool.or_eq_true, Bool.not_eq_true', not_or, Bool.not_eq_true] at hc
      simpa [and_assoc] using hc

theorem CanAddConnectionFrom_iff (r : Room) :
    CanAddConnectionFrom r = true ↔ r.connectCount ≠ MAX_ROOM_CONNECTIONS := by
  simp [CanAddConnectionFrom]

theorem IsSameRoom_iff (a b : Room) : IsSameRoom a b = true ↔ a.name = b.name := by
  simp [IsSameRoom]

theorem IsConnected_iff (a b : Room) : IsConnected a b = true ↔ b.name ∈ connList a := by
  simp [IsConnected]

theorem AddRandomConnection_some {g g1 : Graph} {rs rs1 : List Nat}
    (h : AddRandomConnection g rs = some (g1, rs1)) : ∃ a b, Connects g g1 a b := by
  unfold AddRandomConnection at h
  split at h
  · exact absurd h (by simp)
  · rename_i a rsa ha
    split at h
    · exact absurd h (by simp)
    · rename_i b rsb hb
      have hA := (CanAddConnectionFrom_iff _).1 (pickFirstRoom_some ha)
      obtain ⟨hB, hS, hC⟩ := pickSecondRoom_some hb
      have hB := (CanAddConnectionFrom_iff _).1 hB
      have hS : (g.rooms a).name ≠ (g.rooms b).name := by
        intro e
        rw [(IsSameRoom_iff _ _).2 e] at hS
        exact absurd hS (by simp)
      have hC : (g.rooms b).name ∉ connList (g.rooms a) := by
        intro e
        rw [(IsConnected_iff _ _).2 e] at hC
        exact absurd hC (by simp)
      have hab : a ≠ b := fun e => hS (by rw [e])
      split at h
      · exact absurd h (by simp)
      · rename_i ra hra
        simp only at h
        split at h
        · exact absurd h (by simp)
        · rename_i rb hrb
          injection h with h
          injection h with h1 h2
          subst h1
          obtain ⟨a1, a2, a3, a4, a5⟩ := ConnectRoom_some hra
          have e1 : (g.setRoom a ra).rooms b = g.rooms b := by
            simp [Graph.setRoom, Function.update_noteq (Ne.symm hab)]
          have e2 : (g.setRoom a ra).rooms a = ra := by
            simp [Graph.setRoom]
          rw [e1, e2] at hrb
          obtain ⟨b1, b2, b3, b4, b5⟩ := ConnectRoom_some hrb
          have ea : ((g.setRoom a ra).setRoom b rb).rooms a = ra := by
            simp [Graph.setRoom, Function.update_noteq hab]
          have eb : ((g.setRoom a ra).setRoom b rb).rooms b = rb := by
            simp [Graph.setRoom]
          have eo : ∀ i, i ≠ a → i ≠ b → ((g.setRoom a ra).setRoom b rb).rooms i = g.rooms i := by
            intro i hia hib
            simp [Graph.setRoom, Function.update_noteq hia, Function.update_noteq hib]
          refine ⟨a, b, ⟨hab, hS, hA, hB, a1, b1, hC, ?_, ?_, ?_, ?_, ?_, ?_, eo⟩⟩
          · intro i
            by_cases hia : i = a
            · subst hia; rw [ea, a2]
            · by_cases hib : i = b
              · subst hib; rw [eb, b2]
              · rw [eo i hia hib]
          · intro i
            by_cases hia : i = a
            · subst hia; rw [ea, a3]
            · by_cases hib : i = b
              · subst hib; rw [eb, b3]
              · rw [eo i hia hib]
          · rw [ea, a5]
          · rw [eb, b5, a2]
          · rw [ea, a4]
          · rw [eb, b4]


theorem Connects.mem_iff {g g1 : Graph} {a b : Fin NUM_REQUIRED_ROOMS}
    (c : Connects g g1 a b) (i : Fin NUM_REQUIRED_ROOMS) (n : CStr) :
    n ∈ connList (g1.rooms i) ↔
      n ∈ connList (g.rooms i) ∨ (i = a ∧ n = (g.rooms b).name) ∨
        (i = b ∧ n = (g.rooms a).name) := by
  by_cases hia : i = a
  · subst hia
    rw [c.list_a]
    simp [c.ne]
  · by_cases hib : i = b
    · subst hib
      rw [c.list_b]
      simp [hia]
    · rw [c.other i hia hib]
      simp [hia, hib]

theorem Inv.of_initial {g : Graph} (h : Initial g) : Inv g := by
  have hl : ∀ i, connList (g.rooms i) = [] := by
    intro i
    simp [connList, h.2 i]
  refine ⟨h.1, ?_, ?_, ?_, ?_, ?_⟩
  · intro i; rw [h.2 i]; exact Nat.zero_le _
  · intro i; rw [hl i]; exact List.nodup_nil
  · intro i; rw [hl i]; simp
  · intro i j; simp [hl i, hl j]
  · intro i n hn; rw [hl i] at hn; simp at hn

theorem Inv.connects {g g1 : Graph} {a b : Fin NUM_REQUIRED_ROOMS} (hI : Inv g)
    (c : Connects g g1 a b) : Inv g1 := by
  have hn : Function.Injective (fun i => (g1.rooms i).name) := by
    intro i j hij
    simp only [c.name_eq] at hij
    exact hI.names hij
  have hname : ∀ i j, (g.rooms i).name = (g.rooms j).name ↔ i = j :=
    fun i j => ⟨fun e => hI.names e, fun e => by rw [e]⟩
  have hfresh2 : (g.rooms a).name ∉ connList (g.rooms b) := fun e =>
    c.fresh ((hI.symm a b).2 e)
  refine ⟨hn, ?_, ?_, ?_, ?_, ?_⟩
  · intro i
    by_cases hia : i = a
    · subst hia; rw [c.count_a]; exact c.lt_a
    · by_cases hib : i = b
      · subst hib; rw [c.count_b]; exact c.lt_b
      · rw [c.other i hia hib]; exact hI.count_le i
  · intro i
    by_cases hia : i = a
    · subst hia
      rw [c.list_a]
      exact List.Nodup.append (hI.nodup _) (List.nodup_singleton _)
        (by simpa using c.fresh)
    · by_cases hib : i = b
      · subst hib
        rw [c.list_b]
        exact List.Nodup.append (hI.nodup _) (List.nodup_singleton _)
          (by simpa using hfresh2)
      · rw [c.other i hia hib]; exact hI.nodup i
  · intro i
    rw [c.mem_iff, c.name_eq]
    rintro (h | ⟨h1, h2⟩ | ⟨h1, h2⟩)
    · exact hI.irrefl i h
    · subst h1; exact c.name_ne h2
    · subst h1; exact c.name_ne h2.symm
  · intro i j
    rw [c.mem_iff, c.mem_iff, c.name_eq, c.name_eq, hname, hname, hname, hname]
    have := hI.symm i j
    constructor
    · rintro (h | ⟨h1, h2⟩ | ⟨h1, h2⟩)
      · exact Or.inl (this.1 h)
      · exact Or.inr (Or.inr ⟨h2, h1⟩)
      · exact Or.inr (Or.inl ⟨h2, h1⟩)
    · rintro (h | ⟨h1, h2⟩ | ⟨h1, h2⟩)
      · exact Or.inl (this.2 h)
      · exact Or.inr (Or.inr ⟨h2, h1⟩)
      · exact Or.inr (Or.inl ⟨h2, h1⟩)
  · intro i n hmem
    rw [c.mem_iff] at hmem
    rcases hmem with h | ⟨_, h2⟩ | ⟨_, h2⟩
    · obtain ⟨j, hj⟩ := hI.closed i n h
      exact ⟨j, by rw [c.name_eq, hj]⟩
    · exact ⟨b, by rw [c.name_eq, h2]⟩
    · exact ⟨a, by rw [c.name_eq, h2]⟩

theorem Inv.of_reachable {g0 g : Graph} (h0 : Initial g0) (hr : Reachable g0 g) : Inv g := by
  induction hr with
  | init => exact Inv.of_initial h0
  | step _ hs ih =>
    obtain ⟨a, b, c⟩ := AddRandomConnection_some hs
    exact ih.connects c

theorem Reachable.roomType_eq {g0 g : Graph} (hr : Reachable g0 g) :
    ∀ i, (g.rooms i).roomType = (g0.rooms i).roomType := by
  induction hr with
  | init => intro i; rfl
  | step _ hs ih =>
    obtain ⟨a, b, c⟩ := AddRandomConnection_some hs
    intro i
    rw [c.type_eq, ih]


theorem Reachable.trans {g0 g g1 : Graph} (h1 : Reachable g0 g) (h2 : Reachable g g1) :
    Reachable g0 g1 := by
  induction h2 with
  | init => exact h1
  | step _ hs ih => exact Reachable.step ih hs

theorem buildConnections_some :
    ∀ (fuel : Nat) {g g1 : Graph} {rs rs1 : List Nat},
      buildConnections fuel g rs = some (g1, rs1) → Reachable g g1 ∧ isGraphFull g1 = true
  | 0, g, g1, rs, rs1, h => by
    unfold buildConnections at h
    split at h
    · rename_i hf
      injection h with h
      injection h with h1 h2
      subst h1
      exact ⟨Reachable.init, hf⟩
    · exact absurd h (by simp)
  | fuel + 1, g, g1, rs, rs1, h => by
    unfold buildConnections at h
    split at h
    · rename_i hf
      injection h with h
      injection h with h1 h2
      subst h1
      exact ⟨Reachable.init, hf⟩
    · split at h
      · exact absurd h (by simp)
      · rename_i g2 rs2 hs
        obtain ⟨hr, hf⟩ := buildConnections_some fuel h
        exact ⟨(Reachable.step Reachable.init hs).trans hr, hf⟩

theorem sampleStart_initial : Initial sampleStart := by
  constructor
  · intro i j
    fin_cases i <;> fin_cases j <;> simp [sampleStart, roomNames]
  · intro i
    rfl

theorem sampleFull_eq :
    buildConnections 30 sampleStart samplePicks = some (sampleFull, []) := by
  rfl

theorem sampleFull_reachable : Reachable sampleStart sampleFull :=
  (buildConnections_some 30 sampleFull_eq).1

theorem isGraphFullLoop_iff (g : Graph) :
    ∀ (l : List (Fin NUM_REQUIRED_ROOMS)) (result : Bool),
      isGraphFullLoop g l result = true ↔
        result = true ∧ ∀ i ∈ l, MIN_ROOM_CONNECTIONS ≤ (g.rooms i).connectCount ∧
          (g.rooms i).connectCount ≤ MAX_ROOM_CONNECTIONS
  | [], result => by simp [isGraphFullLoop]
  | i :: rest, result => by
    unfold isGraphFullLoop
    cases result
    · simp
    · simp only [if_true, isGraphFullLoop_iff g rest, Bool.and_eq_true, decide_eq_true_eq,
        List.mem_cons, forall_eq_or_imp, true_and, ge_iff_le]
      tauto

/-- C2. Edge symmetry is an invariant of the construction: in every graph
reached from an initial state (pairwise distinct names, no connections) by
`AddRandomConnection` calls, the name of `B` is in the list of `A` exactly
when the name of `A` is in the list of `B`. -/
theorem edge_symmetry (g0 g : Graph) (h0 : Initial g0) (hr : Reachable g0 g)
    (A B : Fin NUM_REQUIRED_ROOMS) :
    (g.rooms B).name ∈ connList (g.rooms A) ↔ (g.rooms A).name ∈ connList (g.rooms B) :=
  (Inv.of_reachable h0 hr).symm A B

theorem edge_symmetry_witness :
    Initial sampleStart ∧ Reachable sampleStart sampleFull ∧
      ((sampleFull.rooms 3).name ∈ connList (sampleFull.rooms 0) ↔
        (sampleFull.rooms 0).name ∈ connList (sampleFull.rooms 3)) :=
  ⟨sampleStart_initial, sampleFull_reachable,
    edge_symmetry sampleStart sampleFull sampleStart_initial sampleFull_reachable 0 3⟩

/-- C3. No self-edges: in every graph reached from an initial state by
`AddRandomConnection` calls, no room has its own name in its connection
list. -/
theorem no_self_edge (g0 g : Graph) (h0 : Initial g0) (hr : Reachable g0 g)
    (A : Fin NUM_REQUIRED_ROOMS) : (g.rooms A).name ∉ connList (g.rooms A) :=
  (Inv.of_reachable h0 hr).irrefl A

theorem no_self_edge_witness :
    Initial sampleStart ∧ Reachable sampleStart sampleFull ∧
      (sampleFull.rooms 1).name ∉ connList (sampleFull.rooms 1) :=
  ⟨sampleStart_initial, sampleFull_reachable,
    no_self_edge sampleStart sampleFull sampleStart_initial sampleFull_reachable 1⟩

/-- C4. No duplicate edges: in every graph reached from an initial state by
`AddRandomConnection` calls, no connection list holds a name twice; this
covers the list of the second room `b`, which `AddRandomConnection` does not
test. -/
theorem no_duplicate_edge (g0 g : Graph) (h0 : Initial g0) (hr : Reachable g0 g)
    (A : Fin NUM_REQUIRED_ROOMS) : (connList (g.rooms A)).Nodup :=
  (Inv.of_reachable h0 hr).nodup A

theorem no_duplicate_edge_witness :
    Initial sampleStart ∧ Reachable sampleStart sampleFull ∧
      (connList (sampleFull.rooms 1)).Nodup :=
  ⟨sampleStart_initial, sampleFull_reachable,
    no_duplicate_edge sampleStart sampleFull sampleStart_initial sampleFull_reachable 1⟩

theorem isGraphFull_true_iff (g : Graph) :
    isGraphFull g = true ↔
      ∀ i, MIN_ROOM_CONNECTIONS ≤ (g.rooms i).connectCount ∧
        (g.rooms i).connectCount ≤ MAX_ROOM_CONNECTIONS := by
  unfold isGraphFull
  rw [isGraphFullLoop_iff]
  simp

/-- C5. `isGraphFull` returns true exactly when each of the seven rooms has
between 3 and 6 connections; so when the loop `while (!isGraphFull(&graph))`
is left, every count is in [3,6]. -/
theorem isGraphFull_iff (g : Graph) :
    (isGraphFull g = true ↔
      ∀ i, MIN_ROOM_CONNECTIONS ≤ (g.rooms i).connectCount ∧
        (g.rooms i).connectCount ≤ MAX_ROOM_CONNECTIONS) ∧
    ∀ (fuel : Nat) (rs : List Nat) (g1 : Graph) (rs1 : List Nat),
      buildConnections fuel g rs = some (g1, rs1) →
        ∀ i, MIN_ROOM_CONNECTIONS ≤ (g1.rooms i).connectCount ∧
          (g1.rooms i).connectCount ≤ MAX_ROOM_CONNECTIONS :=
  ⟨isGraphFull_true_iff g, fun fuel _ g1 _ h =>
    (isGraphFull_true_iff g1).1 (buildConnections_some fuel h).2⟩

theorem isGraphFull_iff_witness :
    buildConnections 30 sampleStart samplePicks = some (sampleFull, []) ∧
      ∀ i, MIN_ROOM_CONNECTIONS ≤ (sampleFull.rooms i).connectCount ∧
        (sampleFull.rooms i).connectCount ≤ MAX_ROOM_CONNECTIONS :=
  ⟨sampleFull_eq, (isGraphFull_iff sampleStart).2 30 samplePicks sampleFull [] sampleFull_eq⟩

/-- The rooms in the connection list of room `i`. -/
theorem card_neighbours {g : Graph} (hI : Inv g) (i : Fin NUM_REQUIRED_ROOMS) :
    (Finset.univ.filter (fun j => Edge g i j)).card = (g.rooms i).connectCount := by
  have himg : (Finset.univ.filter (fun j => Edge g i j)).image (fun j => (g.rooms j).name) =
      (connList (g.rooms i)).toFinset := by
    ext n
    simp only [Finset.mem_image, Finset.mem_filter, Finset.mem_univ, true_and, List.mem_toFinset,
      Edge]
    constructor
    · rintro ⟨j, hj, rfl⟩
      exact hj
    · intro hn
      obtain ⟨j, hj⟩ := hI.closed i n hn
      exact ⟨j, by rw [hj]; exact hn, hj⟩
  rw [← Finset.card_image_of_injective _ hI.names, himg,
    List.toFinset_card_of_nodup (hI.nodup i), connList_length _ (hI.count_le i)]

theorem Inv.exists_partner {g : Graph} (hI : Inv g) (a : Fin NUM_REQUIRED_ROOMS)
    (ha : (g.rooms a).connectCount < MAX_ROOM_CONNECTIONS) :
    ∃ b, (g.rooms b).connectCount < MAX_ROOM_CONNECTIONS ∧ b ≠ a ∧
      (g.rooms b).name ∉ connList (g.rooms a) := by
  have hcard : (Finset.univ.filter (fun j => Edge g a j)).card <
      ((Finset.univ : Finset (Fin NUM_REQUIRED_ROOMS)).erase a).card := by
    rw [card_neighbours hI a, Finset.card_erase_of_mem (Finset.mem_univ a)]
    simpa using ha
  obtain ⟨c, hc1, hc2⟩ : ∃ c ∈ (Finset.univ : Finset (Fin NUM_REQUIRED_ROOMS)).erase a,
      c ∉ Finset.univ.filter (fun j => Edge g a j) := by
    by_contra hcon
    push_neg at hcon
    exact absurd (Finset.card_le_card (fun e he => hcon e he)) (not_le.2 hcard)
  have hca : c ≠ a := (Finset.mem_erase.1 hc1).1
  have hnot : (g.rooms c).name ∉ connList (g.rooms a) := by
    simpa [Edge] using hc2
  have hnot2 : (g.rooms a).name ∉ connList (g.rooms c) := fun e => hnot ((hI.symm a c).2 e)
  refine ⟨c, ?_, hca, hnot⟩
  have hsub : Finset.univ.filter (fun j => Edge g c j) ⊆
      ((Finset.univ : Finset (Fin NUM_REQUIRED_ROOMS)).erase c).erase a := by
    intro j hj
    have hj : Edge g c j := by simpa using hj
    have h1 : j ≠ a := fun e => hnot2 (by rw [← e]; exact hj)
    have h2 : j ≠ c := fun e => hI.irrefl c (by rw [← e] at hj ⊢; exact hj)
    simp [h1, h2]
  have hle := Finset.card_le_card hsub
  rw [card_neighbours hI c, Finset.card_erase_of_mem (by simp [Ne.symm hca]),
    Finset.card_erase_of_mem (Finset.mem_univ c)] at hle
  simp at hle
  show (g.rooms c).connectCount < 6
  omega

/-- Two rooms of a graph with at least three connections per room are linked
directly or through a third room. -/
theorem Inv.two_steps {g : Graph} (hI : Inv g)
    (hmin : ∀ i, MIN_ROOM_CONNECTIONS ≤ (g.rooms i).connectCount)
    (u v : Fin NUM_REQUIRED_ROOMS) (huv : u ≠ v) :
    Edge g u v ∨ ∃ w, Edge g u w ∧ Edge g w v := by
  by_cases hadj : Edge g u v
  · exact Or.inl hadj
  right
  have hadj2 : ¬ Edge g v u := fun e => hadj ((hI.symm u v).2 e)
  have hsub : ∀ x y : Fin NUM_REQUIRED_ROOMS, ¬ Edge g x y → x ≠ y →
      Finset.univ.filter (fun j => Edge g x j) ⊆
        ((Finset.univ : Finset (Fin NUM_REQUIRED_ROOMS)).erase x).erase y := by
    intro x y hxy hne j hj
    have hj : Edge g x j := by simpa using hj
    have h1 : j ≠ y := fun e => hxy (by rw [← e]; exact hj)
    have h2 : j ≠ x := fun e => hI.irrefl x (by rw [← e] at hj ⊢; exact hj)
    simp [h1, h2]
  have hU : Finset.univ.filter (fun j => Edge g u j) ∪ Finset.univ.filter (fun j => Edge g v j) ⊆
      ((Finset.univ : Finset (Fin NUM_REQUIRED_ROOMS)).erase u).erase v := by
    apply Finset.union_subset (hsub u v hadj huv)
    have := hsub v u hadj2 (Ne.symm huv)
    rwa [Finset.erase_right_comm] at this
  have hle := Finset.card_le_card hU
  rw [Finset.card_erase_of_mem (by simp [Ne.symm huv]),
    Finset.card_erase_of_mem (Finset.mem_univ u)] at hle
  simp at hle
  have hadd := Finset.card_union_add_card_inter (Finset.univ.filter (fun j => Edge g u j))
    (Finset.univ.filter (fun j => Edge g v j))
  rw [card_neighbours hI u, card_neighbours hI v] at hadd
  have h3u := hmin u
  have h3v := hmin v
  have hpos : 0 < (Finset.univ.filter (fun j => Edge g u j) ∩
      Finset.univ.filter (fun j => Edge g v j)).card := by
    simp only [MIN_ROOM_CONNECTIONS] at h3u h3v
    omega
  obtain ⟨w, hw⟩ := Finset.card_pos.1 hpos
  simp only [Finset.mem_inter, Finset.mem_filter, Finset.mem_univ, true_and] at hw
  exact ⟨w, hw.1, (hI.symm v w).1 hw.2⟩

/-- C6. A graph the generator finishes with is connected: in a graph reached
from an initial state in which `isGraphFull` holds, every room is reached
from every other room by following connections; in particular the end room
from the start room. -/
theorem full_graph_connected (g0 g : Graph) (h0 : Initial g0) (hr : Reachable g0 g)
    (hfull : isGraphFull g = true) :
    (∀ u v, Relation.ReflTransGen (Edge g) u v) ∧
      ∀ s e, (g.rooms s).roomType = RoomType.START_ROOM →
        (g.rooms e).roomType = RoomType.END_ROOM → Relation.ReflTransGen (Edge g) s e := by
  have hI := Inv.of_reachable h0 hr
  have hmin : ∀ i, MIN_ROOM_CONNECTIONS ≤ (g.rooms i).connectCount :=
    fun i => ((isGraphFull_true_iff g).1 hfull i).1
  have key : ∀ u v, Relation.ReflTransGen (Edge g) u v := by
    intro u v
    by_cases huv : u = v
    · subst huv
      exact Relation.ReflTransGen.refl
    · rcases hI.two_steps hmin u v huv with h | ⟨w, h1, h2⟩
      · exact Relation.ReflTransGen.single h
      · exact (Relation.ReflTransGen.single h1).tail h2
  exact ⟨key, fun s e _ _ => key s e⟩

theorem full_graph_connected_witness :
    Initial sampleStart ∧ Reachable sampleStart sampleFull ∧ isGraphFull sampleFull = true ∧
      Relation.ReflTransGen (Edge sampleFull) 0 5 :=
  ⟨sampleStart_initial, sampleFull_reachable, (buildConnections_some 30 sampleFull_eq).2,
    (full_graph_connected sampleStart sampleFull sampleStart_initial sampleFull_reachable
      (buildConnections_some 30 sampleFull_eq).2).1 0 5⟩

theorem GetRandomRoom_val (i : Fin NUM_REQUIRED_ROOMS) : GetRandomRoom i.val = i := by
  apply Fin.ext
  simp [GetRandomRoom, Nat.mod_eq_of_lt i.isLt]

theorem pickFirstRoom_single {g : Graph} {a : Fin NUM_REQUIRED_ROOMS}
    (ha : CanAddConnectionFrom (g.rooms a) = true) (rs : List Nat) :
    pickFirstRoom g (a.val :: rs) = some (a, rs) := by
  simp [pickFirstRoom, GetRandomRoom_val, ha]

theorem pickSecondRoom_single {g : Graph} {a b : Fin NUM_REQUIRED_ROOMS}
    (hb : CanAddConnectionFrom (g.rooms b) = true)
    (hne : (g.rooms a).name ≠ (g.rooms b).name)
    (hnot : (g.rooms b).name ∉ connList (g.rooms a)) (rs : List Nat) :
    pickSecondRoom g a (b.val :: rs) = some (b, rs) := by
  have h1 : IsSameRoom (g.rooms a) (g.rooms b) = false := by
    simpa [IsSameRoom] using hne
  have h2 : IsConnected (g.rooms a) (g.rooms b) = false := by
    cases h : IsConnected (g.rooms a) (g.rooms b)
    · rfl
    · exact absurd ((IsConnected_iff _ _).1 h) hnot
  simp [pickSecondRoom, GetRandomRoom_val, hb, h1, h2]

theorem AddRandomConnection_pair {g : Graph} {a b : Fin NUM_REQUIRED_ROOMS}
    (ha : (g.rooms a).connectCount < MAX_ROOM_CONNECTIONS)
    (hb : (g.rooms b).connectCount < MAX_ROOM_CONNECTIONS)
    (hne : (g.rooms a).name ≠ (g.rooms b).name)
    (hnot : (g.rooms b).name ∉ connList (g.rooms a)) (rs : List Nat) :
    ∃ g1, AddRandomConnection g (a.val :: b.val :: rs) = some (g1, rs) := by
  have hab : a ≠ b := fun e => hne (by rw [e])
  have ca : CanAddConnectionFrom (g.rooms a) = true :=
    (CanAddConnectionFrom_iff _).2 (Nat.ne_of_lt ha)
  have cb : CanAddConnectionFrom (g.rooms b) = true :=
    (CanAddConnectionFrom_iff _).2 (Nat.ne_of_lt hb)
  obtain ⟨ra, hra⟩ := ConnectRoom_isSome (g.rooms b) ha
  have e1 : (g.setRoom a ra).rooms b = g.rooms b := by
    simp [Graph.setRoom, Function.update_noteq (Ne.symm hab)]
  obtain ⟨rb, hrb⟩ := ConnectRoom_isSome ((g.setRoom a ra).rooms a) (e1 ▸ hb)
  refine ⟨(g.setRoom a ra).setRoom b rb, ?_⟩
  unfold AddRandomConnection
  rw [pickFirstRoom_single ca]
  simp only
  rw [pickSecondRoom_single cb hne hnot]
  simp only
  rw [hra]
  simp only
  rw [hrb]

/-- C7. The construction never runs out of valid pairs: in every graph
reached from an initial state, each room with fewer than 6 connections has a
partner with fewer than 6 connections, other than itself and not in its
list. So while `isGraphFull` is false, each retry loop of
`AddRandomConnection` has a random value on which it exits, and the call
completes on those two values. -/
theorem valid_pair_exists (g0 g : Graph) (h0 : Initial g0) (hr : Reachable g0 g) :
    (∀ a, (g.rooms a).connectCount < MAX_ROOM_CONNECTIONS →
      ∃ b, (g.rooms b).connectCount < MAX_ROOM_CONNECTIONS ∧ b ≠ a ∧
        (g.rooms b).name ∉ connList (g.rooms a)) ∧
    (isGraphFull g = false →
      (∃ r a, pickFirstRoom g [r] = some (a, [])) ∧
      (∀ a, CanAddConnectionFrom (g.rooms a) = true →
        ∃ r b, pickSecondRoom g a [r] = some (b, [])) ∧
      ∃ r1 r2 g1, AddRandomConnection g [r1, r2] = some (g1, [])) := by
  have hI := Inv.of_reachable h0 hr
  have hlt : ∀ a, CanAddConnectionFrom (g.rooms a) = true →
      (g.rooms a).connectCount < MAX_ROOM_CONNECTIONS := fun a ha =>
    Nat.lt_of_le_of_ne (hI.count_le a) ((CanAddConnectionFrom_iff _).1 ha)
  have hsecond : ∀ a, CanAddConnectionFrom (g.rooms a) = true →
      ∃ b, (g.rooms b).connectCount < MAX_ROOM_CONNECTIONS ∧
        (g.rooms a).name ≠ (g.rooms b).name ∧ (g.rooms b).name ∉ connList (g.rooms a) := by
    intro a ha
    obtain ⟨b, hb, hba, hnot⟩ := hI.exists_partner a (hlt a ha)
    exact ⟨b, hb, fun e => hba (hI.names e).symm, hnot⟩
  refine ⟨fun a ha => hI.exists_partner a ha, ?_⟩
  intro hfull
  obtain ⟨a, ha⟩ : ∃ a, (g.rooms a).connectCount < MAX_ROOM_CONNECTIONS := by
    by_contra hcon
    push_neg at hcon
    have : isGraphFull g = true := by
      rw [isGraphFull_true_iff]
      intro i
      have h1 := hcon i
      have h2 := hI.count_le i
      simp only [MAX_ROOM_CONNECTIONS, MIN_ROOM_CONNECTIONS] at h1 h2 ⊢
      omega
    rw [hfull] at this
    exact absurd this (by simp)
  have ca : CanAddConnectionFrom (g.rooms a) = true :=
    (CanAddConnectionFrom_iff _).2 (Nat.ne_of_lt ha)
  refine ⟨⟨a.val, a, pickFirstRoom_single ca []⟩, ?_, ?_⟩
  · intro a1 ha1
    obtain ⟨b, hb, hne, hnot⟩ := hsecond a1 ha1
    exact ⟨b.val, b,
      pickSecondRoom_single ((CanAddConnectionFrom_iff _).2 (Nat.ne_of_lt hb)) hne hnot []⟩
  · obtain ⟨b, hb, hne, hnot⟩ := hsecond a ca
    obtain ⟨g1, hg1⟩ := AddRandomConnection_pair ha hb hne hnot []
    exact ⟨a.val, b.val, g1, hg1⟩

theorem valid_pair_exists_witness :
    Initial sampleStart ∧ Reachable sampleStart sampleStart ∧
      ∃ r1 r2 g1, AddRandomConnection sampleStart [r1, r2] = some (g1, []) :=
  ⟨sampleStart_initial, Reachable.init,
    ((valid_pair_exists sampleStart sampleStart sampleStart_initial Reachable.init).2
      (by decide)).2.2⟩

theorem getD_set (l : List Room) (i j : Nat) (a d : Room) :
    (l.set i a).getD j d = if i = j then (if i < l.length then a else d) else l.getD j d := by
  simp only [List.getD_eq_getElem?_getD, List.getElem?_set]
  split
  · split <;> rfl
  · rfl

/-- After the collapsing loop, slot `j` holds what slot `j + 1` held for the
slots the loop went over, and is unchanged elsewhere. -/
theorem collapse_getD (past : Room) :
    ∀ (k : Nat) (l : List Room) (idx j : Nat),
      (collapse past k l idx).getD j past =
        if idx ≤ j ∧ j < idx + k then l.getD (j + 1) past else l.getD j past
  | 0, l, idx, j => by
    have : ¬ (idx ≤ j ∧ j < idx + 0) := by omega
    simp only [collapse, this, if_false]
  | k + 1, l, idx, j => by
    unfold collapse
    rw [collapse_getD past k, getD_set, getD_set]
    by_cases h1 : idx + 1 ≤ j ∧ j < idx + 1 + k
    · have h2 : idx ≤ j ∧ j < idx + (k + 1) := by omega
      have h3 : ¬ idx = j + 1 := by omega
      simp only [h1, h2, h3, and_self, if_true, if_false]
    · by_cases h4 : idx = j
      · subst h4
        have h2 : idx ≤ idx ∧ idx < idx + (k + 1) := by omega
        simp only [h1, h2, and_self, if_true, if_false]
        split
        · rfl
        · rename_i hlen
          rw [List.getD_eq_getElem?_getD, List.getElem?_eq_none (by omega)]
          rfl
      · have h2 : ¬ (idx ≤ j ∧ j < idx + (k + 1)) := by omega
        simp only [h1, h2, h4, if_false]

/-- A property of the candidates that are still in `allRooms` and of the
rooms already copied into the graph holds for all seven rooms after the
selection loop. -/
theorem selectLoop_forall (past : Room) (P : Room → Prop) :
    ∀ (k : Nat) (s s1 : Selection) (rs rs1 : List Nat),
      selectLoop past k s rs = some (s1, rs1) →
      s.numUsedRooms + k = NUM_REQUIRED_ROOMS →
      s.numAllRooms + s.numUsedRooms = MAX_ROOM_COUNT →
      (∀ j, j < s.numAllRooms → P (s.allRooms.getD j past)) →
      (∀ i : Fin NUM_REQUIRED_ROOMS, i.val < s.numUsedRooms → P (s.graph.rooms i)) →
      ∀ i, P (s1.graph.rooms i)
  | 0, s, s1, rs, rs1, h, hk, _, _, hused => by
    simp only [selectLoop] at h
    injection h with h
    injection h with h1 h2
    subst h1
    intro i
    exact hused i (by have := i.isLt; omega)
  | k + 1, s, s1, [], rs1, h, _, _, _, _ => by
    simp [selectLoop] at h
  | k + 1, s, s1, r :: rs, rs1, h, hk, hsum, hall, hused => by
    simp only [selectLoop] at h
    have hu : s.numUsedRooms < NUM_REQUIRED_ROOMS := by omega
    have hpos : 0 < s.numAllRooms := by
      simp only [NUM_REQUIRED_ROOMS, MAX_ROOM_COUNT] at hu hsum
      omega
    have hidx : r % s.numAllRooms < s.numAllRooms := Nat.mod_lt _ hpos
    refine selectLoop_forall past P k (selectStep past s r) s1 rs rs1 h ?_ ?_ ?_ ?_
    · simp only [selectStep]; omega
    · simp only [selectStep]; omega
    · intro j hj
      simp only [selectStep] at hj ⊢
      rw [collapse_getD, getD_set, getD_set]
      by_cases hc : r % s.numAllRooms ≤ j ∧
          j < r % s.numAllRooms + (s.numAllRooms - 1 + 1 - r % s.numAllRooms)
      · have h3 : ¬ r % s.numAllRooms = j + 1 := by omega
        simp only [hc, h3, and_self, if_true, if_false]
        exact hall (j + 1) (by omega)
      · have h3 : ¬ r % s.numAllRooms = j := by omega
        simp only [hc, h3, if_false]
        exact hall j (by omega)
    · intro i hi
      simp only [selectStep, hu, dite_true] at hi ⊢
      by_cases hiu : i = ⟨s.numUsedRooms, hu⟩
      · subst hiu
        simp only [Graph.setRoom, Function.update_same]
        exact hall _ hidx
      · simp only [Graph.setRoom, Function.update_noteq hiu]
        apply hused
        have : i.val ≠ s.numUsedRooms := fun e => hiu (Fin.ext e)
        omega

theorem initAllRooms_getD (stack : Fin MAX_ROOM_CONNECTIONS → CStr) (past : Room) (j : Nat)
    (hj : j < MAX_ROOM_COUNT) :
    ((initAllRooms stack).getD j past).roomType = RoomType.MID_ROOM ∧
      ((initAllRooms stack).getD j past).connectCount = 0 := by
  have h10 : j < 10 := hj
  interval_cases j <;> exact ⟨rfl, rfl⟩

theorem pickStartEnd_some {g : Graph} :
    ∀ (rs : List Nat) {start fin : Fin NUM_REQUIRED_ROOMS} {rs1 : List Nat},
      pickStartEnd g rs = some (start, fin, rs1) → start ≠ fin
  | [], _, _, _, h => by simp [pickStartEnd] at h
  | [_], _, _, _, h => by simp [pickStartEnd] at h
  | r1 :: r2 :: rs, start, fin, rs1, h => by
    unfold pickStartEnd at h
    simp only at h
    split at h
    · exact pickStartEnd_some rs h
    · rename_i hs
      injection h with h
      injection h with h1 h
      injection h with h2 h3
      subst h1 h2
      intro e
      apply hs
      rw [e]
      simp [IsSameRoom]

theorem setRoomType_roomType (g : Graph) (p i : Fin NUM_REQUIRED_ROOMS) (t : RoomType) :
    ((setRoomType g p t).rooms i).roomType = if i = p then t else (g.rooms i).roomType := by
  unfold setRoomType Graph.setRoom
  by_cases h : i = p
  · subst h; simp
  · simp [Function.update_noteq h, h]

/-- C1. Whatever the random values, the graph the generator finishes with has
exactly one room of type `START_ROOM`, exactly one of type `END_ROOM` and
five of type `MID_ROOM`. -/
theorem one_start_one_end (fuel : Nat) (stack : Fin MAX_ROOM_CONNECTIONS → CStr) (past : Room)
    (rs : List Nat) (g : Graph) (h : generate fuel stack past rs = some g) :
    countType g RoomType.START_ROOM = 1 ∧ countType g RoomType.END_ROOM = 1 ∧
      countType g RoomType.MID_ROOM = 5 := by
  unfold generate at h
  simp only at h
  split at h
  · exact absurd h (by simp)
  · rename_i s rs1 hsel
    split at h
    · exact absurd h (by simp)
    · rename_i start fin rs2 hpick
      split at h
      · exact absurd h (by simp)
      · rename_i g3 rs3 hbuild
        injection h with h
        subst h
        have hmid : ∀ i, (s.graph.rooms i).roomType = RoomType.MID_ROOM :=
          selectLoop_forall past (fun r => r.roomType = RoomType.MID_ROOM) _ _ _ _ _ hsel
            rfl rfl (fun j hj => (initAllRooms_getD stack past j hj).1)
            (fun i hi => absurd hi (Nat.not_lt_zero _))
        have hne : start ≠ fin := pickStartEnd_some rs1 hpick
        have htype : ∀ i, (g3.rooms i).roomType =
            if i = fin then RoomType.END_ROOM
            else if i = start then RoomType.START_ROOM else RoomType.MID_ROOM := by
          intro i
          rw [(buildConnections_some fuel hbuild).1.roomType_eq, setRoomType_roomType,
            setRoomType_roomType, hmid]
        have hS : Finset.univ.filter (fun i => (g3.rooms i).roomType = RoomType.START_ROOM) =
            {start} := by
          ext i
          simp only [Finset.mem_filter, Finset.mem_univ, true_and, Finset.mem_singleton, htype]
          by_cases h1 : i = fin
          · simp [h1, Ne.symm hne]
          · by_cases h2 : i = start
            · subst h2; simp [hne]
            · simp [h1, h2]
        have hE : Finset.univ.filter (fun i => (g3.rooms i).roomType = RoomType.END_ROOM) =
            {fin} := by
          ext i
          simp only [Finset.mem_filter, Finset.mem_univ, true_and, Finset.mem_singleton, htype]
          by_cases h1 : i = fin
          · simp [h1]
          · by_cases h2 : i = start
            · subst h2; simp [hne]
            · simp [h1, h2]
        have hM : Finset.univ.filter (fun i => (g3.rooms i).roomType = RoomType.MID_ROOM) =
            ((Finset.univ : Finset (Fin NUM_REQUIRED_ROOMS)).erase start).erase fin := by
          ext i
          simp only [Finset.mem_filter, Finset.mem_univ, true_and, Finset.mem_erase, htype,
            and_true]
          by_cases h1 : i = fin
          · simp [h1]
          · by_cases h2 : i = start
            · subst h2; simp [hne]
            · simp [h1, h2]
        refine ⟨?_, ?_, ?_⟩
        · simp only [countType, hS, Finset.card_singleton]
        · simp only [countType, hE, Finset.card_singleton]
        · simp only [countType, hM]
          rw [Finset.card_erase_of_mem (by simp [Ne.symm hne]),
            Finset.card_erase_of_mem (Finset.mem_univ start)]
          simp

theorem sampleGenerated_eq :
    generate 30 (fun _ => []) zeroRoom sampleRun = some sampleGenerated := by
  rfl

theorem one_start_one_end_witness :
    generate 30 (fun _ => []) zeroRoom sampleRun = some sampleGenerated ∧
      countType sampleGenerated RoomType.START_ROOM = 1 ∧
      countType sampleGenerated RoomType.END_ROOM = 1 ∧
      countType sampleGenerated RoomType.MID_ROOM = 5 :=
  ⟨sampleGenerated_eq,
    one_start_one_end 30 (fun _ => []) zeroRoom sampleRun sampleGenerated sampleGenerated_eq⟩

/-! ## Properties of the room file format -/

theorem fgetsChars_line :
    ∀ (l : List Char) (n : Nat) (rest : List Char), '\n' ∉ l → l.length < n →
      fgetsChars n (l ++ '\n' :: rest) = (l ++ ['\n'], rest)
  | [], n, rest, _, hn => by
    obtain ⟨m, rfl⟩ : ∃ m, n = m + 1 := ⟨n - 1, by simp at hn; omega⟩
    simp [fgetsChars]
  | c :: l, n, rest, hnl, hn => by
    obtain ⟨m, rfl⟩ : ∃ m, n = m + 1 := ⟨n - 1, by simp at hn; omega⟩
    have hc : c ≠ '\n' := fun e => hnl (by simp [e])
    have hl : '\n' ∉ l := fun e => hnl (List.mem_cons_of_mem _ e)
    have ih := fgetsChars_line l m rest hl (by simp at hn; omega)
    show fgetsChars (m + 1) (c :: (l ++ '\n' :: rest)) = _
    rw [fgetsChars, if_neg hc, ih]
    rfl

theorem fgets_line (size : Nat) (l rest : List Char) (hnl : '\n' ∉ l)
    (hlen : l.length + 1 < size) :
    fgets size (l ++ '\n' :: rest) = some (l ++ ['\n'], rest) := by
  unfold fgets
  rw [if_neg (by simp), fgetsChars_line l (size - 1) rest hnl (by omega)]

/-- One pass of the loop of `InitializeRoom` over a stream that starts with
a short line. -/
theorem InitializeRoomLoop_line (fuel : Nat) (room : Room) (roomCount : Nat)
    (l rest : List Char) (hnl : '\n' ∉ l) (hlen : l.length + 1 < 80) :
    InitializeRoomLoop (fuel + 1) room roomCount (l ++ '\n' :: rest) =
      match InitializeRoomLine room roomCount (l ++ ['\n']) with
      | none => none
      | some (room1, roomCount1) => InitializeRoomLoop fuel room1 roomCount1 rest := by
  rw [InitializeRoomLoop, fgets_line 80 l rest hnl hlen]

theorem roomNames_facts :
    ∀ n ∈ roomNames, '\n' ∉ n ∧ n.length ≤ 12 ∧
      strstr ("ROOM NAME: ".toList ++ n) "NAME".toList = true := by
  decide

theorem connection_facts :
    ∀ n ∈ roomNames, ∀ j ∈ [1, 2, 3, 4, 5, 6],
      strstr ("CONNECTION ".toList ++ (Nat.repr j).toList ++ ": ".toList ++ n) "NAME".toList
          = false ∧
      strstr ("CONNECTION ".toList ++ (Nat.repr j).toList ++ ": ".toList ++ n)
          "CONNECTION".toList = true ∧
      ("CONNECTION ".toList ++ (Nat.repr j).toList ++ ": ".toList).length = 14 ∧
      '\n' ∉ "CONNECTION ".toList ++ (Nat.repr j).toList ++ ": ".toList := by
  decide

theorem roomType_facts :
    ∀ t : RoomType,
      strstr ("ROOM TYPE: ".toList ++ roomTypeTag t) "NAME".toList = false ∧
      strstr ("ROOM TYPE: ".toList ++ roomTypeTag t) "CONNECTION".toList = false ∧
      (strstr ("ROOM TYPE: ".toList ++ roomTypeTag t) "END_ROOM".toList = true ↔
        t = RoomType.END_ROOM) ∧
      (strstr ("ROOM TYPE: ".toList ++ roomTypeTag t) "MID_ROOM".toList = true ↔
        t = RoomType.MID_ROOM) ∧
      (strstr ("ROOM TYPE: ".toList ++ roomTypeTag t) "START_ROOM".toList = true ↔
        t = RoomType.START_ROOM) ∧
      '\n' ∉ "ROOM TYPE: ".toList ++ roomTypeTag t ∧
      ("ROOM TYPE: ".toList ++ roomTypeTag t).length ≤ 21 := by
  intro t
  cases t <;> decide

/-- The loader on the name line of the generator. -/
theorem InitializeRoomLine_name (room : Room) (roomCount : Nat) (n : CStr)
    (hn : n ∈ roomNames) :
    InitializeRoomLine room roomCount ("ROOM NAME: ".toList ++ n ++ ['\n']) =
      some ({ room with name := n }, roomCount) := by
  obtain ⟨_, hlen, hstr⟩ := roomNames_facts n hn
  have hdrop : ("ROOM NAME: ".toList ++ n).drop 11 = n := List.drop_left' rfl
  have hl : ("ROOM NAME: ".toList ++ n).length = 11 + n.length := by
    rw [List.length_append]; rfl
  unfold InitializeRoomLine
  simp only [List.dropLast_concat, hstr, if_true, hdrop, hl]
  rw [if_pos ⟨by omega, by show n.length < 32; omega⟩]

/-- The loader on the j-th connection line of the generator. -/
theorem InitializeRoomLine_connection (room : Room) (roomCount : Nat) (n : CStr)
    (hn : n ∈ roomNames) (j : Nat) (hj : j ∈ [1, 2, 3, 4, 5, 6])
    (hc : roomCount < MAX_ROOM_CONNECTIONS) :
    InitializeRoomLine room roomCount
        ("CONNECTION ".toList ++ (Nat.repr j).toList ++ ": ".toList ++ n ++ ['\n']) =
      some ({ room with
                connections := Function.update room.connections ⟨roomCount, hc⟩ n
                connectCount := roomCount + 1 },
            roomCount + 1) := by
  obtain ⟨h1, h2, h3, _⟩ := connection_facts n hn j hj
  obtain ⟨_, hlen, _⟩ := roomNames_facts n hn
  have hdrop : ("CONNECTION ".toList ++ (Nat.repr j).toList ++ ": ".toList ++ n).drop 14 = n :=
    List.drop_left' h3
  have hl : ("CONNECTION ".toList ++ (Nat.repr j).toList ++ ": ".toList ++ n).length =
      14 + n.length := by
    rw [List.length_append, h3]
  unfold InitializeRoomLine
  simp only [List.dropLast_concat, h1, h2, if_true, hdrop, hl]
  rw [if_neg (by simp), dif_pos ⟨hc, by omega, by show n.length < 32; omega⟩]

/-- The loader on the type line of the generator. -/
theorem InitializeRoomLine_type (room : Room) (roomCount : Nat) (t : RoomType) :
    InitializeRoomLine room roomCount ("ROOM TYPE: ".toList ++ roomTypeTag t ++ ['\n']) =
      some ({ room with roomType := t }, roomCount) := by
  unfold InitializeRoomLine
  simp only [List.dropLast_concat]
  cases t <;> rfl

/-- The loop of the loader over the connection lines of the generator: the
names go to the slots from `roomCount` on, in order. -/
theorem InitializeRoomLoop_connections (tail : List Char) (cs : List CStr) :
    ∀ (roomCount fuel : Nat) (room : Room),
      (∀ c ∈ cs, c ∈ roomNames) → roomCount + cs.length ≤ MAX_ROOM_CONNECTIONS →
      (connectionLines cs (roomCount + 1) ++ tail).length ≤ fuel →
      ∃ room1 fuel1, tail.length ≤ fuel1 ∧
        InitializeRoomLoop fuel room roomCount (connectionLines cs (roomCount + 1) ++ tail) =
          InitializeRoomLoop fuel1 room1 (roomCount + cs.length) tail ∧
        room1.name = room.name ∧ room1.roomType = room.roomType ∧
        (List.ofFn room1.connections).take (roomCount + cs.length) =
          (List.ofFn room.connections).take roomCount ++ cs ∧
        room1.connectCount = if cs = [] then room.connectCount else roomCount + cs.length := by
  induction cs with
  | nil =>
    intro roomCount fuel room _ _ hf
    refine ⟨room, fuel, ?_, ?_, rfl, rfl, ?_, ?_⟩
    · simpa [connectionLines] using hf
    · simp [connectionLines]
    · simp
    · simp
  | cons c cs ih =>
    intro roomCount fuel room hmem hle hf
    have hc : c ∈ roomNames := hmem c (List.mem_cons_self _ _)
    have hrc : roomCount < MAX_ROOM_CONNECTIONS := by
      simp only [List.length_cons] at hle; omega
    have hj : roomCount + 1 ∈ [1, 2, 3, 4, 5, 6] := by
      have : roomCount < 6 := hrc
      interval_cases roomCount <;> simp
    obtain ⟨_, _, hl14, hnl1⟩ := connection_facts c hc _ hj
    obtain ⟨hnl2, hlen, _⟩ := roomNames_facts c hc
    have hshape : connectionLines (c :: cs) (roomCount + 1) ++ tail =
        ("CONNECTION ".toList ++ (Nat.repr (roomCount + 1)).toList ++ ": ".toList ++ c) ++
          '\n' :: (connectionLines cs (roomCount + 1 + 1) ++ tail) := by
      simp [connectionLines, List.append_assoc]
    have hlinelen : ("CONNECTION ".toList ++ (Nat.repr (roomCount + 1)).toList ++ ": ".toList
        ++ c).length = 14 + c.length := by
      rw [List.length_append, hl14]
    have hnl : '\n' ∉ "CONNECTION ".toList ++ (Nat.repr (roomCount + 1)).toList ++ ": ".toList
        ++ c := by
      intro h
      rcases List.mem_append.1 h with h | h
      · exact hnl1 h
      · exact hnl2 h
    obtain ⟨fuel0, rfl⟩ : ∃ fuel0, fuel = fuel0 + 1 := by
      rw [hshape, List.length_append, List.length_cons] at hf
      exact ⟨fuel - 1, by omega⟩
    have hf0 : (connectionLines cs (roomCount + 1 + 1) ++ tail).length ≤ fuel0 := by
      rw [hshape, List.length_append, List.length_cons] at hf
      omega
    obtain ⟨room1, fuel1, h1, h2, h3, h4, h5, h6⟩ :=
      ih (roomCount + 1) fuel0
        { room with
            connections := Function.update room.connections ⟨roomCount, hrc⟩ c
            connectCount := roomCount + 1 }
        (fun x hx => hmem x (List.mem_cons_of_mem _ hx))
        (by simp only [List.length_cons] at hle; omega) hf0
    have e : roomCount + (c :: cs).length = roomCount + 1 + cs.length := by
      simp only [List.length_cons]; omega
    refine ⟨room1, fuel1, h1, ?_, h3, h4, ?_, ?_⟩
    · rw [hshape, InitializeRoomLoop_line fuel0 room roomCount _ _ hnl (by omega),
        InitializeRoomLine_connection room roomCount c hc _ hj hrc]
      simp only
      rw [h2, e]
    · rw [e, h5]
      simp only
      rw [take_ofFn_update room.connections roomCount hrc c]
      simp
    · rw [h6, e, if_neg (List.cons_ne_nil _ _)]
      split
      · rename_i hcs
        simp [hcs]
      · rfl

theorem InitializeRoomLoop_nil (fuel : Nat) (room : Room) (roomCount : Nat) :
    InitializeRoomLoop fuel room roomCount [] = some room := by
  cases fuel <;> simp [InitializeRoomLoop, fgets]

/-- C8. Room round trip: for a room with a candidate name, candidate names
as connections, 3 to 6 of them and any type, `InitializeRoom` on the lines the
generator writes for it returns a room with the same name, the same
connection list in the same order, the same `connectCount` and the same
`roomType`, whatever the room held before. -/
theorem room_round_trip (r room0 : Room) (hname : r.name ∈ roomNames)
    (hconn : ∀ c ∈ connList r, c ∈ roomNames)
    (hmin : MIN_ROOM_CONNECTIONS ≤ r.connectCount)
    (hmax : r.connectCount ≤ MAX_ROOM_CONNECTIONS) :
    ∃ r1, InitializeRoom room0 (writeRoomFile r) = some r1 ∧ r1.name = r.name ∧
      connList r1 = connList r ∧ r1.connectCount = r.connectCount ∧
      r1.roomType = r.roomType := by
  have hlen : (connList r).length = r.connectCount := connList_length r hmax
  have hne : connList r ≠ [] := by
    intro e
    rw [e] at hlen
    simp only [MIN_ROOM_CONNECTIONS, List.length_nil] at hmin hlen
    omega
  obtain ⟨hnl, hl12, _⟩ := roomNames_facts r.name hname
  obtain ⟨_, _, _, _, _, htnl, htlen⟩ := roomType_facts r.roomType
  have hshape : writeRoomFile r =
      ("ROOM NAME: ".toList ++ r.name) ++ '\n' ::
        (connectionLines (connList r) (0 + 1) ++
          (("ROOM TYPE: ".toList ++ roomTypeTag r.roomType) ++ '\n' :: [])) := by
    simp [writeRoomFile, List.append_assoc]
  have hnl1 : '\n' ∉ "ROOM NAME: ".toList ++ r.name := by
    intro h
    rcases List.mem_append.1 h with h | h
    · exact absurd h (by decide)
    · exact hnl h
  have hl1 : ("ROOM NAME: ".toList ++ r.name).length = 11 + r.name.length := by
    rw [List.length_append]; rfl
  unfold InitializeRoom
  rw [hshape]
  generalize hrest : connectionLines (connList r) (0 + 1) ++
    (("ROOM TYPE: ".toList ++ roomTypeTag r.roomType) ++ '\n' :: []) = rest
  have hfuel : (("ROOM NAME: ".toList ++ r.name) ++ '\n' :: rest).length = rest.length + 1 +
      ("ROOM NAME: ".toList ++ r.name).length - 1 + 1 := by
    rw [List.length_append, List.length_cons]; omega
  rw [hfuel, InitializeRoomLoop_line _ room0 0 _ rest hnl1 (by omega),
    InitializeRoomLine_name room0 0 r.name hname]
  simp only
  subst hrest
  obtain ⟨room1, fuel1, h1, h2, h3, h4, h5, h6⟩ :=
    InitializeRoomLoop_connections
      (("ROOM TYPE: ".toList ++ roomTypeTag r.roomType) ++ '\n' :: []) (connList r) 0
      ((connectionLines (connList r) (0 + 1) ++
        (("ROOM TYPE: ".toList ++ roomTypeTag r.roomType) ++ '\n' :: [])).length + 1 +
          ("ROOM NAME: ".toList ++ r.name).length - 1)
      { room0 with name := r.name } hconn (by rw [hlen]; omega) (by omega)
  rw [h2]
  obtain ⟨fuel2, rfl⟩ : ∃ fuel2, fuel1 = fuel2 + 1 := by
    rw [List.length_append, List.length_cons] at h1
    exact ⟨fuel1 - 1, by omega⟩
  rw [InitializeRoomLoop_line fuel2 room1 _ _ [] htnl (by omega),
    InitializeRoomLine_type room1 _ r.roomType]
  simp only
  rw [InitializeRoomLoop_nil]
  refine ⟨_, rfl, h3, ?_, ?_, rfl⟩
  · simp only [connList]
    rw [h6, if_neg hne, h5]
    simp only [List.take_zero, List.nil_append]
    rfl
  · simp only
    rw [h6, if_neg hne, hlen]
    omega

theorem sampleFull_room_facts :
    (sampleFull.rooms 1).name ∈ roomNames ∧
      (∀ c ∈ connList (sampleFull.rooms 1), c ∈ roomNames) ∧
      MIN_ROOM_CONNECTIONS ≤ (sampleFull.rooms 1).connectCount ∧
      (sampleFull.rooms 1).connectCount ≤ MAX_ROOM_CONNECTIONS := by
  decide

theorem room_round_trip_witness :
    ∃ r1, InitializeRoom zeroRoom (writeRoomFile (sampleFull.rooms 1)) = some r1 ∧
      r1.name = (sampleFull.rooms 1).name ∧
      connList r1 = connList (sampleFull.rooms 1) ∧
      r1.connectCount = (sampleFull.rooms 1).connectCount ∧
      r1.roomType = (sampleFull.rooms 1).roomType :=
  room_round_trip (sampleFull.rooms 1) zeroRoom sampleFull_room_facts.1
    sampleFull_room_facts.2.1 sampleFull_room_facts.2.2.1 sampleFull_room_facts.2.2.2

/-! ## Properties of the game loop -/

theorem fgetsChars_long :
    ∀ (l : List Char) (n : Nat) (rest : List Char), '\n' ∉ l → n ≤ l.length →
      fgetsChars n (l ++ rest) = (l.take n, l.drop n ++ rest)
  | l, 0, rest, _, _ => by simp [fgetsChars]
  | [], n + 1, rest, _, hn => by simp at hn
  | c :: l, n + 1, rest, hnl, hn => by
    have hc : c ≠ '\n' := fun e => hnl (by simp [e])
    have hl : '\n' ∉ l := fun e => hnl (List.mem_cons_of_mem _ e)
    have ih := fgetsChars_long l n rest hl (by simp at hn; omega)
    show fgetsChars (n + 1) (c :: (l ++ rest)) = _
    rw [fgetsChars, if_neg hc, ih]
    rfl

/-- The ten candidate names of the generator are plain names. -/
theorem roomNames_plain : ∀ n ∈ roomNames, PlainName n := by
  decide

/-- A run of characters that are no delimiters goes to the token being
read. -/
theorem strtokAll_append (delims : List Char) :
    ∀ (n acc rest : CStr), (∀ c ∈ n, delims.contains c = false) →
      strtokAll delims (n ++ rest) acc = strtokAll delims rest (acc ++ n)
  | [], acc, rest, _ => by simp
  | c :: n, acc, rest, h => by
    have hc : delims.contains c = false := h c (List.mem_cons_self _ _)
    show strtokAll delims (c :: (n ++ rest)) acc = _
    rw [strtokAll, hc]
    simp only [Bool.false_eq_true, if_false]
    rw [strtokAll_append delims n (acc ++ [c]) rest (fun x hx => h x (List.mem_cons_of_mem _ hx))]
    simp

theorem PlainName.no_delim {n : CStr} (h : PlainName n) :
    ∀ c ∈ n, " ,.".toList.contains c = false := by
  intro c hc
  have := h.2.2 c hc
  cases hd : " ,.".toList.contains c
  · rfl
  · exfalso
    apply this
    have hm : c ∈ " ,.".toList := by simpa using hd
    have hm2 : c ∈ [' ', ',', '.'] := hm
    simp only [List.mem_cons, List.mem_singleton, List.not_mem_nil, or_false] at hm2 ⊢
    tauto

/-- Splitting the string of `GetPossibleConnections` on blank, comma and
period gives back the connection names. -/
theorem strtokAll_joinConnections :
    ∀ (names : List CStr), (∀ n ∈ names, PlainName n) →
      strtokAll " ,.".toList (joinConnections names) [] = names
  | [], _ => by simp [joinConnections, strtokAll]
  | [c], h => by
    have hc := h c (List.mem_cons_self _ _)
    rw [joinConnections, strtokAll_append _ c [] _ hc.no_delim]
    simp only [List.nil_append]
    show strtokAll " ,.".toList ['.'] c = [c]
    simp [strtokAll, hc.1]
  | c :: d :: cs, h => by
    have hc := h c (List.mem_cons_self _ _)
    have ih := strtokAll_joinConnections (d :: cs) (fun x hx => h x (List.mem_cons_of_mem _ hx))
    rw [joinConnections, List.append_assoc, strtokAll_append _ c [] _ hc.no_delim]
    simp only [List.nil_append]
    show strtokAll " ,.".toList (',' :: ' ' :: joinConnections (d :: cs)) c = _
    rw [strtokAll, if_pos (by decide), if_neg hc.1, strtokAll, if_pos (by decide), if_pos rfl, ih]

theorem joinConnections_length :
    ∀ (names : List CStr), (∀ n ∈ names, n.length ≤ 30) →
      (joinConnections names).length ≤ 32 * names.length
  | [], _ => by simp [joinConnections]
  | [c], h => by
    have hc := h c (List.mem_cons_self _ _)
    simp only [joinConnections, List.length_append, List.length_singleton]
    have : ".".toList.length = 1 := rfl
    omega
  | c :: d :: cs, h => by
    have hc := h c (List.mem_cons_self _ _)
    have ih := joinConnections_length (d :: cs) (fun x hx => h x (List.mem_cons_of_mem _ hx))
    simp only [joinConnections, List.length_append, List.length_cons] at ih ⊢
    have : ", ".toList.length = 2 := rfl
    omega

theorem connList_length_le (r : Room) : (connList r).length ≤ MAX_ROOM_CONNECTIONS := by
  simp only [connList, List.length_take, List.length_ofFn]
  exact Nat.min_le_right _ _

theorem GetPossibleConnections_plain (r : Room) (h : ∀ n ∈ connList r, PlainName n) :
    GetPossibleConnections r = some (joinConnections (connList r)) := by
  unfold GetPossibleConnections
  have h1 := joinConnections_length (connList r) (fun n hn => (h n hn).2.1)
  have h2 : (connList r).length ≤ 6 := connList_length_le r
  simp only
  rw [if_pos (by omega)]

theorem GetRoomFromName_some (g : Graph) (name : CStr)
    (h : ∃ j, (g.rooms j).name = name) :
    ∃ j, GetRoomFromName g name = some j ∧ (g.rooms j).name = name := by
  unfold GetRoomFromName
  cases hf : (List.finRange NUM_REQUIRED_ROOMS).find? (fun i => decide (name = (g.rooms i).name))
  · exfalso
    obtain ⟨j, hj⟩ := h
    have := List.find?_eq_none.1 hf j (List.mem_finRange j)
    simp [hj] at this
  · rename_i j
    have := List.find?_some hf
    exact ⟨j, rfl, (of_decide_eq_true this).symm⟩

theorem find_isSome_of_mem (line : CStr) (l : List CStr) (h : line ∈ l) :
    (l.find? (fun t => decide (line = t))).isSome = true := by
  rw [List.find?_isSome]
  exact ⟨line, h, by simp⟩

theorem find_isSome_of_not_mem (line : CStr) (l : List CStr) (h : line ∉ l) :
    (l.find? (fun t => decide (line = t))).isSome = false := by
  cases hf : (l.find? (fun t => decide (line = t))).isSome
  · rfl
  · exfalso
    rw [List.find?_isSome] at hf
    obtain ⟨x, hx, hdec⟩ := hf
    exact h (by rw [of_decide_eq_true hdec]; exact hx)

/-! ## Properties of the selection loop -/

theorem selectLoop_isSome (past : Room) :
    ∀ (k : Nat) (s : Selection) (rs : List Nat), k ≤ rs.length →
      ∃ s1 rs1, selectLoop past k s rs = some (s1, rs1)
  | 0, s, rs, _ => ⟨s, rs, rfl⟩
  | k + 1, s, [], h => by simp at h
  | k + 1, s, r :: rs, h => by
    simp only [selectLoop]
    exact selectLoop_isSome past k _ rs (by simp at h; omega)

/-- The candidates left after one iteration: those in front of the one taken
stay, those behind it move down by one. -/
theorem selectStep_allRooms_getD (past : Room) (s : Selection) (r j : Nat)
    (hpos : 0 < s.numAllRooms) (hj : j < s.numAllRooms - 1) :
    (selectStep past s r).allRooms.getD j past =
      s.allRooms.getD (if r % s.numAllRooms ≤ j then j + 1 else j) past := by
  have hidx : r % s.numAllRooms < s.numAllRooms := Nat.mod_lt _ hpos
  simp only [selectStep]
  rw [collapse_getD, getD_set, getD_set]
  by_cases hc : r % s.numAllRooms ≤ j
  · have h1 : r % s.numAllRooms ≤ j ∧
        j < r % s.numAllRooms + (s.numAllRooms - 1 + 1 - r % s.numAllRooms) := by omega
    have h3 : ¬ r % s.numAllRooms = j + 1 := by omega
    simp only [h1, h3, hc, and_self, if_true, if_false]
  · have h1 : ¬ (r % s.numAllRooms ≤ j ∧
        j < r % s.numAllRooms + (s.numAllRooms - 1 + 1 - r % s.numAllRooms)) := by omega
    have h3 : ¬ r % s.numAllRooms = j := by omega
    simp only [h3, hc, false_and, if_false]

/-- The graph after one iteration: the room taken is stored at index
`numUsedRooms`. -/
theorem selectStep_graph (past : Room) (s : Selection) (r : Nat)
    (hu : s.numUsedRooms < NUM_REQUIRED_ROOMS) (i : Fin NUM_REQUIRED_ROOMS) :
    (selectStep past s r).graph.rooms i =
      if i.val = s.numUsedRooms then s.allRooms.getD (r % s.numAllRooms) past
      else s.graph.rooms i := by
  simp only [selectStep, hu, dite_true, Graph.setRoom]
  by_cases hi : i.val = s.numUsedRooms
  · have : i = ⟨s.numUsedRooms, hu⟩ := Fin.ext hi
    subst this
    simp
  · have : i ≠ ⟨s.numUsedRooms, hu⟩ := fun e => hi (by rw [e])
    simp [Function.update_noteq this, hi]

theorem Distinct.selectStep {past : Room} {s : Selection} (h : Distinct past s) (r : Nat)
    (hpos : 0 < s.numAllRooms) (hu : s.numUsedRooms < NUM_REQUIRED_ROOMS) :
    Distinct past (selectStep past s r) := by
  have hidx : r % s.numAllRooms < s.numAllRooms := Nat.mod_lt _ hpos
  have hnA : (Adventure.selectStep past s r).numAllRooms = s.numAllRooms - 1 := rfl
  have hnU : (Adventure.selectStep past s r).numUsedRooms = s.numUsedRooms + 1 := rfl
  refine ⟨?_, ?_, ?_⟩
  · intro j1 j2 h1 h2 he
    rw [hnA] at h1 h2
    rw [selectStep_allRooms_getD past s r j1 hpos h1,
      selectStep_allRooms_getD past s r j2 hpos h2] at he
    have := h.cand _ _ (by split <;> omega) (by split <;> omega) he
    split at this <;> split at this <;> omega
  · intro j i hj hi he
    rw [hnA] at hj
    rw [hnU] at hi
    rw [selectStep_allRooms_getD past s r j hpos hj, selectStep_graph past s r hu] at he
    by_cases hin : i.val = s.numUsedRooms
    · rw [if_pos hin] at he
      have := h.cand _ _ (by split <;> omega) hidx he
      split at this <;> omega
    · rw [if_neg hin] at he
      exact h.cross _ i (by split <;> omega) (by omega) he
  · intro i1 i2 h1 h2 he
    rw [hnU] at h1 h2
    rw [selectStep_graph past s r hu, selectStep_graph past s r hu] at he
    by_cases hi1 : i1.val = s.numUsedRooms
    · by_cases hi2 : i2.val = s.numUsedRooms
      · exact Fin.ext (by omega)
      · rw [if_pos hi1, if_neg hi2] at he
        exact absurd he (h.cross _ i2 hidx (by omega))
    · by_cases hi2 : i2.val = s.numUsedRooms
      · rw [if_neg hi1, if_pos hi2] at he
        exact absurd he.symm (h.cross _ i1 hidx (by omega))
      · rw [if_neg hi1, if_neg hi2] at he
        exact h.used i1 i2 (by omega) (by omega) he

theorem selectLoop_distinct (past : Room) :
    ∀ (k : Nat) (s s1 : Selection) (rs rs1 : List Nat),
      selectLoop past k s rs = some (s1, rs1) →
      s.numUsedRooms + k = NUM_REQUIRED_ROOMS →
      s.numAllRooms + s.numUsedRooms = MAX_ROOM_COUNT →
      Distinct past s → Function.Injective (fun i => (s1.graph.rooms i).name)
  | 0, s, s1, rs, rs1, h, hk, _, hd => by
    simp only [selectLoop] at h
    injection h with h
    injection h with h1 h2
    subst h1
    intro i1 i2 he
    exact hd.used i1 i2 (by have := i1.isLt; omega) (by have := i2.isLt; omega) he
  | k + 1, s, s1, [], rs1, h, _, _, _ => by
    simp [selectLoop] at h
  | k + 1, s, s1, r :: rs, rs1, h, hk, hsum, hd => by
    simp only [selectLoop] at h
    have hu : s.numUsedRooms < NUM_REQUIRED_ROOMS := by omega
    have hpos : 0 < s.numAllRooms := by
      simp only [NUM_REQUIRED_ROOMS, MAX_ROOM_COUNT] at hu hsum
      omega
    refine selectLoop_distinct past k (selectStep past s r) s1 rs rs1 h ?_ ?_
      (hd.selectStep r hpos hu)
    · simp only [selectStep]; omega
    · simp only [selectStep]; omega

theorem roomNames_getD_mem (j : Nat) (hj : j < MAX_ROOM_COUNT) :
    roomNames.getD j [] ∈ roomNames := by
  have h10 : j < 10 := hj
  interval_cases j <;> decide

theorem initAllRooms_name (stack : Fin MAX_ROOM_CONNECTIONS → CStr) (past : Room) (j : Nat)
    (hj : j < MAX_ROOM_COUNT) :
    ((initAllRooms stack).getD j past).name = roomNames.getD j [] ∧
      ((initAllRooms stack).getD j past).name ∈ roomNames := by
  have he : ((initAllRooms stack).getD j past).name = roomNames.getD j [] := by
    have h10 : j < 10 := hj
    interval_cases j <;> rfl
  exact ⟨he, he ▸ roomNames_getD_mem j hj⟩

theorem roomNames_getD_injective (j1 j2 : Nat) (h1 : j1 < MAX_ROOM_COUNT)
    (h2 : j2 < MAX_ROOM_COUNT) (he : roomNames.getD j1 [] = roomNames.getD j2 []) : j1 = j2 := by
  have h1 : j1 < 10 := h1
  have h2 : j2 < 10 := h2
  revert he
  interval_cases j1 <;> interval_cases j2 <;> decide

theorem selectStart_distinct (stack : Fin MAX_ROOM_CONNECTIONS → CStr) (past : Room) :
    Distinct past (selectStart stack) := by
  refine ⟨?_, ?_, ?_⟩
  · intro j1 j2 h1 h2 he
    simp only [selectStart] at h1 h2 he
    rw [(initAllRooms_name stack past j1 h1).1, (initAllRooms_name stack past j2 h2).1] at he
    exact roomNames_getD_injective j1 j2 h1 h2 he
  · intro j i _ hi
    exact absurd hi (Nat.not_lt_zero _)
  · intro i1 _ hi
    exact absurd hi (Nat.not_lt_zero _)

/-- What the selection loop leaves: seven rooms with pairwise distinct
candidate names, all middle rooms without connections. -/
theorem selectLoop_selectStart {stack : Fin MAX_ROOM_CONNECTIONS → CStr} {past : Room}
    {rs rs1 : List Nat} {s : Selection}
    (h : selectLoop past NUM_REQUIRED_ROOMS (selectStart stack) rs = some (s, rs1)) :
    Function.Injective (fun i => (s.graph.rooms i).name) ∧
      ∀ i, (s.graph.rooms i).name ∈ roomNames ∧
        (s.graph.rooms i).roomType = RoomType.MID_ROOM ∧ (s.graph.rooms i).connectCount = 0 := by
  refine ⟨selectLoop_distinct past _ _ _ _ _ h rfl rfl (selectStart_distinct stack past), ?_⟩
  exact selectLoop_forall past
    (fun r => r.name ∈ roomNames ∧ r.roomType = RoomType.MID_ROOM ∧ r.connectCount = 0)
    _ _ _ _ _ h rfl rfl
    (fun j hj => ⟨(initAllRooms_name stack past j hj).2, (initAllRooms_getD stack past j hj).1,
      (initAllRooms_getD stack past j hj).2⟩)
    (fun i hi => absurd hi (Nat.not_lt_zero _))

/-- C13. Room selection is without replacement: whatever the random values
(seven are drawn), the selection loop ends, and the seven rooms of the graph
then have pairwise distinct names, each one of the ten candidate names, and
every room has type `MID_ROOM` and no connections. -/
theorem selection_without_replacement (stack : Fin MAX_ROOM_CONNECTIONS → CStr) (past : Room)
    (rs : List Nat) (hrs : NUM_REQUIRED_ROOMS ≤ rs.length) :
    ∃ s rs1, selectLoop past NUM_REQUIRED_ROOMS (selectStart stack) rs = some (s, rs1) ∧
      Function.Injective (fun i => (s.graph.rooms i).name) ∧
      ∀ i, (s.graph.rooms i).name ∈ roomNames ∧
        (s.graph.rooms i).roomType = RoomType.MID_ROOM ∧ (s.graph.rooms i).connectCount = 0 := by
  obtain ⟨s, rs1, h⟩ := selectLoop_isSome past NUM_REQUIRED_ROOMS (selectStart stack) rs hrs
  exact ⟨s, rs1, h, selectLoop_selectStart h⟩

theorem selection_without_replacement_witness :
    ∃ s rs1, selectLoop zeroRoom NUM_REQUIRED_ROOMS (selectStart (fun _ => [])) sampleRun
        = some (s, rs1) ∧
      Function.Injective (fun i => (s.graph.rooms i).name) ∧
      ∀ i, (s.graph.rooms i).name ∈ roomNames ∧
        (s.graph.rooms i).roomType = RoomType.MID_ROOM ∧ (s.graph.rooms i).connectCount = 0 :=
  selection_without_replacement (fun _ => []) zeroRoom sampleRun (by decide)

/-! ## Capacity and length of the construction -/

/-- A completed call connects the pair its two loops settled on. -/
theorem AddRandomConnection_chosen {g g1 : Graph} {rs rs1 : List Nat}
    (h : AddRandomConnection g rs = some (g1, rs1)) :
    ∃ a b, chosenPair g rs = some (a, b) ∧ Connects g g1 a b := by
  unfold AddRandomConnection at h
  split at h
  · exact absurd h (by simp)
  · rename_i a rsa ha
    split at h
    · exact absurd h (by simp)
    · rename_i b rsb hb
      have hp : chosenPair g rs = some (a, b) := by
        simp [chosenPair, ha, hb]
      have hA := (CanAddConnectionFrom_iff _).1 (pickFirstRoom_some ha)
      obtain ⟨hB, hS, hC⟩ := pickSecondRoom_some hb
      have hB := (CanAddConnectionFrom_iff _).1 hB
      have hS : (g.rooms a).name ≠ (g.rooms b).name := by
        intro e
        rw [(IsSameRoom_iff _ _).2 e] at hS
        exact absurd hS (by simp)
      have hC : (g.rooms b).name ∉ connList (g.rooms a) := by
        intro e
        rw [(IsConnected_iff _ _).2 e] at hC
        exact absurd hC (by simp)
      have hab : a ≠ b := fun e => hS (by rw [e])
      split at h
      · exact absurd h (by simp)
      · rename_i ra hra
        simp only at h
        split at h
        · exact absurd h (by simp)
        · rename_i rb hrb
          injection h with h
          injection h with h1 h2
          subst h1
          obtain ⟨a1, a2, a3, a4, a5⟩ := ConnectRoom_some hra
          have e1 : (g.setRoom a ra).rooms b = g.rooms b := by
            simp [Graph.setRoom, Function.update_noteq (Ne.symm hab)]
          have e2 : (g.setRoom a ra).rooms a = ra := by
            simp [Graph.setRoom]
          rw [e1, e2] at hrb
          obtain ⟨b1, b2, b3, b4, b5⟩ := ConnectRoom_some hrb
          have ea : ((g.setRoom a ra).setRoom b rb).rooms a = ra := by
            simp [Graph.setRoom, Function.update_noteq hab]
          have eb : ((g.setRoom a ra).setRoom b rb).rooms b = rb := by
            simp [Graph.setRoom]
          have eo : ∀ i, i ≠ a → i ≠ b → ((g.setRoom a ra).setRoom b rb).rooms i = g.rooms i := by
            intro i hia hib
            simp [Graph.setRoom, Function.update_noteq hia, Function.update_noteq hib]
          refine ⟨a, b, hp, ⟨hab, hS, hA, hB, a1, b1, hC, ?_, ?_, ?_, ?_, ?_, ?_, eo⟩⟩
          · intro i
            by_cases hia : i = a
            · subst hia; rw [ea, a2]
            · by_cases hib : i = b
              · subst hib; rw [eb, b2]
              · rw [eo i hia hib]
          · intro i
            by_cases hia : i = a
            · subst hia; rw [ea, a3]
            · by_cases hib : i = b
              · subst hib; rw [eb, b3]
              · rw [eo i hia hib]
          · rw [ea, a5]
          · rw [eb, b5, a2]
          · rw [ea, a4]
          · rw [eb, b4]

theorem ReachableBy.reachable {g0 g : Graph}
    {log : List (Fin NUM_REQUIRED_ROOMS × Fin NUM_REQUIRED_ROOMS)} (h : ReachableBy g0 log g) :
    Reachable g0 g := by
  induction h with
  | init => exact Reachable.init
  | step _ hs _ ih => exact Reachable.step ih hs

theorem Reachable.exists_log {g0 g : Graph} (h : Reachable g0 g) :
    ∃ log, ReachableBy g0 log g := by
  induction h with
  | init => exact ⟨[], ReachableBy.init⟩
  | step _ hs ih =>
    obtain ⟨log, hl⟩ := ih
    obtain ⟨a, b, hp, _⟩ := AddRandomConnection_chosen hs
    exact ⟨log ++ [(a, b)], ReachableBy.step hl hs hp⟩

theorem chosenPair_connects {g g1 : Graph} {rs rs1 : List Nat} {a b : Fin NUM_REQUIRED_ROOMS}
    (h : AddRandomConnection g rs = some (g1, rs1)) (hp : chosenPair g rs = some (a, b)) :
    Connects g g1 a b := by
  obtain ⟨a1, b1, hp1, hc⟩ := AddRandomConnection_chosen h
  rw [hp] at hp1
  injection hp1 with hp1
  injection hp1 with e1 e2
  subst e1 e2
  exact hc

theorem addedNames_append (g0 : Graph) (i : Fin NUM_REQUIRED_ROOMS) :
    ∀ (l1 l2 : List (Fin NUM_REQUIRED_ROOMS × Fin NUM_REQUIRED_ROOMS)),
      addedNames g0 i (l1 ++ l2) = addedNames g0 i l1 ++ addedNames g0 i l2 := by
  intro l1 l2
  induction l1 with
  | nil => simp [addedNames]
  | cons p l1 ih =>
    obtain ⟨a, b⟩ := p
    have e : ∀ l, addedNames g0 i ((a, b) :: l) =
        (if i = a then [(g0.rooms b).name] else if i = b then [(g0.rooms a).name] else [])
          ++ addedNames g0 i l := fun _ => rfl
    rw [List.cons_append, e, e, ih, List.append_assoc]

/-- The connection list of a room is what it held at the start followed by
the names the calls added, in the order of the calls. -/
theorem ReachableBy.connList_eq {g0 g : Graph}
    {log : List (Fin NUM_REQUIRED_ROOMS × Fin NUM_REQUIRED_ROOMS)} (h : ReachableBy g0 log g) :
    ∀ i, (g.rooms i).name = (g0.rooms i).name ∧
      connList (g.rooms i) = connList (g0.rooms i) ++ addedNames g0 i log := by
  induction h with
  | init => intro i; simp [addedNames]
  | @step log g g1 rs rs1 a b _ hs hp ih =>
    have c := chosenPair_connects hs hp
    intro i
    refine ⟨by rw [c.name_eq, (ih i).1], ?_⟩
    rw [addedNames_append, ← List.append_assoc, ← (ih i).2]
    by_cases hia : i = a
    · subst hia
      rw [c.list_a, (ih b).1]
      simp [addedNames]
    · by_cases hib : i = b
      · subst hib
        rw [c.list_b, (ih a).1]
        simp [addedNames, hia]
      · rw [c.other i hia hib]
        simp [addedNames, hia, hib]

/-- C18. Connection capacity is never exceeded: in every graph reached from
an initial state by `AddRandomConnection` calls, every count is between 0 and
6; whenever the two loops of a call have settled on rooms `a` and `b`, both
`ConnectRoom` calls write a slot with an index below 6 and the call
completes; and the first `connectCount` slots of a room are the names the
calls added to it so far, in the order of the calls. -/
theorem capacity_never_exceeded (g0 g : Graph)
    (log : List (Fin NUM_REQUIRED_ROOMS × Fin NUM_REQUIRED_ROOMS)) (h0 : Initial g0)
    (hr : ReachableBy g0 log g) :
    (∀ i, 0 ≤ (g.rooms i).connectCount ∧ (g.rooms i).connectCount ≤ MAX_ROOM_CONNECTIONS) ∧
    (∀ i, connList (g.rooms i) = addedNames g0 i log ∧
      (g.rooms i).connectCount = (addedNames g0 i log).length) ∧
    (∀ rs a rs1 b rs2, pickFirstRoom g rs = some (a, rs1) →
      pickSecondRoom g a rs1 = some (b, rs2) →
      (g.rooms a).connectCount < MAX_ROOM_CONNECTIONS ∧
      ∃ ra, ConnectRoom (g.rooms a) (g.rooms b) = some ra ∧
        ((g.setRoom a ra).rooms b).connectCount < MAX_ROOM_CONNECTIONS ∧
        ∃ rb, ConnectRoom ((g.setRoom a ra).rooms b) ((g.setRoom a ra).rooms a) = some rb ∧
          AddRandomConnection g rs = some ((g.setRoom a ra).setRoom b rb, rs2)) := by
  have hI := Inv.of_reachable h0 hr.reachable
  have hlist : ∀ i, connList (g.rooms i) = addedNames g0 i log := by
    intro i
    rw [(hr.connList_eq i).2]
    simp [connList, h0.2 i]
  refine ⟨fun i => ⟨Nat.zero_le _, hI.count_le i⟩, fun i => ⟨hlist i, ?_⟩, ?_⟩
  · rw [← hlist i, connList_length _ (hI.count_le i)]
  · intro rs a rs1 b rs2 ha hb
    have hA := Nat.lt_of_le_of_ne (hI.count_le a)
      ((CanAddConnectionFrom_iff _).1 (pickFirstRoom_some ha))
    obtain ⟨hB, hS, _⟩ := pickSecondRoom_some hb
    have hB := Nat.lt_of_le_of_ne (hI.count_le b) ((CanAddConnectionFrom_iff _).1 hB)
    have hab : a ≠ b := by
      intro e
      subst e
      simp [IsSameRoom] at hS
    obtain ⟨ra, hra⟩ := ConnectRoom_isSome (g.rooms b) hA
    have e1 : (g.setRoom a ra).rooms b = g.rooms b := by
      simp [Graph.setRoom, Function.update_noteq (Ne.symm hab)]
    have hB1 : ((g.setRoom a ra).rooms b).connectCount < MAX_ROOM_CONNECTIONS := e1 ▸ hB
    obtain ⟨rb, hrb⟩ := ConnectRoom_isSome ((g.setRoom a ra).rooms a) hB1
    refine ⟨hA, ra, hra, hB1, rb, hrb, ?_⟩
    unfold AddRandomConnection
    rw [ha]
    simp only
    rw [hb]
    simp only
    rw [hra]
    simp only
    rw [hrb]

theorem sampleTwo_by : ReachableBy sampleStart [(0, 1), (1, 2)] sampleTwo :=
  ReachableBy.step (ReachableBy.step ReachableBy.init
    (show AddRandomConnection sampleStart [0, 1] = some (sampleOne, []) from rfl)
    (show chosenPair sampleStart [0, 1] = some (0, 1) from rfl))
    (show AddRandomConnection sampleOne [8, 2] = some (sampleTwo, []) from rfl)
    (show chosenPair sampleOne [8, 2] = some (1, 2) from rfl)

theorem capacity_never_exceeded_witness :
    Initial sampleStart ∧ ReachableBy sampleStart [(0, 1), (1, 2)] sampleTwo ∧
      ∀ i, connList (sampleTwo.rooms i) = addedNames sampleStart i [(0, 1), (1, 2)] ∧
        (sampleTwo.rooms i).connectCount = (addedNames sampleStart i [(0, 1), (1, 2)]).length :=
  ⟨sampleStart_initial, sampleTwo_by,
    (capacity_never_exceeded sampleStart sampleTwo [(0, 1), (1, 2)] sampleStart_initial
      sampleTwo_by).2.1⟩

theorem Connects.total_add_two {g g1 : Graph} {a b : Fin NUM_REQUIRED_ROOMS}
    (c : Connects g g1 a b) : totalConnections g1 = totalConnections g + 2 := by
  have hpoint : ∀ i, (g1.rooms i).connectCount =
      (g.rooms i).connectCount + ((if i = a then 1 else 0) + (if i = b then 1 else 0)) := by
    intro i
    by_cases hia : i = a
    · subst hia
      rw [c.count_a]
      simp [c.ne]
    · by_cases hib : i = b
      · subst hib
        rw [c.count_b]
        simp [hia]
      · rw [c.other i hia hib]
        simp [hia, hib]
  unfold Adventure.totalConnections
  simp only [hpoint, Finset.sum_add_distrib, Finset.sum_ite_eq', Finset.mem_univ, if_true]

theorem ReachableBy.total_eq {g0 g : Graph}
    {log : List (Fin NUM_REQUIRED_ROOMS × Fin NUM_REQUIRED_ROOMS)} (h : ReachableBy g0 log g) :
    totalConnections g = totalConnections g0 + 2 * log.length := by
  induction h with
  | init => simp
  | step _ hs hp ih =>
    rw [(chosenPair_connects hs hp).total_add_two, ih, List.length_append]
    simp only [List.length_singleton]
    omega

theorem Initial.total_zero {g : Graph} (h : Initial g) : totalConnections g = 0 := by
  unfold Adventure.totalConnections
  simp [h.2]

theorem Inv.totalConnections_le {g : Graph} (hI : Inv g) : totalConnections g ≤ 42 := by
  unfold totalConnections
  calc ∑ i, (g.rooms i).connectCount ≤ ∑ _i : Fin NUM_REQUIRED_ROOMS, 6 :=
        Finset.sum_le_sum (fun i _ => hI.count_le i)
    _ = 42 := by simp [NUM_REQUIRED_ROOMS]

/-- A graph with all 42 slots in use is full. -/
theorem Inv.full_of_total {g : Graph} (hI : Inv g) (h : 42 ≤ totalConnections g) :
    isGraphFull g = true := by
  rw [isGraphFull_true_iff]
  intro i
  by_contra hcon
  have hlt : (g.rooms i).connectCount < 6 := by
    have := hI.count_le i
    simp only [MIN_ROOM_CONNECTIONS, MAX_ROOM_CONNECTIONS] at hcon this
    omega
  have : totalConnections g < ∑ _i : Fin NUM_REQUIRED_ROOMS, 6 :=
    Finset.sum_lt_sum (fun j _ => hI.count_le j) ⟨i, Finset.mem_univ i, hlt⟩
  simp [NUM_REQUIRED_ROOMS] at this
  omega

/-- With `m` calls left before all slots are in use, the construction loop
does the same with `m` units of fuel as with more. -/
theorem buildConnections_fuel :
    ∀ (m : Nat) (g : Graph) (rs : List Nat) (fuel : Nat), Inv g →
      42 ≤ totalConnections g + 2 * m → m ≤ fuel →
      buildConnections fuel g rs = buildConnections m g rs
  | 0, g, rs, fuel, hI, ht, _ => by
    have hf := hI.full_of_total (by omega)
    cases fuel <;> simp [buildConnections, hf]
  | m + 1, g, rs, fuel, hI, ht, hm => by
    obtain ⟨f, rfl⟩ : ∃ f, fuel = f + 1 := ⟨fuel - 1, by omega⟩
    unfold buildConnections
    split
    · rfl
    · cases hs : AddRandomConnection g rs with
      | none => rfl
      | some p =>
        obtain ⟨g1, rs1⟩ := p
        obtain ⟨a, b, c⟩ := AddRandomConnection_some hs
        simp only
        exact buildConnections_fuel m g1 rs1 f (hI.connects c)
          (by rw [c.total_add_two]; omega) (by omega)

/-- C19. The construction loop is bounded: a completed call of
`AddRandomConnection` adds 1 to the count of exactly two different rooms and
leaves every other room as it was; so from an initial graph at most 21 calls
complete, after 21 calls `isGraphFull` holds, and the loop
`while (!isGraphFull)` never needs more than 21 calls. -/
theorem construction_bounded (g0 : Graph) (h0 : Initial g0) :
    (∀ g rs g1 rs1, AddRandomConnection g rs = some (g1, rs1) →
      ∃ a b, a ≠ b ∧ (g1.rooms a).connectCount = (g.rooms a).connectCount + 1 ∧
        (g1.rooms b).connectCount = (g.rooms b).connectCount + 1 ∧
        ∀ i, i ≠ a → i ≠ b → g1.rooms i = g.rooms i) ∧
    (∀ log g, ReachableBy g0 log g →
      log.length ≤ 21 ∧ (log.length = 21 → isGraphFull g = true)) ∧
    (∀ fuel rs, 21 ≤ fuel → buildConnections fuel g0 rs = buildConnections 21 g0 rs) := by
  refine ⟨?_, ?_, ?_⟩
  · intro g rs g1 rs1 hs
    obtain ⟨a, b, c⟩ := AddRandomConnection_some hs
    exact ⟨a, b, c.ne, c.count_a, c.count_b, c.other⟩
  · intro log g hr
    have hI := Inv.of_reachable h0 hr.reachable
    have ht := hr.total_eq
    rw [h0.total_zero] at ht
    have hle := hI.totalConnections_le
    refine ⟨by omega, fun h21 => hI.full_of_total (by omega)⟩
  · intro fuel rs hf
    exact buildConnections_fuel 21 g0 rs fuel (Inv.of_initial h0)
      (by rw [h0.total_zero]) hf

theorem construction_bounded_witness :
    Initial sampleStart ∧
      buildConnections 30 sampleStart samplePicks = buildConnections 21 sampleStart samplePicks ∧
      [(0, 1), (1, 2)].length ≤ 21 :=
  ⟨sampleStart_initial,
    (construction_bounded sampleStart sampleStart_initial).2.2 30 samplePicks (by decide),
    ((construction_bounded sampleStart sampleStart_initial).2.1 [(0, 1), (1, 2)] sampleTwo
      sampleTwo_by).1⟩

/-! ## The game loop on rooms with tokenizable names -/

theorem PlainName.tokenName {n : CStr} (h : PlainName n) : TokenName n :=
  ⟨h.1, fun c hc hd => h.2.2 c hc (by
    simp only [List.mem_cons, List.mem_singleton, List.not_mem_nil, or_false] at hd ⊢
    tauto)⟩

theorem TokenName.not_delim {n : CStr} (h : TokenName n) :
    ∀ c ∈ n, " ,.".toList.contains c = false := by
  intro c hc
  have := h.2 c hc
  cases hd : " ,.".toList.contains c
  · rfl
  · exfalso
    apply this
    have hm : c ∈ " ,.".toList := by simpa using hd
    exact hm

/-- Splitting the string of `GetPossibleConnections` on blank, comma and
period gives back the connection names, when these are not empty and free of
the three characters. -/
theorem strtokAll_joinConnections_token :
    ∀ (names : List CStr), (∀ n ∈ names, TokenName n) →
      strtokAll " ,.".toList (joinConnections names) [] = names
  | [], _ => by simp [joinConnections, strtokAll]
  | [c], h => by
    have hc := h c (List.mem_cons_self _ _)
    rw [joinConnections, strtokAll_append _ c [] _ hc.not_delim]
    simp only [List.nil_append]
    show strtokAll " ,.".toList ['.'] c = [c]
    simp [strtokAll, hc.1]
  | c :: d :: cs, h => by
    have hc := h c (List.mem_cons_self _ _)
    have ih := strtokAll_joinConnections_token (d :: cs)
      (fun x hx => h x (List.mem_cons_of_mem _ hx))
    rw [joinConnections, List.append_assoc, strtokAll_append _ c [] _ hc.not_delim]
    simp only [List.nil_append]
    show strtokAll " ,.".toList (',' :: ' ' :: joinConnections (d :: cs)) c = _
    rw [strtokAll, if_pos (by decide), if_neg hc.1, strtokAll, if_pos (by decide), if_pos rfl, ih]

theorem joinConnections_length_fit :
    ∀ (names : List CStr), (∀ n ∈ names, n.length < MAX_ROOM_NAME_LENGTH) →
      (joinConnections names).length ≤ 33 * names.length
  | [], _ => by simp [joinConnections]
  | [c], h => by
    have hc : c.length < 32 := h c (List.mem_cons_self _ _)
    simp only [joinConnections, List.length_append, List.length_singleton]
    have : ".".toList.length = 1 := rfl
    omega
  | c :: d :: cs, h => by
    have hc : c.length < 32 := h c (List.mem_cons_self _ _)
    have ih := joinConnections_length_fit (d :: cs) (fun x hx => h x (List.mem_cons_of_mem _ hx))
    simp only [joinConnections, List.length_append, List.length_cons] at ih ⊢
    have : ", ".toList.length = 2 := rfl
    omega

/-- With names that fit their 32 bytes, the string of
`GetPossibleConnections` fits its 256 bytes. -/
theorem GetPossibleConnections_fit (r : Room)
    (h : ∀ n ∈ connList r, n.length < MAX_ROOM_NAME_LENGTH) :
    GetPossibleConnections r = some (joinConnections (connList r)) := by
  unfold GetPossibleConnections
  have h1 := joinConnections_length_fit (connList r) h
  have h2 : (connList r).length ≤ 6 := connList_length_le r
  simp only
  rw [if_pos (by omega)]

/-- An iteration on a line that is none of the connection names leaves the
state as it is. -/
theorem gameIteration_stay (g : Graph) (st : NavState) (c : Fin NUM_REQUIRED_ROOMS)
    (raw : CStr) (hcur : st.cur = some c)
    (htok : ∀ n ∈ connList (g.rooms c), TokenName n)
    (hfit : ∀ n ∈ connList (g.rooms c), n.length < MAX_ROOM_NAME_LENGTH)
    (hraw : raw.dropLast ∉ connList (g.rooms c)) :
    gameIteration g st (some raw) = some st := by
  unfold gameIteration
  rw [hcur]
  simp only
  rw [GetPossibleConnections_fit _ hfit]
  simp only
  rw [strtokAll_joinConnections_token _ htok, find_isSome_of_not_mem _ _ hraw]
  simp

/-- The move branch when no room has the name: `cur` becomes NULL and is
dereferenced. -/
theorem gameIteration_move_none (g : Graph) (st : NavState) (c : Fin NUM_REQUIRED_ROOMS)
    (raw : CStr) (hcur : st.cur = some c)
    (htok : ∀ n ∈ connList (g.rooms c), TokenName n)
    (hfit : ∀ n ∈ connList (g.rooms c), n.length < MAX_ROOM_NAME_LENGTH)
    (hraw : raw.dropLast ∈ connList (g.rooms c))
    (hj : GetRoomFromName g raw.dropLast = none) :
    gameIteration g st (some raw) = none := by
  unfold gameIteration
  rw [hcur]
  simp only
  rw [GetPossibleConnections_fit _ hfit]
  simp only
  rw [strtokAll_joinConnections_token _ htok, find_isSome_of_mem _ _ hraw, if_pos rfl, hj]

/-- The move branch when the name is the name of a room and the path record
fits its buffer. -/
theorem gameIteration_move_some (g : Graph) (st : NavState) (c j : Fin NUM_REQUIRED_ROOMS)
    (raw : CStr) (hcur : st.cur = some c)
    (htok : ∀ n ∈ connList (g.rooms c), TokenName n)
    (hfit : ∀ n ∈ connList (g.rooms c), n.length < MAX_ROOM_NAME_LENGTH)
    (hraw : raw.dropLast ∈ connList (g.rooms c))
    (hj : GetRoomFromName g raw.dropLast = some j)
    (hbuf : st.pathTaken.length < st.bufferSize) :
    ∃ size, gameIteration g st (some raw) =
        some { cur := some j, steps := st.steps + 1,
               pathTaken := st.pathTaken ++ raw.dropLast ++ ['\n'], bufferSize := size } ∧
      (st.pathTaken ++ raw.dropLast ++ ['\n']).length < size := by
  have hname : (g.rooms j).name = raw.dropLast := by
    have := List.find?_some hj
    exact (of_decide_eq_true this).symm
  have hlen : raw.dropLast.length < 32 := hfit _ hraw
  have hsize : (st.pathTaken ++ (g.rooms j).name ++ ['\n']).length <
      (if st.pathTaken.length + raw.dropLast.length + 2 > st.bufferSize then
        st.bufferSize + 100 else st.bufferSize) := by
    rw [hname]
    simp only [List.length_append, List.length_singleton]
    split <;> omega
  refine ⟨_, ?_, hname ▸ hsize⟩
  unfold gameIteration
  rw [hcur]
  simp only
  rw [GetPossibleConnections_fit _ hfit]
  simp only
  rw [strtokAll_joinConnections_token _ htok, find_isSome_of_mem _ _ hraw, if_pos rfl, hj]
  simp only
  rw [if_pos hsize, hname]

/-! ## The generated graph in the player -/

theorem Reachable.name_eq {g0 g : Graph} (hr : Reachable g0 g) :
    ∀ i, (g.rooms i).name = (g0.rooms i).name := by
  induction hr with
  | init => intro i; rfl
  | step _ hs ih =>
    obtain ⟨a, b, c⟩ := AddRandomConnection_some hs
    intro i
    rw [c.name_eq, ih]

theorem setRoomType_name (g : Graph) (p i : Fin NUM_REQUIRED_ROOMS) (t : RoomType) :
    ((setRoomType g p t).rooms i).name = (g.rooms i).name ∧
      ((setRoomType g p t).rooms i).connectCount = (g.rooms i).connectCount := by
  unfold setRoomType Graph.setRoom
  by_cases h : i = p
  · subst h; simp
  · simp [Function.update_noteq h]

/-- The phases of a run of the generator that ends with a graph. -/
theorem generate_some {fuel : Nat} {stack : Fin MAX_ROOM_CONNECTIONS → CStr} {past : Room}
    {rs : List Nat} {g : Graph} (h : generate fuel stack past rs = some g) :
    ∃ s rs1 start fin rs2 rs3,
      selectLoop past NUM_REQUIRED_ROOMS (selectStart stack) rs = some (s, rs1) ∧
      pickStartEnd s.graph rs1 = some (start, fin, rs2) ∧
      buildConnections fuel
        (setRoomType (setRoomType s.graph start RoomType.START_ROOM) fin RoomType.END_ROOM) rs2
        = some (g, rs3) := by
  unfold generate at h
  simp only at h
  split at h
  · exact absurd h (by simp)
  · rename_i s rs1 hsel
    split at h
    · exact absurd h (by simp)
    · rename_i start fin rs2 hpick
      split at h
      · exact absurd h (by simp)
      · rename_i g3 rs3 hbuild
        injection h with h
        subst h
        exact ⟨s, rs1, start, fin, rs2, rs3, hsel, hpick, hbuild⟩

/-- What a graph of the generator is like: the invariant of the
construction holds, the names are candidate names, every room has 3 to 6
connections, and there are a start room and an end room. -/
theorem generate_spec {fuel : Nat} {stack : Fin MAX_ROOM_CONNECTIONS → CStr} {past : Room}
    {rs : List Nat} {g : Graph} (h : generate fuel stack past rs = some g) :
    Inv g ∧ (∀ i, (g.rooms i).name ∈ roomNames) ∧ isGraphFull g = true ∧
      (∃ s, (g.rooms s).roomType = RoomType.START_ROOM) ∧
      (∃ e, (g.rooms e).roomType = RoomType.END_ROOM) := by
  obtain ⟨s, rs1, start, fin, rs2, rs3, hsel, hpick, hbuild⟩ := generate_some h
  obtain ⟨hinj, hall⟩ := selectLoop_selectStart hsel
  obtain ⟨hr, hfull⟩ := buildConnections_some fuel hbuild
  have hne : start ≠ fin := pickStartEnd_some rs1 hpick
  have hinit : Initial
      (setRoomType (setRoomType s.graph start RoomType.START_ROOM) fin RoomType.END_ROOM) := by
    constructor
    · intro i j hij
      simp only [(setRoomType_name _ _ _ _).1] at hij
      exact hinj hij
    · intro i
      rw [(setRoomType_name _ _ _ _).2, (setRoomType_name _ _ _ _).2]
      exact (hall i).2.2
  refine ⟨Inv.of_reachable hinit hr, ?_, hfull, ⟨start, ?_⟩, ⟨fin, ?_⟩⟩
  · intro i
    rw [hr.name_eq, (setRoomType_name _ _ _ _).1, (setRoomType_name _ _ _ _).1]
    exact (hall i).1
  · rw [hr.roomType_eq, setRoomType_roomType, setRoomType_roomType]
    simp [hne]
  · rw [hr.roomType_eq, setRoomType_roomType]
    simp

theorem GetStartRoom_isSome (g : Graph) (s : Fin NUM_REQUIRED_ROOMS)
    (h : (g.rooms s).roomType = RoomType.START_ROOM) :
    ∃ s1, GetStartRoom g = some s1 ∧ (g.rooms s1).roomType = RoomType.START_ROOM := by
  unfold GetStartRoom
  cases hf : (List.finRange NUM_REQUIRED_ROOMS).find?
      (fun i => decide ((g.rooms i).roomType = RoomType.START_ROOM))
  · exfalso
    have := List.find?_eq_none.1 hf s (List.mem_finRange s)
    simp [h] at this
  · rename_i j
    have := List.find?_some hf
    exact ⟨j, rfl, of_decide_eq_true this⟩

theorem GetEndRoom_isSome (g : Graph) (e : Fin NUM_REQUIRED_ROOMS)
    (h : (g.rooms e).roomType = RoomType.END_ROOM) :
    ∃ e1, GetEndRoom g = some e1 ∧ (g.rooms e1).roomType = RoomType.END_ROOM := by
  unfold GetEndRoom
  cases hf : (List.finRange NUM_REQUIRED_ROOMS).find?
      (fun i => decide ((g.rooms i).roomType = RoomType.END_ROOM))
  · exfalso
    have := List.find?_eq_none.1 hf e (List.mem_finRange e)
    simp [h] at this
  · rename_i j
    have := List.find?_some hf
    exact ⟨j, rfl, of_decide_eq_true this⟩

/-- A loaded graph has plain connection names that name its rooms. -/
theorem LoadedFrom.closed {gen g : Graph} (hl : LoadedFrom gen g) (hI : Inv gen)
    (hn : ∀ i, (gen.rooms i).name ∈ roomNames) (c : Fin NUM_REQUIRED_ROOMS) :
    ∀ n ∈ connList (g.rooms c), PlainName n ∧ ∃ j, (g.rooms j).name = n := by
  obtain ⟨σ, hσ⟩ := hl
  intro n hmem
  rw [(hσ c).2.1] at hmem
  obtain ⟨j, hj⟩ := hI.closed _ n hmem
  refine ⟨roomNames_plain n (hj ▸ hn j), σ.symm j, ?_⟩
  rw [(hσ (σ.symm j)).1, Equiv.apply_symm_apply, hj]

/-- One iteration of the game loop on a room whose connections are plain
names of rooms of the graph: it goes through, and the current room is not
NULL afterwards. -/
theorem gameStep_total (g : Graph) (st : NavState) (c : Fin NUM_REQUIRED_ROOMS)
    (stdin : List Char) (hcur : st.cur = some c)
    (hconn : ∀ n ∈ connList (g.rooms c), PlainName n ∧ ∃ j, (g.rooms j).name = n)
    (hbuf : st.pathTaken.length < st.bufferSize) :
    ∃ st1 rest, gameStep g st stdin = some (st1, rest) ∧ (∃ c1, st1.cur = some c1) ∧
      st1.pathTaken.length < st1.bufferSize := by
  have htok : ∀ n ∈ connList (g.rooms c), TokenName n := fun n hn => (hconn n hn).1.tokenName
  have hfit : ∀ n ∈ connList (g.rooms c), n.length < MAX_ROOM_NAME_LENGTH := fun n hn => by
    have := (hconn n hn).1.2.1
    show n.length < 32
    omega
  unfold gameStep
  cases hf : fgets (MAX_ROOM_NAME_LENGTH + 1) stdin with
  | none =>
    simp only
    have : gameIteration g st none = some st := by
      unfold gameIteration
      rw [hcur]
      simp only
      rw [GetPossibleConnections_fit _ hfit]
    rw [this]
    exact ⟨st, stdin, rfl, ⟨c, hcur⟩, hbuf⟩
  | some p =>
    obtain ⟨raw, rest⟩ := p
    simp only
    by_cases hraw : raw.dropLast ∈ connList (g.rooms c)
    · obtain ⟨j, hj, _⟩ := GetRoomFromName_some g raw.dropLast (hconn _ hraw).2
      obtain ⟨size, hit, hsz⟩ := gameIteration_move_some g st c j raw hcur htok hfit hraw hj hbuf
      rw [hit]
      exact ⟨_, rest, rfl, ⟨j, rfl⟩, hsz⟩
    · rw [gameIteration_stay g st c raw hcur htok hfit hraw]
      exact ⟨st, rest, rfl, ⟨c, hcur⟩, hbuf⟩

/-- C20. Connections are closed over the graph: in every graph reached
during the construction, every name in a connection list is the name of one
of the seven rooms. Hence in the player, on a graph loaded from a graph of
the generator, the start room is found, and every iteration of the game loop
from a state whose current room is not NULL goes through, whatever the
input (`GetRoomFromName` gives a room for every line accepted as a move),
and leaves a current room that is not NULL. -/
theorem connections_closed :
    (∀ g0 g : Graph, Initial g0 → Reachable g0 g →
      ∀ i, ∀ n ∈ connList (g.rooms i), ∃ j, (g.rooms j).name = n) ∧
    (∀ (fuel : Nat) (stack : Fin MAX_ROOM_CONNECTIONS → CStr) (past : Room) (rs : List Nat)
      (gen g : Graph), generate fuel stack past rs = some gen → LoadedFrom gen g →
      (∃ s, GetStartRoom g = some s) ∧
      (∀ c line, line ∈ connList (g.rooms c) → ∃ j, GetRoomFromName g line = some j) ∧
      ∀ (st : NavState) (c : Fin NUM_REQUIRED_ROOMS) (stdin : List Char), st.cur = some c →
        st.pathTaken.length < st.bufferSize →
        ∃ st1 rest, gameStep g st stdin = some (st1, rest) ∧ (∃ c1, st1.cur = some c1) ∧
          st1.pathTaken.length < st1.bufferSize) := by
  refine ⟨fun g0 g h0 hr => (Inv.of_reachable h0 hr).closed, ?_⟩
  intro fuel stack past rs gen g hgen hload
  obtain ⟨hI, hn, _, ⟨s, hs⟩, _⟩ := generate_spec hgen
  refine ⟨?_, ?_, ?_⟩
  · obtain ⟨σ, hσ⟩ := hload
    obtain ⟨s1, h1, _⟩ := GetStartRoom_isSome g (σ.symm s)
      (by rw [(hσ _).2.2, Equiv.apply_symm_apply, hs])
    exact ⟨s1, h1⟩
  · intro c line hline
    obtain ⟨j, hj, _⟩ := GetRoomFromName_some g line (hload.closed hI hn c line hline).2
    exact ⟨j, hj⟩
  · intro st c stdin hcur hbuf
    exact gameStep_total g st c stdin hcur (hload.closed hI hn c) hbuf

theorem sampleGenerated_loaded : LoadedFrom sampleGenerated sampleGenerated :=
  ⟨Equiv.refl _, fun _ => ⟨rfl, rfl, rfl⟩⟩

theorem connections_closed_witness :
    generate 30 (fun _ => []) zeroRoom sampleRun = some sampleGenerated ∧
      LoadedFrom sampleGenerated sampleGenerated ∧
      ∃ s, GetStartRoom sampleGenerated = some s :=
  ⟨sampleGenerated_eq, sampleGenerated_loaded,
    (connections_closed.2 30 (fun _ => []) zeroRoom sampleRun sampleGenerated sampleGenerated
      sampleGenerated_eq sampleGenerated_loaded).1⟩

/-! ## Matching of the input line -/

/-- The game loop leaves the state alone when the line is not accepted. -/
theorem gameIteration_of_reject (g : Graph) (st : NavState) (c : Fin NUM_REQUIRED_ROOMS)
    (raw : CStr) (hcur : st.cur = some c) (h : acceptsLine (g.rooms c) raw = some false) :
    gameIteration g st (some raw) = some st := by
  unfold acceptsLine at h
  unfold gameIteration
  rw [hcur]
  simp only
  cases hg : GetPossibleConnections (g.rooms c) with
  | none => rw [hg] at h; exact absurd h (by simp)
  | some conns =>
    rw [hg] at h
    simp only at h
    injection h with h
    simp only
    rw [h]
    simp

/-- The game loop takes the move branch when the line is accepted: the
iteration ends with one more step, if it ends. -/
theorem gameIteration_of_accept (g : Graph) (st st1 : NavState) (c : Fin NUM_REQUIRED_ROOMS)
    (raw : CStr) (hcur : st.cur = some c) (h : acceptsLine (g.rooms c) raw = some true)
    (hit : gameIteration g st (some raw) = some st1) :
    st1.steps = st.steps + 1 ∧ st1.cur = GetRoomFromName g raw.dropLast := by
  unfold acceptsLine at h
  unfold gameIteration at hit
  rw [hcur] at hit
  simp only at hit
  cases hg : GetPossibleConnections (g.rooms c) with
  | none => rw [hg] at h; exact absurd h (by simp)
  | some conns =>
    rw [hg] at h hit
    simp only at h hit
    injection h with h
    rw [h] at hit
    simp only [if_true] at hit
    cases hj : GetRoomFromName g raw.dropLast with
    | none => rw [hj] at hit; exact absurd hit (by simp)
    | some j =>
      rw [hj] at hit
      simp only at hit
      generalize (if st.pathTaken.length + raw.dropLast.length + 2 > st.bufferSize then
        st.bufferSize + 100 else st.bufferSize) = size at hit
      split at hit
      · injection hit with hit
        subst hit
        exact ⟨rfl, rfl⟩
      · exact absurd hit (by simp)

/-- C11. A line that fills the line buffer loses its last character, newline
or not: in a room whose only connection name has 31 characters (not empty,
without blank, comma or period), the line made of that name and a period is
not a connection name; `fgets` stores it without its newline, the game loop
cuts the period off and accepts the line as a move to the room of that
name. -/
theorem exact_matching_counterexample :
    (∀ n ∈ connList (longGraph.rooms 0), TokenName n ∧ n.length < MAX_ROOM_NAME_LENGTH) ∧
      longName ++ ['.'] ∉ connList (longGraph.rooms 0) ∧
      acceptsInput (longGraph.rooms 0) (longName ++ ['.'] ++ ['\n']) = some true ∧
      (gameStep longGraph { cur := some 0, steps := 0, pathTaken := [], bufferSize := 100 }
          (longName ++ ['.'] ++ ['\n'])).map (fun p => (p.1.cur, p.1.steps)) =
        some (some 1, 1) := by
  decide

/-- Exact matching for lines that fit the line buffer: for a
room whose connection names are not empty, hold no blank, comma or period
and fit the 32 bytes of a name, and for every input line of at most 31
characters, the line is accepted as a move if and only if it is equal,
character for character, to one of the connection names. The string of
`GetPossibleConnections` split on blank, comma and period gives back the
connection names. In the game loop a line that is not accepted leaves the
state alone, and a line that is accepted costs one step. -/
theorem exact_matching_fitting (g : Graph) (st : NavState) (c : Fin NUM_REQUIRED_ROOMS)
    (content rest : List Char) (hcur : st.cur = some c)
    (htok : ∀ n ∈ connList (g.rooms c), TokenName n)
    (hfit : ∀ n ∈ connList (g.rooms c), n.length < MAX_ROOM_NAME_LENGTH)
    (hnl : '\n' ∉ content) (hlen : content.length < MAX_ROOM_NAME_LENGTH) :
    GetPossibleConnections (g.rooms c) = some (joinConnections (connList (g.rooms c))) ∧
    strtokAll " ,.".toList (joinConnections (connList (g.rooms c))) [] = connList (g.rooms c) ∧
    acceptsInput (g.rooms c) (content ++ '\n' :: rest)
      = some (decide (content ∈ connList (g.rooms c))) ∧
    (content ∉ connList (g.rooms c) → gameStep g st (content ++ '\n' :: rest) = some (st, rest)) ∧
    (content ∈ connList (g.rooms c) → ∀ st1 rest1,
      gameStep g st (content ++ '\n' :: rest) = some (st1, rest1) →
        st1.steps = st.steps + 1 ∧ st1.cur = GetRoomFromName g content) := by
  have hget := GetPossibleConnections_fit _ hfit
  have hsplit := strtokAll_joinConnections_token _ htok
  have hfg : fgets (MAX_ROOM_NAME_LENGTH + 1) (content ++ '\n' :: rest) =
      some (content ++ ['\n'], rest) :=
    fgets_line _ content rest hnl (by show content.length + 1 < 33; have : content.length < 32 := hlen; omega)
  have hacc : acceptsLine (g.rooms c) (content ++ ['\n'])
      = some (decide (content ∈ connList (g.rooms c))) := by
    unfold acceptsLine
    rw [hget]
    simp only [List.dropLast_concat]
    rw [hsplit]
    by_cases hm : content ∈ connList (g.rooms c)
    · rw [find_isSome_of_mem _ _ hm]; simp [hm]
    · rw [find_isSome_of_not_mem _ _ hm]; simp [hm]
  refine ⟨hget, hsplit, ?_, ?_, ?_⟩
  · unfold acceptsInput
    rw [hfg]
    exact hacc
  · intro hm
    unfold gameStep
    rw [hfg]
    simp only
    rw [gameIteration_of_reject g st c _ hcur (by rw [hacc]; simp [hm])]
    rfl
  · intro hm st1 rest1 hstep
    unfold gameStep at hstep
    rw [hfg] at hstep
    simp only at hstep
    cases hit : gameIteration g st (some (content ++ ['\n'])) with
    | none => rw [hit] at hstep; exact absurd hstep (by simp)
    | some st2 =>
      rw [hit] at hstep
      simp only [Option.map_some'] at hstep
      injection hstep with hstep
      injection hstep with h1 h2
      subst h1
      have := gameIteration_of_accept g st st2 c _ hcur (by rw [hacc]; simp [hm]) hit
      rwa [List.dropLast_concat] at this

theorem sampleFull_token :
    sampleNav.cur = some 0 ∧ (∀ n ∈ connList (sampleFull.rooms 0), TokenName n) ∧
      (∀ n ∈ connList (sampleFull.rooms 0), n.length < MAX_ROOM_NAME_LENGTH) ∧
      '\n' ∉ "Lounge ".toList ∧ "Lounge ".toList.length < MAX_ROOM_NAME_LENGTH :=
  ⟨rfl, by decide, by decide, by decide, by decide⟩

theorem exact_matching_fitting_witness :
    acceptsInput (sampleFull.rooms 0) ("Lounge ".toList ++ '\n' :: [])
      = some (decide ("Lounge ".toList ∈ connList (sampleFull.rooms 0))) :=
  (exact_matching_fitting sampleFull sampleNav 0 "Lounge ".toList [] sampleFull_token.1
    sampleFull_token.2.1 sampleFull_token.2.2.1 sampleFull_token.2.2.2.1
    sampleFull_token.2.2.2.2).2.2.1

/-- The last line of the input without a newline behind it: `fgets` stores
it as it is and the game loop cuts its last character off. In a room of the
generator with the connection `Library`, the line `Libraryx` is taken as a
move to the library. -/
theorem unterminated_line_cut :
    "Libraryx".toList ∉ connList (sampleFull.rooms 0) ∧
      fgets (MAX_ROOM_NAME_LENGTH + 1) "Libraryx".toList = some ("Libraryx".toList, []) ∧
      acceptsInput (sampleFull.rooms 0) "Libraryx".toList = some true ∧
      (gameStep sampleFull { cur := some 0, steps := 0, pathTaken := [], bufferSize := 100 }
          "Libraryx".toList).map (fun p => (p.1.cur, p.1.steps, p.1.pathTaken)) =
        some (some 3, 1, "Library\n".toList) := by
  decide

/-! ## Effect of one line on the navigation state -/

theorem GetRoomFromName_unique (g : Graph) (j : Fin NUM_REQUIRED_ROOMS)
    (huniq : Function.Injective (fun i => (g.rooms i).name)) :
    GetRoomFromName g (g.rooms j).name = some j := by
  obtain ⟨j1, h1, h2⟩ := GetRoomFromName_some g (g.rooms j).name ⟨j, rfl⟩
  rw [h1, huniq h2]

theorem GetStartRoom_unique (g : Graph) (s : Fin NUM_REQUIRED_ROOMS)
    (hs : (g.rooms s).roomType = RoomType.START_ROOM)
    (huniq : ∀ i, (g.rooms i).roomType = RoomType.START_ROOM → i = s) :
    GetStartRoom g = some s := by
  obtain ⟨s1, h1, h2⟩ := GetStartRoom_isSome g s hs
  rw [h1, huniq s1 h2]

theorem GetEndRoom_unique (g : Graph) (e : Fin NUM_REQUIRED_ROOMS)
    (he : (g.rooms e).roomType = RoomType.END_ROOM)
    (huniq : ∀ i, (g.rooms i).roomType = RoomType.END_ROOM → i = e) :
    GetEndRoom g = some e := by
  obtain ⟨e1, h1, h2⟩ := GetEndRoom_isSome g e he
  rw [h1, huniq e1 h2]

/-- One iteration on a line that holds a connection name of the current
room, the name of room `j`. -/
theorem gameStep_move (g : Graph) (st : NavState) (c j : Fin NUM_REQUIRED_ROOMS)
    (rest : List Char) (hcur : st.cur = some c)
    (huniq : Function.Injective (fun i => (g.rooms i).name))
    (hplain : ∀ n ∈ connList (g.rooms c), InputName n)
    (hmem : (g.rooms j).name ∈ connList (g.rooms c))
    (hbuf : st.pathTaken.length < st.bufferSize) :
    ∃ size, gameStep g st ((g.rooms j).name ++ '\n' :: rest) =
        some ({ cur := some j, steps := st.steps + 1,
                pathTaken := st.pathTaken ++ (g.rooms j).name ++ ['\n'],
                bufferSize := size }, rest) ∧
      (st.pathTaken ++ (g.rooms j).name ++ ['\n']).length < size := by
  have hp := hplain _ hmem
  have hnl : '\n' ∉ (g.rooms j).name := hp.2.2
  have hlen : (g.rooms j).name.length < 32 := hp.2.1
  have htok : ∀ n ∈ connList (g.rooms c), TokenName n := fun n hn => (hplain n hn).1
  have hfit : ∀ n ∈ connList (g.rooms c), n.length < MAX_ROOM_NAME_LENGTH :=
    fun n hn => (hplain n hn).2.1
  obtain ⟨size, hit, hsz⟩ := gameIteration_move_some g st c j ((g.rooms j).name ++ ['\n']) hcur
    htok hfit (by rw [List.dropLast_concat]; exact hmem)
    (by rw [List.dropLast_concat]; exact GetRoomFromName_unique g j huniq) hbuf
  rw [List.dropLast_concat] at hit hsz
  refine ⟨size, ?_, hsz⟩
  unfold gameStep
  rw [fgets_line _ _ rest hnl (by show (g.rooms j).name.length + 1 < 33; omega)]
  simp only
  rw [hit]
  rfl

/-- The game loop along a sequence of names that leads to the end room. -/
theorem gameLoop_leadsTo (g : Graph) (e : Fin NUM_REQUIRED_ROOMS) (rest : List Char)
    (huniq : Function.Injective (fun i => (g.rooms i).name))
    (hplain : ∀ i, ∀ n ∈ connList (g.rooms i), InputName n) :
    ∀ (names : List CStr) (c : Fin NUM_REQUIRED_ROOMS) (st : NavState) (fuel : Nat),
      LeadsTo g e c names → st.cur = some c → st.pathTaken.length < st.bufferSize →
      (names.length ≤ fuel →
        ∃ size, gameLoop g (some e) fuel st (inputLines names ++ rest) =
          some ({ cur := some e, steps := st.steps + names.length,
                  pathTaken := st.pathTaken ++ inputLines names, bufferSize := size }, rest)) ∧
      (fuel < names.length → gameLoop g (some e) fuel st (inputLines names ++ rest) = none)
  | [], c, st, fuel, hl, hcur, _ => by
    have hce : c = e := hl
    subst hce
    obtain ⟨cur, steps, path, size⟩ := st
    simp only at hcur
    subst hcur
    refine ⟨fun _ => ⟨size, ?_⟩, fun h => absurd h (Nat.not_lt_zero _)⟩
    cases fuel <;> simp [gameLoop, inputLines]
  | n :: ns, c, st, fuel, hl, hcur, hbuf => by
    obtain ⟨hne, hmem, j, hj, hrest⟩ := hl
    subst hj
    have hne' : ¬ st.cur = some e := by
      rw [hcur]
      intro h
      injection h with h
      exact hne h
    have hinput : inputLines ((g.rooms j).name :: ns) ++ rest =
        (g.rooms j).name ++ '\n' :: (inputLines ns ++ rest) := by
      simp [inputLines]
    obtain ⟨size, hstep, hsz⟩ := gameStep_move g st c j (inputLines ns ++ rest) hcur huniq
      (hplain c) hmem hbuf
    rw [hinput]
    cases fuel with
    | zero =>
      refine ⟨fun h => absurd h (by simp), fun _ => ?_⟩
      simp [gameLoop, hne']
    | succ fuel =>
      have ih := gameLoop_leadsTo g e rest huniq hplain ns j
        { cur := some j, steps := st.steps + 1,
          pathTaken := st.pathTaken ++ (g.rooms j).name ++ ['\n'], bufferSize := size }
        fuel hrest rfl hsz
      have hloop : gameLoop g (some e) (fuel + 1) st
          ((g.rooms j).name ++ '\n' :: (inputLines ns ++ rest)) =
          gameLoop g (some e) fuel
            { cur := some j, steps := st.steps + 1,
              pathTaken := st.pathTaken ++ (g.rooms j).name ++ ['\n'], bufferSize := size }
            (inputLines ns ++ rest) := by
        rw [gameLoop, if_neg hne', hstep]
      rw [hloop]
      constructor
      · intro hf
        obtain ⟨size1, h1⟩ := ih.1 (by simp at hf; omega)
        refine ⟨size1, ?_⟩
        rw [h1]
        simp [inputLines, List.append_assoc, Nat.add_assoc, Nat.add_comm 1]
      · intro hf
        exact ih.2 (by simp at hf; omega)

theorem LeadsTo.getLast {g : Graph} {e : Fin NUM_REQUIRED_ROOMS} :
    ∀ {names : List CStr} {c : Fin NUM_REQUIRED_ROOMS}, LeadsTo g e c names → names ≠ [] →
      names.getLast? = some (g.rooms e).name
  | [], _, _, h => absurd rfl h
  | [n], c, hl, _ => by
    obtain ⟨_, _, j, hj, hrest⟩ := hl
    have : j = e := hrest
    subst this
    simp [hj]
  | n :: m :: ns, c, hl, _ => by
    obtain ⟨_, _, j, _, hrest⟩ := hl
    rw [List.getLast?_cons_cons]
    exact LeadsTo.getLast hrest (by simp)

theorem inputLines_count (names : List CStr) (h : ∀ n ∈ names, '\n' ∉ n) :
    (inputLines names).count '\n' = names.length := by
  induction names with
  | nil => rfl
  | cons n ns ih =>
    have hn := h n (List.mem_cons_self _ _)
    have e : inputLines (n :: ns) = n ++ '\n' :: inputLines ns := by simp [inputLines]
    rw [e, List.count_append, List.count_cons_self, ih (fun x hx => h x (List.mem_cons_of_mem _ hx)),
      List.count_eq_zero.2 hn]
    simp

theorem LeadsTo.no_newline {g : Graph} {e : Fin NUM_REQUIRED_ROOMS}
    (hplain : ∀ i, ∀ n ∈ connList (g.rooms i), InputName n) :
    ∀ {names : List CStr} {c : Fin NUM_REQUIRED_ROOMS}, LeadsTo g e c names →
      ∀ n ∈ names, '\n' ∉ n
  | [], _, _, n, hn => by simp at hn
  | m :: ns, c, hl, n, hn => by
    obtain ⟨_, hmem, j, _, hrest⟩ := hl
    rcases List.mem_cons.1 hn with h | h
    · subst h
      exact (hplain c _ hmem).2.2
    · exact LeadsTo.no_newline hplain hrest n h

theorem blankGraph_stuck :
    ∀ fuel, gameLoop blankGraph (some 1) fuel
      { cur := some 0, steps := 0, pathTaken := [], bufferSize := 100 } [] = none
  | 0 => rfl
  | fuel + 1 => by
    have hstep : gameStep blankGraph
        { cur := some 0, steps := 0, pathTaken := [], bufferSize := 100 } [] =
        some ({ cur := some 0, steps := 0, pathTaken := [], bufferSize := 100 }, []) := rfl
    rw [gameLoop, if_neg (by decide), hstep]
    exact blankGraph_stuck fuel

theorem victory_summary_counterexample :
    Function.Injective (fun i => (blankGraph.rooms i).name) ∧
    ((blankGraph.rooms 0).roomType = RoomType.START_ROOM ∧
      ∀ i, (blankGraph.rooms i).roomType = RoomType.START_ROOM → i = 0) ∧
    ((blankGraph.rooms 1).roomType = RoomType.END_ROOM ∧
      ∀ i, (blankGraph.rooms i).roomType = RoomType.END_ROOM → i = 1) ∧
    (∀ i, ∀ n ∈ connList (blankGraph.rooms i), ∃ j, (blankGraph.rooms j).name = n) ∧
    LeadsTo blankGraph 1 0 ["End Room".toList] ∧
    gameStep blankGraph
        { cur := GetStartRoom blankGraph, steps := 0, pathTaken := [], bufferSize := 100 }
        (inputLines ["End Room".toList]) =
      some ({ cur := some 0, steps := 0, pathTaken := [], bufferSize := 100 }, []) ∧
    ∀ fuel, playGame fuel blankGraph (inputLines ["End Room".toList]) = none := by
  refine ⟨by decide, by decide, by decide, by decide,
    ⟨by decide, by decide, 1, by decide, rfl⟩, rfl, ?_⟩
  intro fuel
  cases fuel with
  | zero => rfl
  | succ fuel =>
    have hstep : gameStep blankGraph
        { cur := GetStartRoom blankGraph, steps := 0, pathTaken := [], bufferSize := 100 }
        (inputLines ["End Room".toList]) =
        some ({ cur := some 0, steps := 0, pathTaken := [], bufferSize := 100 }, []) := rfl
    have hne : ¬ (GetStartRoom blankGraph = GetEndRoom blankGraph) := by decide
    unfold playGame
    rw [gameLoop, if_neg hne, hstep]
    exact blankGraph_stuck fuel

/-- C12, amended. Victory summary on graphs whose names can be typed: for a
graph with unique names, exactly one start room and one end room, and
connection names that are not empty, hold no blank, comma, period or newline
and fit the 32 bytes of a name, and for every sequence of names that leads from the
start room to the end room, each name being a connection name of the room
reached so far and the name of the next room: the game loop is left exactly
when the end room is first entered (after as many iterations as there are
names, with the rest of the input unread), the step counter is the number of
names, the path record is the names in order, each followed by a newline, so
that its number of newlines is the step counter, and the last name is the
name of the end room. -/
theorem victory_summary_plain (g : Graph) (s e : Fin NUM_REQUIRED_ROOMS)
    (names : List CStr) (rest : List Char)
    (huniq : Function.Injective (fun i => (g.rooms i).name))
    (hs : (g.rooms s).roomType = RoomType.START_ROOM)
    (hsu : ∀ i, (g.rooms i).roomType = RoomType.START_ROOM → i = s)
    (he : (g.rooms e).roomType = RoomType.END_ROOM)
    (heu : ∀ i, (g.rooms i).roomType = RoomType.END_ROOM → i = e)
    (hplain : ∀ i, ∀ n ∈ connList (g.rooms i), InputName n)
    (hpath : LeadsTo g e s names) :
    (∀ fuel, names.length ≤ fuel →
      ∃ st, playGame fuel g (inputLines names ++ rest) = some (st, rest) ∧
        st.cur = some e ∧ st.steps = names.length ∧ st.pathTaken = inputLines names ∧
        st.pathTaken.count '\n' = st.steps) ∧
    (∀ fuel, fuel < names.length → playGame fuel g (inputLines names ++ rest) = none) ∧
    names.getLast? = some (g.rooms e).name := by
  have hne : names ≠ [] := by
    intro h
    subst h
    have hse : s = e := hpath
    rw [hse, he] at hs
    exact absurd hs (by decide)
  have hloop := gameLoop_leadsTo g e rest huniq hplain names s
    { cur := some s, steps := 0, pathTaken := [], bufferSize := 100 }
  have hplay : ∀ fuel, playGame fuel g (inputLines names ++ rest) =
      gameLoop g (some e) fuel { cur := some s, steps := 0, pathTaken := [], bufferSize := 100 }
        (inputLines names ++ rest) := by
    intro fuel
    unfold playGame
    rw [GetStartRoom_unique g s hs hsu, GetEndRoom_unique g e he heu]
  refine ⟨?_, ?_, hpath.getLast hne⟩
  · intro fuel hf
    obtain ⟨size, h⟩ := (hloop fuel hpath rfl (by simp)).1 hf
    rw [hplay, h]
    refine ⟨_, rfl, rfl, by simp, by simp, ?_⟩
    simp only [List.nil_append, Nat.zero_add]
    exact inputLines_count names (hpath.no_newline hplain)
  · intro fuel hf
    rw [hplay]
    exact (hloop fuel hpath rfl (by simp)).2 hf

theorem sampleGenerated_facts :
    Function.Injective (fun i => (sampleGenerated.rooms i).name) ∧
    (sampleGenerated.rooms 2).roomType = RoomType.START_ROOM ∧
    (∀ i, (sampleGenerated.rooms i).roomType = RoomType.START_ROOM → i = 2) ∧
    (sampleGenerated.rooms 5).roomType = RoomType.END_ROOM ∧
    (∀ i, (sampleGenerated.rooms i).roomType = RoomType.END_ROOM → i = 5) ∧
    (∀ i, ∀ n ∈ connList (sampleGenerated.rooms i), InputName n) ∧
    LeadsTo sampleGenerated 5 2 ["Hall".toList, "Lounge".toList, "Kitchen".toList] :=
  ⟨by decide, by decide, by decide, by decide, by decide, by decide,
    ⟨by decide, by decide, 1, by decide, ⟨by decide, by decide, 4, by decide,
      ⟨by decide, by decide, 5, by decide, rfl⟩⟩⟩⟩

theorem victory_summary_plain_witness :
    ∃ st, playGame 3 sampleGenerated
        (inputLines ["Hall".toList, "Lounge".toList, "Kitchen".toList] ++ "time\n".toList)
        = some (st, "time\n".toList) ∧
      st.cur = some 5 ∧ st.steps = 3 ∧
      st.pathTaken = inputLines ["Hall".toList, "Lounge".toList, "Kitchen".toList] ∧
      st.pathTaken.count '\n' = st.steps :=
  (victory_summary_plain sampleGenerated 2 5 ["Hall".toList, "Lounge".toList, "Kitchen".toList]
    "time\n".toList sampleGenerated_facts.1 sampleGenerated_facts.2.1
    sampleGenerated_facts.2.2.1 sampleGenerated_facts.2.2.2.1 sampleGenerated_facts.2.2.2.2.1
    sampleGenerated_facts.2.2.2.2.2.1 sampleGenerated_facts.2.2.2.2.2.2).1 3 (by decide)

/-! ## Lines the loader does not know -/

set_option maxRecDepth 20000 in
theorem unrecognized_line_counterexample :
    ¬ IsNameDeclaration "MY NAME IS BOB".toList ∧
    ¬ IsConnectionDeclaration "MY NAME IS BOB".toList ∧
    ¬ IsRoleDeclaration "MY NAME IS BOB".toList ∧
    (sampleFull.rooms 1).name = "Lounge".toList ∧
    (InitializeRoomLine (sampleFull.rooms 1) 0 "MY NAME IS BOB\n".toList).map
      (fun p => p.1.name) = some "BOB".toList ∧
    (InitializeRoom zeroRoom
      (writeRoomFile (sampleFull.rooms 1) ++ "MY NAME IS BOB\n".toList)).map
      (fun r => r.name) = some "BOB".toList := by
  refine ⟨?_, ?_, ?_, by decide, by decide, by decide⟩
  · rintro ⟨name, h⟩
    have := congrArg List.head? h
    simp at this
  · rintro ⟨n, name, h⟩
    have := congrArg List.head? h
    simp at this
  · rintro ⟨t, h⟩
    have := congrArg List.head? h
    simp at this

/-- C14, amended. The loader ignores the lines that hold none of its five
words: a line in which `NAME`, `CONNECTION`, `END_ROOM`, `MID_ROOM` and
`START_ROOM` do not occur leaves the name, the connection slots,
`connectCount`, `roomType` and the connection counter of the loader as they
were, and the loop of `InitializeRoom` goes on with the next line. -/
theorem unrecognized_line_ignored (room : Room) (roomCount : Nat) (l : CStr)
    (h1 : strstr l "NAME".toList = false) (h2 : strstr l "CONNECTION".toList = false)
    (h3 : strstr l "END_ROOM".toList = false) (h4 : strstr l "MID_ROOM".toList = false)
    (h5 : strstr l "START_ROOM".toList = false) :
    InitializeRoomLine room roomCount (l ++ ['\n']) = some (room, roomCount) ∧
    ∀ (fuel : Nat) (rest : List Char), '\n' ∉ l → l.length + 1 < 80 →
      InitializeRoomLoop (fuel + 1) room roomCount (l ++ '\n' :: rest) =
        InitializeRoomLoop fuel room roomCount rest := by
  have hline : InitializeRoomLine room roomCount (l ++ ['\n']) = some (room, roomCount) := by
    unfold InitializeRoomLine
    simp only [List.dropLast_concat, h1, h2, h3, h4, h5]
    simp
  refine ⟨hline, ?_⟩
  intro fuel rest hnl hlen
  rw [InitializeRoomLoop_line fuel room roomCount l rest hnl hlen, hline]

theorem unrecognized_line_ignored_witness :
    InitializeRoomLine (sampleFull.rooms 1) 4 ("hello world".toList ++ ['\n'])
      = some (sampleFull.rooms 1, 4) :=
  (unrecognized_line_ignored (sampleFull.rooms 1) 4 "hello world".toList
    (by decide) (by decide) (by decide) (by decide) (by decide)).1

/-! ## The timestamp -/

/-- C17. The line `WriteTime` writes for 2021-01-01 00:00 ends in 2020, and
the line for 2024-12-31 23:59 ends in 2025: the year written is the ISO 8601
week-based year (`%G`), which in the first and last days of a year is not
always the calendar year. -/
theorem timestamp_year_of_week :
    formatTime newYear2021 = "12:00am, Friday, January  1, 2020\n".toList ∧
    newYear2021.tm_year + 1900 = 2021 ∧
    formatTime newYearsEve2024 = "11:59pm, Tuesday, December 31, 2025\n".toList ∧
    newYearsEve2024.tm_year + 1900 = 2024 := by
  decide

/-! ## Properties of the handshake -/

theorem TimeInv.start : TimeInv timeStart := by
  constructor <;> simp [timeStart, WorkerPc.holds, MainPc.holds, WorkerPc.serving,
    WorkerPc.writing, MainPc.requesting, MainPc.reading, MainPc.ended]

set_option maxHeartbeats 4000000 in
theorem TimeInv.workerStep {s s1 : TimeState} (h : TimeInv s) (hs : workerStep s = some s1) :
    TimeInv s1 := by
  obtain ⟨h1, h2, h3, h4, h5, h6, h7, h8, h9, h10, h11, h12, h13, h14, h15, h16, h17⟩ := h
  obtain ⟨mpc, wpc, mutex, doTime, timeDone, gameDone, fileOpen, fileStamp, requests, writes,
    lastRead⟩ := s
  cases wpc <;> simp only [Adventure.workerStep] at hs <;> (try split at hs) <;> cases hs <;>
    constructor <;> (try simp_all [WorkerPc.holds, WorkerPc.serving, WorkerPc.writing]) <;>
    (cases mpc <;>
      simp_all [WorkerPc.holds, MainPc.holds, WorkerPc.serving, WorkerPc.writing,
        MainPc.requesting, MainPc.reading, MainPc.ended] <;> omega)

set_option maxHeartbeats 4000000 in
theorem TimeInv.mainStep {s s1 : TimeState} (inp : Input) (h : TimeInv s)
    (hs : mainStep inp s = some s1) : TimeInv s1 := by
  obtain ⟨h1, h2, h3, h4, h5, h6, h7, h8, h9, h10, h11, h12, h13, h14, h15, h16, h17⟩ := h
  obtain ⟨mpc, wpc, mutex, doTime, timeDone, gameDone, fileOpen, fileStamp, requests, writes,
    lastRead⟩ := s
  cases mpc <;> simp only [Adventure.mainStep] at hs <;> (try split at hs) <;>
    (try split at hs) <;> cases hs <;>
    constructor <;>
    (try simp_all [MainPc.holds, MainPc.requesting, MainPc.reading, MainPc.ended]) <;>
    (cases wpc <;>
      simp_all [WorkerPc.holds, MainPc.holds, WorkerPc.serving, WorkerPc.writing,
        MainPc.requesting, MainPc.reading, MainPc.ended])

theorem TimeInv.of_timeReachable {s : TimeState} (h : TimeReachable s) : TimeInv s := by
  induction h with
  | start => exact TimeInv.start
  | step _ hs ih =>
    rcases hs with hs | ⟨inp, hs⟩
    · exact ih.workerStep hs
    · exact ih.mainStep inp hs

theorem runSchedule_reachable :
    ∀ (sched : List (Option Input)) {s s1 : TimeState}, TimeReachable s →
      runSchedule sched s = some s1 → TimeReachable s1
  | [], s, s1, hr, h => by
    simp only [runSchedule] at h
    injection h with h
    exact h ▸ hr
  | none :: rest, s, s1, hr, h => by
    simp only [runSchedule] at h
    cases hw : workerStep s with
    | none => rw [hw] at h; exact absurd h (by simp)
    | some s2 =>
      rw [hw] at h
      exact runSchedule_reachable rest (TimeReachable.step hr (Or.inl hw)) h
  | some inp :: rest, s, s1, hr, h => by
    simp only [runSchedule] at h
    cases hm : mainStep inp s with
    | none => rw [hm] at h; exact absurd h (by simp)
    | some s2 =>
      rw [hm] at h
      exact runSchedule_reachable rest (TimeReachable.step hr (Or.inr ⟨inp, hm⟩)) h

theorem sampleTimeState_reachable : TimeReachable sampleTimeState :=
  runSchedule_reachable sampleSchedule TimeReachable.start
    (show runSchedule sampleSchedule timeStart = some sampleTimeState by decide)

theorem workerStep_counts {s s1 : TimeState} (hs : workerStep s = some s1) :
    s1.requests = s.requests ∧
      (s1.writes = s.writes ∨ (s.workerPc = WorkerPc.fclose ∧ s1.writes = s.writes + 1)) := by
  obtain ⟨mpc, wpc, mutex, doTime, timeDone, gameDone, fileOpen, fileStamp, requests, writes,
    lastRead⟩ := s
  cases wpc <;> simp only [workerStep] at hs <;> (try split at hs) <;> cases hs <;> simp

theorem mainStep_counts {inp : Input} {s s1 : TimeState} (hs : mainStep inp s = some s1) :
    s1.writes = s.writes ∧
      (s1.requests = s.requests ∨
        (s.mainPc = MainPc.setDoTime ∧ s1.requests = s.requests + 1)) := by
  obtain ⟨mpc, wpc, mutex, doTime, timeDone, gameDone, fileOpen, fileStamp, requests, writes,
    lastRead⟩ := s
  cases mpc <;> simp only [mainStep] at hs <;> (try split at hs) <;> (try split at hs) <;>
    cases hs <;> simp

theorem TimeInv.counts {s : TimeState} (h : TimeInv s) :
    (s.mainPc = MainPc.setDoTime → s.requests = s.writes) ∧
      (s.workerPc = WorkerPc.fclose → s.requests = s.writes + 1) := by
  constructor
  · intro hpc
    have hd : s.doTime = false := by
      cases hd : s.doTime
      · rfl
      · have := (h.doTime hd).2
        rw [hpc] at this
        simp [MainPc.requesting] at this
    have := h.count
    rw [hd] at this
    simpa using this
  · intro hpc
    have hd := (h.toWrite (Or.inr (Or.inr (Or.inr hpc)))).1
    have := h.count
    rw [hd, hpc] at this
    simpa using this

/-- C15. The handshake never overlaps: in every state the two threads reach,
in any interleaving, `doTime` and `timeDone` are not both true; the time
thread has the file open or is about to open it only while `doTime` is true;
the requests issued are the timestamps written or one more; a request is
issued only when every request before it has its timestamp, and a timestamp
is written only for a request that has none yet. -/
theorem handshake_never_overlaps (s : TimeState) (hr : TimeReachable s) :
    ¬ (s.doTime = true ∧ s.timeDone = true) ∧
    ((s.workerPc = WorkerPc.fopen ∨ s.workerPc.writing = true ∨ s.fileOpen = true) →
      s.doTime = true) ∧
    (s.writes ≤ s.requests ∧ s.requests ≤ s.writes + 1) ∧
    (∀ s1, TimeStep s s1 → s1.requests ≠ s.requests →
      s.requests = s.writes ∧ s1.requests = s.requests + 1 ∧ s1.writes = s.writes) ∧
    (∀ s1, TimeStep s s1 → s1.writes ≠ s.writes →
      s.requests = s.writes + 1 ∧ s1.writes = s.writes + 1 ∧ s1.requests = s.requests) := by
  have hI := TimeInv.of_timeReachable hr
  refine ⟨?_, ?_, ?_, ?_, ?_⟩
  · rintro ⟨hd, ht⟩
    have := (hI.doTime hd).1
    rw [ht] at this
    exact absurd this (by simp)
  · intro h
    have hw : s.workerPc.writing = true → s.workerPc = WorkerPc.fputs ∨
        s.workerPc = WorkerPc.fclose := by
      intro hw
      simpa [WorkerPc.writing] using hw
    have hpc : s.workerPc = WorkerPc.format ∨ s.workerPc = WorkerPc.fopen ∨
        s.workerPc = WorkerPc.fputs ∨ s.workerPc = WorkerPc.fclose := by
      rcases h with h | h | h
      · exact Or.inr (Or.inl h)
      · exact Or.inr (Or.inr (hw h))
      · exact Or.inr (Or.inr (hw (hI.fileOpen.1 h)))
    exact (hI.toWrite hpc).1
  · have := hI.count
    split at this <;> omega
  · intro s1 hs hne
    rcases hs with hs | ⟨inp, hs⟩
    · exact absurd (workerStep_counts hs).1 hne
    · obtain ⟨hw, hreq⟩ := mainStep_counts hs
      rcases hreq with hreq | ⟨hpc, hreq⟩
      · exact absurd hreq hne
      · exact ⟨hI.counts.1 hpc, hreq, hw⟩
  · intro s1 hs hne
    rcases hs with hs | ⟨inp, hs⟩
    · obtain ⟨hreq, hw⟩ := workerStep_counts hs
      rcases hw with hw | ⟨hpc, hw⟩
      · exact absurd hw hne
      · exact ⟨hI.counts.2 hpc, hw, hreq⟩
    · exact absurd (mainStep_counts hs).1 hne

theorem handshake_never_overlaps_witness :
    TimeReachable sampleTimeState ∧
      ¬ (sampleTimeState.doTime = true ∧ sampleTimeState.timeDone = true) ∧
      (sampleTimeState.writes ≤ sampleTimeState.requests ∧
        sampleTimeState.requests ≤ sampleTimeState.writes + 1) :=
  ⟨sampleTimeState_reachable,
    (handshake_never_overlaps sampleTimeState sampleTimeState_reachable).1,
    (handshake_never_overlaps sampleTimeState sampleTimeState_reachable).2.2.1⟩

/-- C16. The ordering of a time request: in every state the two threads
reach, in any interleaving, when the main thread has seen `timeDone` true and
reads `currentTime.txt`, the time thread has written and closed the file for
this request (the file is not open for writing, it holds the time of the
last request issued, and the line read is that time), and the time thread is
not handling a request; and when the time thread is about to open the file
or writes it, `timeDone` is false, `doTime` is true, a request without a
timestamp is outstanding, and the main thread is blocked in its wait. -/
theorem time_ordering (s : TimeState) (hr : TimeReachable s) :
    (s.mainPc.reading = true →
      s.timeDone = true ∧ s.fileOpen = false ∧ s.fileStamp = s.requests ∧
        s.writes = s.requests ∧ s.workerPc.serving = false) ∧
    (∀ inp s1, s.mainPc = MainPc.fgets → mainStep inp s = some s1 →
      s1.lastRead = s.requests) ∧
    ((s.workerPc = WorkerPc.fopen ∨ s.workerPc.writing = true) →
      s.timeDone = false ∧ s.doTime = true ∧ s.requests = s.writes + 1 ∧
        s.mainPc = MainPc.waiting) := by
  have hI := TimeInv.of_timeReachable hr
  have hread : s.mainPc.reading = true →
      s.timeDone = true ∧ s.fileOpen = false ∧ s.fileStamp = s.requests ∧
        s.writes = s.requests ∧ s.workerPc.serving = false := by
    intro hrd
    have ht := hI.reading (Or.inl hrd)
    have hserv : s.workerPc.serving = false := by
      cases hsv : s.workerPc.serving
      · rfl
      · have hw := (hI.serving hsv).1
        rw [hw] at hrd
        simp [MainPc.reading] at hrd
    have hd : s.doTime = false := by
      cases hd : s.doTime
      · rfl
      · have := (hI.doTime hd).1
        rw [ht] at this
        exact absurd this (by simp)
    have hopen : s.fileOpen = false := by
      cases ho : s.fileOpen
      · rfl
      · have hw := hI.fileOpen.1 ho
        have : s.workerPc.serving = true := by
          rcases (show s.workerPc = WorkerPc.fputs ∨ s.workerPc = WorkerPc.fclose by
            simpa [WorkerPc.writing] using hw) with h | h <;> rw [h] <;> rfl
        rw [hserv] at this
        exact absurd this (by simp)
    have hcount := hI.count
    rw [hd] at hcount
    exact ⟨ht, hopen, (hI.timeDone ht).2, by simpa using hcount.symm, hserv⟩
  refine ⟨hread, ?_, ?_⟩
  · intro inp s1 hpc hs
    have hst := (hread (by rw [hpc]; rfl)).2.2.1
    obtain ⟨mpc, wpc, mutex, doTime, timeDone, gameDone, fileOpen, fileStamp, requests, writes,
      lastRead⟩ := s
    simp only at hpc hst
    subst hpc
    simp only [mainStep] at hs
    cases hs
    exact hst
  · intro hw
    have hpc : s.workerPc = WorkerPc.format ∨ s.workerPc = WorkerPc.fopen ∨
        s.workerPc = WorkerPc.fputs ∨ s.workerPc = WorkerPc.fclose := by
      rcases hw with h | h
      · exact Or.inr (Or.inl h)
      · exact Or.inr (Or.inr (by simpa [WorkerPc.writing] using h))
    have hne : s.workerPc ≠ WorkerPc.clearDoTime := by
      rcases hpc with h | h | h | h <;> rw [h] <;> decide
    have hsv : s.workerPc.serving = true := by
      rcases hpc with h | h | h | h <;> rw [h] <;> rfl
    obtain ⟨hd, ht⟩ := hI.toWrite hpc
    have hcount := hI.count
    rw [hd] at hcount
    simp only [hne, ne_eq, not_false_eq_true, and_self, if_true] at hcount
    exact ⟨ht, hd, hcount, (hI.serving hsv).1⟩

theorem time_ordering_witness :
    TimeReachable sampleTimeState ∧ sampleTimeState.mainPc.reading = true ∧
      sampleTimeState.timeDone = true ∧ sampleTimeState.fileOpen = false ∧
      sampleTimeState.fileStamp = sampleTimeState.requests ∧
      sampleTimeState.writes = sampleTimeState.requests ∧
      sampleTimeState.workerPc.serving = false :=
  ⟨sampleTimeState_reachable, by decide,
    (time_ordering sampleTimeState sampleTimeState_reachable).1 (by decide)⟩

/-! ## The selection loop and the bounds of `allRooms` -/

/-- The inner loop is over when `idx` has passed `numAllRooms`: more fuel
than `numAllRooms + 1 - idx` passes adds nothing. -/
theorem collapseAccesses_fuel (n : Nat) :
    ∀ (fuel idx : Nat), n + 1 - idx ≤ fuel →
      collapseAccesses n fuel idx = collapseAccesses n (n + 1 - idx) idx
  | 0, idx, h => by
    have : n + 1 - idx = 0 := by omega
    rw [this]
  | fuel + 1, idx, h => by
    by_cases hle : idx ≤ n
    · have e : n + 1 - idx = (n + 1 - (idx + 1)) + 1 := by omega
      rw [e]
      simp only [collapseAccesses, hle, if_true]
      rw [collapseAccesses_fuel n fuel (idx + 1) (by omega)]
    · have e : n + 1 - idx = 0 := by omega
      rw [e]
      simp only [collapseAccesses, hle, if_false]

/-- Each access of the inner loop is the read of `allRooms[i+1]` or the write
of `allRooms[i]` for an `i` from `idx` to `numAllRooms`. -/
theorem collapseAccesses_mem (n : Nat) :
    ∀ (fuel idx : Nat) (a : Access), a ∈ collapseAccesses n fuel idx →
      ∃ i, idx ≤ i ∧ i ≤ n ∧ (a = Access.read (i + 1) ∨ a = Access.write i)
  | 0, idx, a, h => by
    simp [collapseAccesses] at h
  | fuel + 1, idx, a, h => by
    simp only [collapseAccesses] at h
    split at h
    · rename_i hle
      simp only [List.mem_cons] at h
      rcases h with h | h | h
      · exact ⟨idx, le_refl _, hle, Or.inl h⟩
      · exact ⟨idx, le_refl _, hle, Or.inr h⟩
      · obtain ⟨i, h1, h2, h3⟩ := collapseAccesses_mem n fuel (idx + 1) a h
        exact ⟨i, by omega, h2, h3⟩
    · simp at h

/-- The last pass of the inner loop, with `idx = numAllRooms`, reads
`allRooms[numAllRooms + 1]`. -/
theorem collapseAccesses_read_last (n : Nat) :
    ∀ (fuel idx : Nat), idx ≤ n → n + 1 - idx ≤ fuel →
      Access.read (n + 1) ∈ collapseAccesses n fuel idx
  | 0, idx, hle, h => by omega
  | fuel + 1, idx, hle, h => by
    simp only [collapseAccesses, hle, if_true, List.mem_cons]
    by_cases he : idx = n
    · exact Or.inl (by rw [he])
    · exact Or.inr (Or.inr (collapseAccesses_read_last n fuel (idx + 1) (by omega) (by omega)))

/-- One iteration of the selection loop with `numAllRooms` candidates stays
within `allRooms[0 .. numAllRooms]`, and its writes within
`allRooms[0 .. numAllRooms - 1]`. -/
theorem selectStepAccesses_bound (s : Selection) (r : Nat) (hpos : 0 < s.numAllRooms)
    (a : Access) (h : a ∈ selectStepAccesses s r) :
    a.index ≤ s.numAllRooms ∧ (∀ i, a = Access.write i → i < s.numAllRooms) := by
  have hidx : r % s.numAllRooms < s.numAllRooms := Nat.mod_lt _ hpos
  simp only [selectStepAccesses, List.mem_cons] at h
  rcases h with h | h | h
  · subst h
    exact ⟨by simp only [Access.index]; omega, fun i hi => by cases hi⟩
  · subst h
    refine ⟨by simp only [Access.index]; omega, fun i hi => ?_⟩
    injection hi with hi
    omega
  · obtain ⟨i, h1, h2, h3⟩ := collapseAccesses_mem _ _ _ a h
    rcases h3 with h3 | h3
    · subst h3
      exact ⟨by simp only [Access.index]; omega, fun i hi => by cases hi⟩
    · subst h3
      refine ⟨by simp only [Access.index]; omega, fun j hj => ?_⟩
      injection hj with hj
      omega

/-- One iteration of the selection loop with `numAllRooms` candidates reads
`allRooms[numAllRooms]`. -/
theorem selectStepAccesses_read (s : Selection) (r : Nat) (hpos : 0 < s.numAllRooms) :
    Access.read s.numAllRooms ∈ selectStepAccesses s r := by
  have hidx : r % s.numAllRooms < s.numAllRooms := Nat.mod_lt _ hpos
  simp only [selectStepAccesses, List.mem_cons]
  refine Or.inr (Or.inr ?_)
  have := collapseAccesses_read_last (s.numAllRooms - 1) (s.numAllRooms - 1 + 1)
    (r % s.numAllRooms) (by omega) (by omega)
  have e : s.numAllRooms - 1 + 1 = s.numAllRooms := by omega
  rw [e] at this
  rw [e]
  exact this

/-- The selection loop stays within `allRooms[0 .. numAllRooms]`, and its
writes within `allRooms[0 .. numAllRooms - 1]`, for the number of candidates
it starts with. -/
theorem selectLoopAccesses_bound (past : Room) :
    ∀ (k : Nat) (s : Selection) (rs : List Nat) (a : Access),
      s.numUsedRooms + k = NUM_REQUIRED_ROOMS →
      s.numAllRooms + s.numUsedRooms = MAX_ROOM_COUNT →
      a ∈ selectLoopAccesses past k s rs →
      a.index ≤ s.numAllRooms ∧ (∀ i, a = Access.write i → i < s.numAllRooms)
  | 0, s, rs, a, _, _, h => by
    simp [selectLoopAccesses] at h
  | k + 1, s, [], a, _, _, h => by
    simp [selectLoopAccesses] at h
  | k + 1, s, r :: rs, a, hk, hsum, h => by
    have hpos : 0 < s.numAllRooms := by
      simp only [NUM_REQUIRED_ROOMS, MAX_ROOM_COUNT] at hk hsum
      omega
    simp only [selectLoopAccesses, List.mem_append] at h
    rcases h with h | h
    · exact selectStepAccesses_bound s r hpos a h
    · have ih := selectLoopAccesses_bound past k (selectStep past s r) rs a
        (by simp only [selectStep]; omega) (by simp only [selectStep]; omega) h
      simp only [selectStep] at ih
      exact ⟨by omega, fun i hi => by have := ih.2 i hi; omega⟩

/-- All accesses of the selection loop of `main` go to `allRooms[0 .. 10]`,
all its writes to `allRooms[0 .. 9]`, and from the second iteration on all
accesses go to `allRooms[0 .. 9]`. -/
theorem selectLoopAccesses_main (stack : Fin MAX_ROOM_CONNECTIONS → CStr) (past : Room)
    (r : Nat) (rs : List Nat) :
    (∀ a ∈ selectLoopAccesses past NUM_REQUIRED_ROOMS (selectStart stack) (r :: rs),
      a.index ≤ MAX_ROOM_COUNT ∧ (∀ i, a = Access.write i → i < MAX_ROOM_COUNT)) ∧
    (∀ a ∈ selectLoopAccesses past 6 (selectStep past (selectStart stack) r) rs,
      a.index < MAX_ROOM_COUNT) := by
  constructor
  · intro a ha
    exact selectLoopAccesses_bound past NUM_REQUIRED_ROOMS (selectStart stack) (r :: rs) a
      rfl rfl ha
  · intro a ha
    have := (selectLoopAccesses_bound past 6 (selectStep past (selectStart stack) r) rs a
      rfl rfl ha).1
    simp only [selectStep, selectStart] at this
    simp only [MAX_ROOM_COUNT] at this ⊢
    omega

/-- C21. The selection loop leaves the candidate array: whatever `rand()`
returns, the first iteration reads `allRooms[10]`, the element behind the
array of ten, in the last pass of the collapsing loop, and stores what it
read there in `allRooms[9]`; for the value 7 of `rand()` the accesses of the
first iteration are listed. -/
theorem selection_reads_behind_array (stack : Fin MAX_ROOM_CONNECTIONS → CStr) (past : Room)
    (r : Nat) (rs : List Nat) :
    Access.read MAX_ROOM_COUNT ∈
      selectLoopAccesses past NUM_REQUIRED_ROOMS (selectStart stack) (r :: rs) ∧
    (selectStep past (selectStart stack) r).allRooms[9]? = some past ∧
    selectStepAccesses (selectStart stack) 7 =
      [Access.read 7, Access.write 7, Access.read 8, Access.write 7, Access.read 9,
       Access.write 8, Access.read 10, Access.write 9] := by
  refine ⟨?_, ?_, rfl⟩
  · simp only [selectLoopAccesses, List.mem_append]
    exact Or.inl (selectStepAccesses_read (selectStart stack) r (by simp [selectStart]))
  · have hlen : ∀ (k : Nat) (l : List Room) (idx : Nat), (collapse past k l idx).length = l.length := by
      intro k
      induction k with
      | zero => intro l idx; rfl
      | succ k ih => intro l idx; simp only [collapse, ih, List.length_set]
    have hg := collapse_getD past (9 + 1 - r % 10) ((initAllRooms stack).set (r % 10) zeroRoom)
      (r % 10) 9
    have hr : r % 10 < 10 := Nat.mod_lt _ (by decide)
    have hc : r % 10 ≤ 9 ∧ 9 < r % 10 + (9 + 1 - r % 10) := by omega
    simp only [hc, and_self, if_true] at hg
    have hpast : ((initAllRooms stack).set (r % 10) zeroRoom).getD (9 + 1) past = past := by
      rw [List.getD_eq_getElem?_getD, List.getElem?_eq_none (by simp [initAllRooms, roomNames])]
      rfl
    rw [hpast] at hg
    have hl : (collapse past (9 + 1 - r % 10) ((initAllRooms stack).set (r % 10) zeroRoom)
        (r % 10)).length = 10 := by
      rw [hlen]
      simp [initAllRooms, roomNames]
    show (collapse past (9 + 1 - r % 10) ((initAllRooms stack).set (r % 10) zeroRoom)
        (r % 10))[9]? = some past
    rw [List.getD_eq_getElem?_getD] at hg
    rw [List.getElem?_eq_getElem (by omega)] at hg ⊢
    simpa using hg

end Adventure
